import Mathlib

/-!
Verification of the library maintenance engine of `cleanup-photo-library.py`.

The script is embedded shallowly:

* A filesystem is a flat association list of paths (lists of name
  components) to entries, together with an inode table.  Regular files
  reference an inode holding the byte content (modelled as a `String`)
  and the `st_mode` bits (a `Nat`; the octal masks of the source are
  used verbatim).  Hardlinks are two paths referencing one inode, as on
  a POSIX filesystem.  Symbolic links and junctions are not modelled
  (the script only ever skips them).
* The MD5 content digest is modelled as an injective digest — the
  digest of a file is its content.  The script only ever compares
  digests for equality, and treats digest equality as content equality.
* Each mutating primitive of the `os`/`shutil` modules is one function
  on this state.  The embedding is the exception-free execution path; a
  separate variant (`removeDotGoE` and friends) models `os.unlink`
  raising `PermissionError`, which the script does not catch.
* Every `print` of a per-file action and every performed mutation is
  recorded as an `Event`, in program order.  Mutating events are only
  emitted (and applied) when they actually happen, mirroring the
  `if not dry_run:` gates of the source.  The banner/header prints,
  which name no file, are not modelled.
-/

namespace PhotoScripts

/-- A filesystem path: the list of its name components. -/
abbrev Path := List String

/-- A directory entry: a regular file referencing an inode, or a directory. -/
inductive FsEntry where
  | fileE (ino : Nat)
  | dirE
deriving DecidableEq, Repr

/-- An inode: file content (bytes, modelled as a string) and `st_mode` bits. -/
structure Inode where
  content : String
  mode : Nat
deriving DecidableEq, Repr

/-- A flat filesystem: named entries plus an inode table. -/
structure FS where
  entries : List (Path × FsEntry)
  inodes : List (Nat × Inode)
deriving DecidableEq, Repr

/-- Look up the entry at a path (first match; well-formed states have
no duplicate paths). -/
def lookupEntry (fs : FS) (p : Path) : Option FsEntry :=
  (fs.entries.find? (fun e => e.1 == p)).map (·.2)

/-- `os.path.exists`. -/
def path_exists (fs : FS) (p : Path) : Bool :=
  (lookupEntry fs p).isSome

/-- `DirEntry.is_file` / `os.path.isfile`. -/
def isfile (fs : FS) (p : Path) : Bool :=
  match lookupEntry fs p with
  | some (FsEntry.fileE _) => true
  | _ => false

/-- `os.path.isdir`. -/
def isdir (fs : FS) (p : Path) : Bool :=
  match lookupEntry fs p with
  | some FsEntry.dirE => true
  | _ => false

/-- The inode referenced by the file at `p`, if any. -/
def inoOf (fs : FS) (p : Path) : Option Nat :=
  match lookupEntry fs p with
  | some (FsEntry.fileE i) => some i
  | _ => none

/-- The inode table lookup. -/
def inodeData (fs : FS) (i : Nat) : Option Inode :=
  (fs.inodes.find? (fun e => e.1 == i)).map (·.2)

/-- `os.stat(path).st_mode` (0 when the path does not resolve; the
exception-free path of the script never hits that case). -/
def st_mode (fs : FS) (p : Path) : Nat :=
  (((inoOf fs p).bind (inodeData fs)).map (·.mode)).getD 0

/-- The byte content readable at a path. -/
def contentAt (fs : FS) (p : Path) : String :=
  (((inoOf fs p).bind (inodeData fs)).map (·.content)).getD ""

/-- `get_file_md5_hash`: the content digest of the file at a path.  MD5
is modelled as an injective digest, i.e. the digest is the content. -/
def get_file_md5_hash (fs : FS) (p : Path) : String :=
  contentAt fs p

/-- `os.unlink`: remove the directory entry at a path. -/
def os_unlink (fs : FS) (p : Path) : FS :=
  { fs with entries := fs.entries.filter (fun e => !(e.1 == p)) }

/-- `shutil.rmtree`: remove a directory and everything below it. -/
def rmtree (fs : FS) (p : Path) : FS :=
  { fs with entries := fs.entries.filter (fun e => !(p.isPrefixOf e.1)) }

/-- `os.link src dst`: add a second directory entry for the storage of
`src`. -/
def os_link (fs : FS) (src dst : Path) : FS :=
  { fs with entries := fs.entries ++ [(dst, FsEntry.fileE ((inoOf fs src).getD 0))] }

/-- `os.chmod`: set the mode bits of the inode the path resolves to. -/
def os_chmod (fs : FS) (p : Path) (m : Nat) : FS :=
  match inoOf fs p with
  | some i =>
      { fs with inodes := fs.inodes.map (fun e => if e.1 == i then (e.1, { e.2 with mode := m }) else e) }
  | none => fs

/-- `os.path.samefile`: same underlying storage (same inode). -/
def samefile (fs : FS) (p q : Path) : Bool :=
  match inoOf fs p, inoOf fs q with
  | some a, some b => a == b
  | _, _ => false

/-- A fresh inode number for a newly created file. -/
def freshIno (fs : FS) : Nat :=
  (fs.inodes.map (·.1)).foldr Nat.max 0 + 1

/-- `open(path, "w")` followed by a write: create a file with the given
content (mode `0o644`, the customary creation mode). -/
def createFile (fs : FS) (p : Path) (c : String) : FS :=
  let i := freshIno fs
  { entries := fs.entries ++ [(p, FsEntry.fileE i)],
    inodes := fs.inodes ++ [(i, { content := c, mode := 0o644 })] }

/-- `os.scandir`: the immediate children of a directory, as
(name, entry) pairs, in entry-list order. -/
def scandir (fs : FS) (p : Path) : List (String × FsEntry) :=
  fs.entries.filterMap (fun e =>
    if e.1.take p.length == p then
      match e.1.drop p.length with
      | [n] => some (n, e.2)
      | _ => none
    else none)

def PROJECT_RAW_SUBDIR : String := "0_RAW"

def PROJECT_EDIT_SUBDIR : String := "1_EDIT"

def PROJECT_EXPORT_SUBDIR : String := "2_EXPORT"

/-- One reported or performed action of the script.  `print…` events
are the per-file report lines (always emitted); `op…` events are the
filesystem mutations (emitted exactly when performed, i.e. not in dry
runs). -/
inductive Event where
  | printRemove (p : Path)
  | printRemoveDir (p : Path)
  | printLink (sel : Path) (rawName : String)
  | printWarn (sel : Path) (selectMd5 rawMd5 : String)
  | printChmod (p : Path) (mode : Nat)
  | opUnlink (p : Path)
  | opRmtree (p : Path)
  | opLink (src dst : Path)
  | opChmod (p : Path) (mode : Nat)
  | opCreate (p : Path) (content : String)
deriving DecidableEq, Repr

/-- The path a report line declares as affected.  The mismatch warning
explicitly reports that no action is taken, so it names no affected
path. -/
def Event.reportedPath : Event → Option Path
  | Event.printRemove p => some p
  | Event.printRemoveDir p => some p
  | Event.printLink sel _ => some sel
  | Event.printChmod p _ => some p
  | _ => none

/-- The path targeted by a performed mutation (a removed edit-stage
directory stands, as in the report, for its whole subtree). -/
def Event.opPath : Event → Option Path
  | Event.opUnlink p => some p
  | Event.opRmtree p => some p
  | Event.opLink _ dst => some dst
  | Event.opChmod p _ => some p
  | Event.opCreate p _ => some p
  | _ => none

def reportedPaths (evs : List Event) : List Path :=
  evs.filterMap Event.reportedPath

def opPaths (evs : List Event) : List Path :=
  evs.filterMap Event.opPath

/-- `str.startswith(pre)`, implemented on the underlying character
list so that the kernel can evaluate it. -/
def strStartsWith (s pre : String) : Bool :=
  pre.data.isPrefixOf s.data

/-- Does a path (relative to the project at `pp`) match the recursive
glob pattern `{project_path}/**/._*`?  Python's `glob` with
`recursive=True` lets `**` cross only non-hidden directories (names
starting with `.` are special-cased), while the final component `._*`
does match hidden names because the pattern itself starts with a dot. -/
def dotGlobMatch (pp : Path) (q : Path) : Bool :=
  (q.take pp.length == pp) &&
    (let rest := q.drop pp.length
     !rest.isEmpty &&
       rest.dropLast.all (fun c => !(strStartsWith c ".")) &&
       strStartsWith (rest.getLastD "") "._")

/-- `glob.glob(f"{project_path}/**/._*", recursive=True)`: the matching
paths, in entry-list order. -/
def glob_dot_files (pp : Path) (fs : FS) : List Path :=
  (fs.entries.filter (fun e => dotGlobMatch pp e.1)).map (·.1)

/-- The loop body of `remove_dot_files`: report each match, and unlink
it unless this is a dry run. -/
def removeDotGo (dry : Bool) : List Path → FS → List Event → FS × List Event
  | [], fs, evs => (fs, evs)
  | f :: rest, fs, evs =>
    let evs := evs ++ [Event.printRemove f]
    if dry then removeDotGo dry rest fs evs
    else removeDotGo dry rest (os_unlink fs f) (evs ++ [Event.opUnlink f])

/-- `remove_dot_files`: sweep `._*` files found by the recursive glob. -/
def remove_dot_files (pp : Path) (dry : Bool) (fs : FS) : FS × List Event :=
  removeDotGo dry (glob_dot_files pp fs) fs []

/-- The loop body of `remove_edit_files`: files are unlinked,
directories are removed recursively with `shutil.rmtree`. -/
def removeEditGo (dry : Bool) (edit : Path) :
    List (String × FsEntry) → FS → List Event → FS × List Event
  | [], fs, evs => (fs, evs)
  | (n, FsEntry.fileE _) :: rest, fs, evs =>
    let p := edit ++ [n]
    let evs := evs ++ [Event.printRemove p]
    if dry then removeEditGo dry edit rest fs evs
    else removeEditGo dry edit rest (os_unlink fs p) (evs ++ [Event.opUnlink p])
  | (n, FsEntry.dirE) :: rest, fs, evs =>
    let p := edit ++ [n]
    let evs := evs ++ [Event.printRemoveDir p]
    if dry then removeEditGo dry edit rest fs evs
    else removeEditGo dry edit rest (rmtree fs p) (evs ++ [Event.opRmtree p])

/-- `remove_edit_files`: empty the `1_EDIT` stage subdirectory. -/
def remove_edit_files (pp : Path) (dry : Bool) (fs : FS) : FS × List Event :=
  let export_dir := pp ++ [PROJECT_EDIT_SUBDIR]
  if isdir fs export_dir then removeEditGo dry export_dir (scandir fs export_dir) fs []
  else (fs, [])

/-- The select candidates of `hardlink_select_files`: regular,
non-hidden root files (symlinks and junctions do not exist in the
model). -/
def select_files (pp : Path) (fs : FS) : List String :=
  (scandir fs pp).filterMap (fun e =>
    match e with
    | (n, FsEntry.fileE _) => if strStartsWith n "." then none else some n
    | _ => none)

/-- The loop body of `hardlink_select_files`: for each select name,
check the same-named raw candidate; equal digests are relinked
(unlink, then link — the source's order), differing digests warned. -/
def hardlinkGo (pp : Path) (dry : Bool) :
    List String → FS → List Event → FS × List Event
  | [], fs, evs => (fs, evs)
  | n :: rest, fs, evs =>
    let select_path := pp ++ [n]
    let raw_candidate := pp ++ [PROJECT_RAW_SUBDIR, n]
    if path_exists fs raw_candidate && !(samefile fs select_path raw_candidate) then
      let select_md5 := get_file_md5_hash fs select_path
      let raw_md5 := get_file_md5_hash fs raw_candidate
      if select_md5 == raw_md5 then
        let evs := evs ++ [Event.printLink select_path n]
        if dry then hardlinkGo pp dry rest fs evs
        else
          let fs1 := os_unlink fs select_path
          let fs2 := os_link fs1 raw_candidate select_path
          hardlinkGo pp dry rest fs2
            (evs ++ [Event.opUnlink select_path, Event.opLink raw_candidate select_path])
      else
        hardlinkGo pp dry rest fs (evs ++ [Event.printWarn select_path select_md5 raw_md5])
    else hardlinkGo pp dry rest fs evs

/-- `hardlink_select_files`: deduplicate project-root selects against
same-named files in `0_RAW`. -/
def hardlink_select_files (pp : Path) (dry : Bool) (fs : FS) : FS × List Event :=
  if isdir fs (pp ++ [PROJECT_RAW_SUBDIR]) then
    hardlinkGo pp dry (select_files pp fs) fs []
  else (fs, [])

/-- `set_file_mode`: report the new octal mode, and apply it unless
this is a dry run. -/
def set_file_mode (p : Path) (m : Nat) (dry : Bool) (fs : FS) : FS × List Event :=
  ((if dry then fs else os_chmod fs p m),
    Event.printChmod p m :: (if dry then [] else [Event.opChmod p m]))

/-- `set_file_readonly`: strip write and execute bits when any is set
(`mode` of the source is inlined as `st_mode fs p`). -/
def set_file_readonly (p : Path) (dry : Bool) (fs : FS) : FS × List Event :=
  if st_mode fs p &&& 0o333 ≠ 0 then
    set_file_mode p (st_mode fs p &&& 0o777444) dry fs
  else (fs, [])

/-- `set_file_readwrite`: force read+write for all and clear execute
bits, when not already in that state. -/
def set_file_readwrite (p : Path) (dry : Bool) (fs : FS) : FS × List Event :=
  if st_mode fs p &&& 0o111 ≠ 0 ∨ st_mode fs p &&& 0o666 ≠ 0o666 then
    set_file_mode p ((st_mode fs p &&& 0o777666) ||| 0o666) dry fs
  else (fs, [])

/-- The characters after the last `.` of a name, if any. -/
def extSplit : List Char → Option (List Char)
  | [] => none
  | c :: rest =>
    match extSplit rest with
    | some e => some e
    | none => if c == '.' then some rest else none

/-- `os.path.splitext(...)[1].lower()` applied to a name: the
lowercased extension, with Python's rule that leading dots of the
basename never start an extension.  Implemented on the underlying
character list so that the kernel can evaluate it. -/
def splitextLower (n : String) : String :=
  let core := n.data.dropWhile (fun c => c == '.')
  match extSplit core with
  | some e => String.mk ('.' :: e.map Char.toLower)
  | none => ""

/-- The names of the regular files directly inside `0_RAW`. -/
def raw_files (pp : Path) (fs : FS) : List String :=
  (scandir fs (pp ++ [PROJECT_RAW_SUBDIR])).filterMap (fun e =>
    match e with
    | (n, FsEntry.fileE _) => some n
    | _ => none)

/-- The `raw_path_set` accumulated by the raw pass of
`set_files_permissions`: the full paths of the raw files. -/
def raw_path_set (pp : Path) (fs : FS) : List Path :=
  (raw_files pp fs).map (fun n => pp ++ [PROJECT_RAW_SUBDIR, n])

/-- The raw pass of `set_files_permissions`: make every regular file
in `0_RAW` read-only. -/
def rawsGo (raw_dir : Path) (dry : Bool) :
    List String → FS → List Event → FS × List Event
  | [], fs, evs => (fs, evs)
  | n :: rest, fs, evs =>
    rawsGo raw_dir dry rest (set_file_readonly (raw_dir ++ [n]) dry fs).1
      (evs ++ (set_file_readonly (raw_dir ++ [n]) dry fs).2)

/-- The names of the regular files directly at the project root
(hidden names included — `set_files_permissions` does not filter
them). -/
def project_root_files (pp : Path) (fs : FS) : List String :=
  (scandir fs pp).filterMap (fun e =>
    match e with
    | (n, FsEntry.fileE _) => some n
    | _ => none)

/-- The root pass of `set_files_permissions`: skip files claimed by the
raw set when deduplication is on, make `.xmp` sidecars read-write and
everything else read-only. -/
def rootGo (pp : Path) (hl : Bool) (rps : List Path) (dry : Bool) :
    List String → FS → List Event → FS × List Event
  | [], fs, evs => (fs, evs)
  | n :: rest, fs, evs =>
    if hl && rps.contains (pp ++ [n]) then rootGo pp hl rps dry rest fs evs
    else if splitextLower n == ".xmp" then
      rootGo pp hl rps dry rest (set_file_readwrite (pp ++ [n]) dry fs).1
        (evs ++ (set_file_readwrite (pp ++ [n]) dry fs).2)
    else
      rootGo pp hl rps dry rest (set_file_readonly (pp ++ [n]) dry fs).1
        (evs ++ (set_file_readonly (pp ++ [n]) dry fs).2)

/-- The raw pass of `set_files_permissions`, including its
`os.path.exists` gate (the source tests existence here, not
`isdir`). -/
def rawPass (pp : Path) (dry : Bool) (fs : FS) : FS × List Event :=
  if path_exists fs (pp ++ [PROJECT_RAW_SUBDIR]) then
    rawsGo (pp ++ [PROJECT_RAW_SUBDIR]) dry (raw_files pp fs) fs []
  else (fs, [])

/-- The `raw_path_set` visible to the root pass: populated only when
the raw directory exists. -/
def rps_of (pp : Path) (fs : FS) : List Path :=
  if path_exists fs (pp ++ [PROJECT_RAW_SUBDIR]) then raw_path_set pp fs else []

/-- `set_files_permissions`: raw pass (read-only) followed by the
project-root pass (the root file list is taken after the raw pass, as
in the source; the raw pass changes no entries, only modes). -/
def set_files_permissions (pp : Path) (hl dry : Bool) (fs : FS) : FS × List Event :=
  rootGo pp hl (rps_of pp fs) dry (project_root_files pp (rawPass pp dry fs).1)
    (rawPass pp dry fs).1 (rawPass pp dry fs).2

/-- `cleanup_project`: the per-project pipeline, in source order
(sweep, edit removal, dedup, permissions), each stage gated by its
flag. -/
def cleanup_project (pp : Path)
    (remove_dotfiles remove_edits hardlink_selects fix_permissions dry_run : Bool)
    (fs : FS) : FS × List Event :=
  let s1 := if remove_dotfiles then remove_dot_files pp dry_run fs else (fs, [])
  let s2 := if remove_edits then remove_edit_files pp dry_run s1.1 else (s1.1, [])
  let s3 := if hardlink_selects then hardlink_select_files pp dry_run s2.1 else (s2.1, [])
  let s4 := if fix_permissions then set_files_permissions pp hardlink_selects dry_run s3.1
            else (s3.1, [])
  (s4.1, s1.2 ++ s2.2 ++ s3.2 ++ s4.2)

/-- `are_hardlinks_supported`: create `.dummy.dat` in the given
directory, hardlink it to `.dummy.dat.link`, and remove both in the
`finally` block.  The model is the success path, so the probe answers
`true`.  Note that nothing here is gated on a dry-run flag — the
source takes none. -/
def are_hardlinks_supported (p : Path) (fs : FS) : Bool × FS × List Event :=
  let dummy_file := p ++ [".dummy.dat"]
  let dummy_link := p ++ [".dummy.dat.link"]
  let fs1 := createFile fs dummy_file "TEST"
  let fs2 := os_link fs1 dummy_file dummy_link
  let cleanup1 :=
    if path_exists fs2 dummy_link then (os_unlink fs2 dummy_link, [Event.opUnlink dummy_link])
    else (fs2, [])
  let cleanup2 :=
    if path_exists cleanup1.1 dummy_file then
      (os_unlink cleanup1.1 dummy_file, [Event.opUnlink dummy_file])
    else (cleanup1.1, [])
  (true, cleanup2.1,
    [Event.opCreate dummy_file "TEST", Event.opLink dummy_file dummy_link] ++
      cleanup1.2 ++ cleanup2.2)

/-- The immediate subdirectory names of a directory. -/
def subdirsOf (fs : FS) (p : Path) : List String :=
  (scandir fs p).filterMap (fun e =>
    match e with
    | (n, FsEntry.dirE) => some n
    | _ => none)

/-- Is `q` strictly below `p`? -/
def strictUnder (p q : Path) : Bool :=
  p.isPrefixOf q && !(q == p)

/-- Termination measure for `find_projects`: how many entries lie
strictly below the visited directory. -/
def fpMeasure (fs : FS) (p : Path) : Nat :=
  (fs.entries.filter (fun e => strictUnder p e.1)).length

theorem length_filter_lt_of_mem {α : Type _} (l : List α) (P Q : α → Bool)
    (hPQ : ∀ a, Q a = true → P a = true) (x : α) (hx : x ∈ l)
    (hPx : P x = true) (hQx : Q x = false) :
    (l.filter Q).length < (l.filter P).length := by
  induction l with
  | nil => cases hx
  | cons a t ih =>
    rw [List.filter_cons, List.filter_cons]
    rcases List.mem_cons.mp hx with rfl | hxt
    · simp only [hPx, hQx, if_true, if_false, Bool.false_eq_true, List.length_cons]
      exact Nat.lt_succ_of_le (List.monotone_filter_right t hPQ).length_le
    · by_cases hQa : Q a = true
      · simp only [hQa, hPQ a hQa, if_true, List.length_cons]
        exact Nat.succ_lt_succ (ih hxt)
      · rw [Bool.not_eq_true] at hQa
        by_cases hPa : P a = true
        · simp only [hQa, hPa, if_true, if_false, Bool.false_eq_true, List.length_cons]
          exact Nat.lt_succ_of_lt (ih hxt)
        · rw [Bool.not_eq_true] at hPa
          simp only [hQa, hPa, if_false, Bool.false_eq_true]
          exact ih hxt

theorem strictUnder_trans_child {p : Path} {n : String} {q : Path}
    (h : strictUnder (p ++ [n]) q = true) : strictUnder p q = true := by
  unfold strictUnder at h ⊢
  rw [Bool.and_eq_true] at h
  obtain ⟨h1, h2⟩ := h
  have hpre : (p ++ [n]).isPrefixOf q = true := h1
  rw [List.isPrefixOf_iff_prefix] at hpre
  have hp : p <+: q := List.IsPrefix.trans ⟨[n], rfl⟩ hpre
  rw [Bool.and_eq_true]
  constructor
  · rw [List.isPrefixOf_iff_prefix]; exact hp
  · simp only [Bool.not_eq_true', beq_eq_false_iff_ne, ne_eq]
    intro hq
    subst hq
    have := List.IsPrefix.length_le hpre
    simp at this

theorem mem_scandir_entry {fs : FS} {p : Path} {n : String} {e : FsEntry}
    (h : (n, e) ∈ scandir fs p) : (p ++ [n], e) ∈ fs.entries := by
  unfold scandir at h
  rw [List.mem_filterMap] at h
  obtain ⟨⟨q, e'⟩, hq, hmap⟩ := h
  by_cases htake : q.take p.length == p
  · simp only [htake, if_true] at hmap
    cases hdrop : q.drop p.length with
    | nil => rw [hdrop] at hmap; cases hmap
    | cons m t =>
      cases t with
      | nil =>
        rw [hdrop] at hmap
        cases hmap
        have hq' : q = p ++ [n] := by
          conv_lhs => rw [← List.take_append_drop p.length q]
          rw [hdrop]
          have ht : q.take p.length = p := beq_iff_eq.mp htake
          rw [ht]
        rw [← hq']
        exact hq
      | cons m2 t2 => rw [hdrop] at hmap; cases hmap
  · simp only [Bool.not_eq_true] at htake
    rw [htake] at hmap
    cases hmap

theorem fpMeasure_child_lt {fs : FS} {p : Path} {n : String}
    (h : n ∈ subdirsOf fs p) : fpMeasure fs (p ++ [n]) < fpMeasure fs p := by
  unfold subdirsOf at h
  rw [List.mem_filterMap] at h
  obtain ⟨⟨m, e⟩, hm, hmap⟩ := h
  cases e with
  | fileE _ => cases hmap
  | dirE =>
    cases hmap
    have hentry : (p ++ [n], FsEntry.dirE) ∈ fs.entries := mem_scandir_entry hm
    unfold fpMeasure
    apply length_filter_lt_of_mem fs.entries _ _
      (fun a ha => strictUnder_trans_child ha) (p ++ [n], FsEntry.dirE) hentry
    · unfold strictUnder
      rw [Bool.and_eq_true]
      constructor
      · rw [List.isPrefixOf_iff_prefix]; exact ⟨[n], rfl⟩
      · simp only [Bool.not_eq_true', beq_eq_false_iff_ne, ne_eq]
        intro hq
        have := congrArg List.length hq
        simp at this
    · unfold strictUnder
      simp

/-- `find_projects`: a directory containing a stage subdirectory is a
project; otherwise recurse into every subdirectory. -/
def find_projects (fs : FS) (p : Path) : List Path :=
  let subdirs := subdirsOf fs p
  if subdirs.any (fun n =>
      n == PROJECT_RAW_SUBDIR || n == PROJECT_EDIT_SUBDIR || n == PROJECT_EXPORT_SUBDIR) then
    [p]
  else
    subdirs.attach.flatMap (fun x => find_projects fs (p ++ [x.1]))
termination_by fpMeasure fs p
decreasing_by exact fpMeasure_child_lt x.2

/-- The per-project loop of `cleanup_photo_library`. -/
def projectsGo (rd re hl fp dry : Bool) :
    List Path → FS → List Event → FS × List Event
  | [], fs, evs => (fs, evs)
  | p :: rest, fs, evs =>
    let r := cleanup_project p rd re hl fp dry fs
    projectsGo rd re hl fp dry rest r.1 (evs ++ r.2)

/-- `cleanup_photo_library`: probe hardlink capability once when
deduplication is requested (dry run or not), then process every
located project. -/
def cleanup_photo_library (lp : Path)
    (remove_dotfiles remove_edits hardlink_selects fix_permissions dry_run : Bool)
    (fs : FS) : FS × List Event :=
  let probe :=
    if hardlink_selects then are_hardlinks_supported lp fs
    else (false, fs, [])
  let can_use_hardlinks := probe.1
  projectsGo remove_dotfiles remove_edits (hardlink_selects && can_use_hardlinks)
    fix_permissions dry_run (find_projects probe.2.1 lp) probe.2.1 probe.2.2

/-!  Frame lemmas about the filesystem primitives.  -/

theorem find?_congr_pred {α : Type _} (l : List α) (p q : α → Bool)
    (h : ∀ a, p a = q a) : l.find? p = l.find? q := by
  induction l with
  | nil => rfl
  | cons a t ih =>
    by_cases hpa : p a = true
    · rw [List.find?_cons_of_pos _ hpa, List.find?_cons_of_pos _ (by rw [← h a]; exact hpa)]
    · rw [Bool.not_eq_true] at hpa
      rw [List.find?_cons_of_neg _ (by rw [hpa]; simp),
        List.find?_cons_of_neg _ (by rw [← h a, hpa]; simp)]
      exact ih

theorem find?_filter_of_pred {α : Type _} (l : List α) (f g : α → Bool)
    (h : ∀ a, f a = true → g a = true) : (l.filter g).find? f = l.find? f := by
  induction l with
  | nil => rfl
  | cons a t ih =>
    rw [List.filter_cons]
    by_cases hg : g a = true
    · rw [if_pos hg]
      by_cases hf : f a = true
      · rw [List.find?_cons_of_pos _ hf, List.find?_cons_of_pos _ hf]
      · rw [Bool.not_eq_true] at hf
        rw [List.find?_cons_of_neg _ (by rw [hf]; simp),
          List.find?_cons_of_neg _ (by rw [hf]; simp)]
        exact ih
    · rw [if_neg hg]
      rw [Bool.not_eq_true] at hg
      have hf : f a = false := by
        cases hfa : f a
        · rfl
        · rw [h a hfa] at hg; cases hg
      rw [List.find?_cons_of_neg _ (by rw [hf]; simp)]
      exact ih

theorem lookupEntry_os_unlink_ne {fs : FS} {p q : Path} (h : p ≠ q) :
    lookupEntry (os_unlink fs q) p = lookupEntry fs p := by
  unfold lookupEntry os_unlink
  simp only
  rw [find?_filter_of_pred]
  intro a ha
  rw [beq_iff_eq] at ha
  simp only [Bool.not_eq_eq_eq_not, Bool.not_true, beq_eq_false_iff_ne, ne_eq]
  rw [ha]
  exact h

theorem lookupEntry_rmtree_not_under {fs : FS} {p q : Path}
    (h : q.isPrefixOf p = false) :
    lookupEntry (rmtree fs q) p = lookupEntry fs p := by
  unfold lookupEntry rmtree
  simp only
  rw [find?_filter_of_pred]
  intro a ha
  rw [beq_iff_eq] at ha
  simp only [Bool.not_eq_eq_eq_not, Bool.not_true]
  rw [ha]
  exact h

theorem lookupEntry_os_link_ne {fs : FS} {src dst p : Path} (h : p ≠ dst) :
    lookupEntry (os_link fs src dst) p = lookupEntry fs p := by
  unfold lookupEntry os_link
  simp only [List.find?_append]
  have hbeq : ((dst, FsEntry.fileE ((inoOf fs src).getD 0)).1 == p) = false := by
    simp only [beq_eq_false_iff_ne, ne_eq]
    exact fun hdp => h hdp.symm
  cases hfind : fs.entries.find? (fun e => e.1 == p) with
  | some e => simp
  | none =>
    have hbf : (dst == p) = false := by
      simp only [beq_eq_false_iff_ne, ne_eq]
      exact fun hdp => h hdp.symm
    simp [List.find?, hbf]

theorem inodes_os_unlink (fs : FS) (p : Path) : (os_unlink fs p).inodes = fs.inodes := rfl

theorem inodes_rmtree (fs : FS) (p : Path) : (rmtree fs p).inodes = fs.inodes := rfl

theorem inodes_os_link (fs : FS) (src dst : Path) :
    (os_link fs src dst).inodes = fs.inodes := rfl

theorem entries_os_chmod (fs : FS) (p : Path) (m : Nat) :
    (os_chmod fs p m).entries = fs.entries := by
  unfold os_chmod
  cases inoOf fs p <;> rfl

theorem lookupEntry_congr_entries {fs fs' : FS} (h : fs.entries = fs'.entries)
    (p : Path) : lookupEntry fs p = lookupEntry fs' p := by
  unfold lookupEntry
  rw [h]

theorem scandir_congr_entries {fs fs' : FS} (h : fs.entries = fs'.entries)
    (p : Path) : scandir fs p = scandir fs' p := by
  unfold scandir
  rw [h]

theorem inoOf_congr_entries {fs fs' : FS} (h : fs.entries = fs'.entries)
    (p : Path) : inoOf fs p = inoOf fs' p := by
  unfold inoOf
  rw [lookupEntry_congr_entries h]

theorem lookupEntry_os_chmod (fs : FS) (p : Path) (m : Nat) (q : Path) :
    lookupEntry (os_chmod fs p m) q = lookupEntry fs q :=
  lookupEntry_congr_entries (entries_os_chmod fs p m) q

theorem inoOf_os_chmod (fs : FS) (p : Path) (m : Nat) (q : Path) :
    inoOf (os_chmod fs p m) q = inoOf fs q :=
  inoOf_congr_entries (entries_os_chmod fs p m) q

theorem scandir_os_chmod (fs : FS) (p : Path) (m : Nat) (q : Path) :
    scandir (os_chmod fs p m) q = scandir fs q :=
  scandir_congr_entries (entries_os_chmod fs p m) q

theorem chmod_map_fst_pred (j i m : Nat) (e : Nat × Inode) :
    ((if e.1 == j then (e.1, { e.2 with mode := m }) else e).1 == i) = (e.1 == i) := by
  by_cases hj : (e.1 == j) = true
  · rw [if_pos hj]
  · rw [Bool.not_eq_true] at hj
    rw [if_neg (by rw [hj]; simp)]

theorem inodeData_os_chmod_other {fs : FS} {p : Path} {m i : Nat}
    (h : inoOf fs p ≠ some i) : inodeData (os_chmod fs p m) i = inodeData fs i := by
  unfold os_chmod
  cases hp : inoOf fs p with
  | none => rfl
  | some j =>
    have hji : j ≠ i := by
      intro hj
      apply h
      rw [hp, hj]
    unfold inodeData
    simp only
    rw [List.find?_map]
    simp only [Function.comp_def]
    rw [find?_congr_pred fs.inodes _ (fun e => e.1 == i)
      (fun e => chmod_map_fst_pred j i m e)]
    cases hf : fs.inodes.find? (fun e => e.1 == i) with
    | none => rfl
    | some a =>
      have hai' := List.find?_some hf
      simp only [beq_iff_eq] at hai'
      have hajp : ¬ (a.1 = j) := by
        rw [hai']
        exact fun hc => hji hc.symm
      simp [hajp]

theorem inodeData_os_chmod_target {fs : FS} {p : Path} {m i : Nat}
    (h : inoOf fs p = some i) :
    inodeData (os_chmod fs p m) i = (inodeData fs i).map (fun d => { d with mode := m }) := by
  unfold os_chmod
  rw [h]
  unfold inodeData
  simp only
  rw [List.find?_map]
  simp only [Function.comp_def]
  rw [find?_congr_pred fs.inodes _ (fun e => e.1 == i)
    (fun e => chmod_map_fst_pred i i m e)]
  cases hf : fs.inodes.find? (fun e => e.1 == i) with
  | none => rfl
  | some a =>
    have hai' := List.find?_some hf
    simp only [beq_iff_eq] at hai'
    simp [hai']

theorem contentAt_os_chmod (fs : FS) (p : Path) (m : Nat) (q : Path) :
    contentAt (os_chmod fs p m) q = contentAt fs q := by
  unfold contentAt
  rw [inoOf_os_chmod]
  cases hq : inoOf fs q with
  | none => rfl
  | some i =>
    by_cases hpi : inoOf fs p = some i
    · simp only [Option.some_bind]
      rw [inodeData_os_chmod_target hpi]
      cases inodeData fs i <;> simp
    · simp only [Option.some_bind]
      rw [inodeData_os_chmod_other hpi]

theorem st_mode_os_chmod_of_ne_ino {fs : FS} {p q : Path} {m : Nat}
    (h : ∀ i, inoOf fs q = some i → inoOf fs p ≠ some i) :
    st_mode (os_chmod fs p m) q = st_mode fs q := by
  unfold st_mode
  rw [inoOf_os_chmod]
  cases hq : inoOf fs q with
  | none => rfl
  | some i =>
    simp only [Option.some_bind]
    rw [inodeData_os_chmod_other (h i hq)]

theorem st_mode_os_chmod_same {fs : FS} {p q : Path} {m : Nat} {i : Nat}
    (hq : inoOf fs q = some i) (hp : inoOf fs p = some i)
    (hd : (inodeData fs i).isSome = true) :
    st_mode (os_chmod fs p m) q = m := by
  unfold st_mode
  rw [inoOf_os_chmod, hq]
  simp only [Option.some_bind]
  rw [inodeData_os_chmod_target hp]
  cases hdd : inodeData fs i with
  | none => rw [hdd] at hd; cases hd
  | some d => simp

/-!  ### C4: the dedup-exclusion check of the permission pass  -/

theorem raw_path_set_length {pp : Path} {fs : FS} {q : Path}
    (h : q ∈ raw_path_set pp fs) : q.length = pp.length + 2 := by
  unfold raw_path_set at h
  rw [List.mem_map] at h
  obtain ⟨n, _, rfl⟩ := h
  simp

theorem raw_path_set_contains_root (fs : FS) (pp : Path) (n : String) :
    (raw_path_set pp fs).contains (pp ++ [n]) = false := by
  cases hcon : (raw_path_set pp fs).contains (pp ++ [n])
  · rfl
  · exfalso
    have hmem : (pp ++ [n]) ∈ raw_path_set pp fs := List.mem_of_elem_eq_true hcon
    have hlen := raw_path_set_length hmem
    simp only [List.length_append, List.length_singleton] at hlen
    omega

/-- A project whose root sidecar `a.xmp` shares storage (inode 1) with
the raw original `0_RAW/a.xmp`. -/
def fsC4 : FS :=
  { entries := [(["P"], FsEntry.dirE), (["P", "0_RAW"], FsEntry.dirE),
      (["P", "0_RAW", "a.xmp"], FsEntry.fileE 1), (["P", "a.xmp"], FsEntry.fileE 1)],
    inodes := [(1, { content := "A", mode := 0o644 })] }

/-- C4: the permission stage is claimed to skip deduplicated root
files because they are members of the raw-originals set.  The check
compares a project-root path (one component below the project) with
members of `raw_path_set`, which are all two components below the
project, so it never fires — for any state, any root name and either
flag value the skip condition evaluates to `false`.  On the concrete
project `fsC4`, whose root sidecar shares storage with a raw original,
the root file is therefore not skipped: the root pass forces the
shared inode to mode `0o666`, observable on the raw path (a skip would
have left it at `0o444` from the raw pass). -/
theorem dedup_exclusion_check_never_fires :
    (∀ (fs : FS) (pp : Path) (n : String) (hl : Bool),
        (hl && (raw_path_set pp fs).contains (pp ++ [n])) = false) ∧
      st_mode (set_files_permissions ["P"] true false fsC4).1 ["P", "0_RAW", "a.xmp"] = 0o666 := by
  constructor
  · intro fs pp n hl
    rw [raw_path_set_contains_root]
    simp
  · decide

/-!  ### C10 and C3: the capability probe runs (and mutates) in dry runs  -/

theorem path_exists_of_entry_mem {fs : FS} {p : Path} {e : FsEntry}
    (h : (p, e) ∈ fs.entries) : path_exists fs p = true := by
  unfold path_exists lookupEntry
  cases hf : fs.entries.find? (fun x => x.1 == p) with
  | some x => simp
  | none =>
    exfalso
    have := List.find?_eq_none.mp hf (p, e) h
    simp at this

theorem projectsGo_events_prefix (rd re hl fp dry : Bool) :
    ∀ (ps : List Path) (fs : FS) (evs : List Event),
      ∃ rest, (projectsGo rd re hl fp dry ps fs evs).2 = evs ++ rest := by
  intro ps
  induction ps with
  | nil => intro fs evs; exact ⟨[], by simp [projectsGo]⟩
  | cons p rest ih =>
    intro fs evs
    unfold projectsGo
    obtain ⟨r2, hr2⟩ := ih (cleanup_project p rd re hl fp dry fs).1
      (evs ++ (cleanup_project p rd re hl fp dry fs).2)
    exact ⟨(cleanup_project p rd re hl fp dry fs).2 ++ r2, by rw [hr2, List.append_assoc]⟩

theorem filter_ne_of_not_exists {fs : FS} {p : Path}
    (h : path_exists fs p = false) :
    fs.entries.filter (fun e => !(e.1 == p)) = fs.entries := by
  apply List.filter_eq_self.mpr
  intro e he
  unfold path_exists lookupEntry at h
  cases hf : fs.entries.find? (fun x => x.1 == p) with
  | some x => rw [hf] at h; simp at h
  | none =>
    have := List.find?_eq_none.mp hf e he
    simp only [Bool.not_eq_true] at this
    rw [this]
    rfl

/-- The `are_hardlinks_supported` probe on a directory holding neither
dummy name: it reports hardlink support, restores the directory
entries exactly (the `finally` block removes both temporaries), leaves
an orphaned inode behind in the table, and performs four mutations —
unconditionally, as the source has no dry-run gate. -/
theorem probe_hex2 (lp : Path) (fs : FS) :
    path_exists (os_link (createFile fs (lp ++ [".dummy.dat"]) "TEST")
      (lp ++ [".dummy.dat"]) (lp ++ [".dummy.dat.link"])) (lp ++ [".dummy.dat.link"]) = true := by
  apply path_exists_of_entry_mem (e := FsEntry.fileE
    ((inoOf (createFile fs (lp ++ [".dummy.dat"]) "TEST") (lp ++ [".dummy.dat"])).getD 0))
  unfold os_link
  simp

theorem probe_path_ne (lp : Path) : (lp ++ [".dummy.dat"]) ≠ (lp ++ [".dummy.dat.link"]) := by
  intro hc
  have := List.append_cancel_left hc
  simp at this

theorem probe_hexdf (lp : Path) (fs : FS) :
    path_exists (os_unlink (os_link (createFile fs (lp ++ [".dummy.dat"]) "TEST")
      (lp ++ [".dummy.dat"]) (lp ++ [".dummy.dat.link"])) (lp ++ [".dummy.dat.link"]))
      (lp ++ [".dummy.dat"]) = true := by
  apply path_exists_of_entry_mem (e := FsEntry.fileE (freshIno fs))
  unfold os_unlink os_link createFile
  simp only [List.filter_append, List.mem_append]
  left
  right
  rw [List.mem_filter]
  constructor
  · simp
  · simp only [Bool.not_eq_eq_eq_not, Bool.not_true, beq_eq_false_iff_ne, ne_eq]
    exact probe_path_ne lp

/-- The probe reports success (the model is the exception-free path). -/
theorem are_hardlinks_supported_fst (lp : Path) (fs : FS) :
    (are_hardlinks_supported lp fs).1 = true := rfl

/-- The probe performs four mutations — create the dummy file, link
it, and unlink both — with no dry-run gate in sight. -/
theorem are_hardlinks_supported_events (lp : Path) (fs : FS) :
    (are_hardlinks_supported lp fs).2.2 =
      [Event.opCreate (lp ++ [".dummy.dat"]) "TEST",
       Event.opLink (lp ++ [".dummy.dat"]) (lp ++ [".dummy.dat.link"]),
       Event.opUnlink (lp ++ [".dummy.dat.link"]),
       Event.opUnlink (lp ++ [".dummy.dat"])] := by
  simp only [are_hardlinks_supported]
  rw [if_pos (probe_hex2 lp fs), if_pos (probe_hexdf lp fs)]
  rfl

/-- The `finally` block removes both temporaries: when neither dummy
name pre-exists, the directory entries are restored exactly. -/
theorem are_hardlinks_supported_entries (lp : Path) (fs : FS)
    (hdf : path_exists fs (lp ++ [".dummy.dat"]) = false)
    (hdl : path_exists fs (lp ++ [".dummy.dat.link"]) = false) :
    (are_hardlinks_supported lp fs).2.1.entries = fs.entries := by
  simp only [are_hardlinks_supported]
  rw [if_pos (probe_hex2 lp fs), if_pos (probe_hexdf lp fs)]
  unfold os_unlink os_link createFile
  simp only [List.filter_append]
  rw [filter_ne_of_not_exists hdl, filter_ne_of_not_exists hdf]
  simp [probe_path_ne lp]

/-- The probe leaves the inode table extended by the orphaned dummy
inode (content is freed only conceptually; no path references it). -/
theorem are_hardlinks_supported_inodes (lp : Path) (fs : FS) :
    (are_hardlinks_supported lp fs).2.1.inodes =
      fs.inodes ++ [(freshIno fs, { content := "TEST", mode := 0o644 })] := by
  simp only [are_hardlinks_supported]
  rw [if_pos (probe_hex2 lp fs), if_pos (probe_hexdf lp fs)]
  rfl

theorem cleanup_photo_library_hl_true (lp : Path) (rd re fp dry : Bool) (fs : FS) :
    cleanup_photo_library lp rd re true fp dry fs =
      projectsGo rd re (are_hardlinks_supported lp fs).1 fp dry
        (find_projects (are_hardlinks_supported lp fs).2.1 lp)
        (are_hardlinks_supported lp fs).2.1 (are_hardlinks_supported lp fs).2.2 := by
  simp [cleanup_photo_library]

/-- With deduplication requested, the run's event trace starts with
the probe's four mutations, dry run or not. -/
theorem probe_prefix_helper (lp : Path) (fs : FS) (rd re fp dry : Bool) :
    ∃ rest, (cleanup_photo_library lp rd re true fp dry fs).2 =
      [Event.opCreate (lp ++ [".dummy.dat"]) "TEST",
       Event.opLink (lp ++ [".dummy.dat"]) (lp ++ [".dummy.dat.link"]),
       Event.opUnlink (lp ++ [".dummy.dat.link"]),
       Event.opUnlink (lp ++ [".dummy.dat"])] ++ rest := by
  rw [cleanup_photo_library_hl_true]
  obtain ⟨rest, hrest⟩ := projectsGo_events_prefix rd re (are_hardlinks_supported lp fs).1 fp dry
    (find_projects (are_hardlinks_supported lp fs).2.1 lp)
    (are_hardlinks_supported lp fs).2.1 (are_hardlinks_supported lp fs).2.2
  refine ⟨rest, ?_⟩
  rw [hrest, are_hardlinks_supported_events]

/-- C10: for every invocation with deduplication enabled — the dry-run
flag universally quantified, so dry runs included — the capability
probe creates `.dummy.dat` (content "TEST") directly inside the
library root, hardlinks it to `.dummy.dat.link`, and unlinks both;
these four mutations are the first events of the run, before any
project processing, and (when neither dummy name pre-existed) the
directory entries are restored exactly before the projects are
enumerated.  In particular even a dry run writes to the library
filesystem. -/
theorem probe_mutates_even_dry_run (lp : Path) (fs : FS) (rd re fp dry : Bool)
    (hdf : path_exists fs (lp ++ [".dummy.dat"]) = false)
    (hdl : path_exists fs (lp ++ [".dummy.dat.link"]) = false) :
    (∃ rest, (cleanup_photo_library lp rd re true fp dry fs).2 =
        [Event.opCreate (lp ++ [".dummy.dat"]) "TEST",
         Event.opLink (lp ++ [".dummy.dat"]) (lp ++ [".dummy.dat.link"]),
         Event.opUnlink (lp ++ [".dummy.dat.link"]),
         Event.opUnlink (lp ++ [".dummy.dat"])] ++ rest) ∧
      (are_hardlinks_supported lp fs).2.1.entries = fs.entries :=
  ⟨probe_prefix_helper lp fs rd re fp dry, are_hardlinks_supported_entries lp fs hdf hdl⟩

/-- An empty library root, for the C10 witness. -/
def fsC10 : FS := { entries := [], inodes := [] }

theorem probe_mutates_even_dry_run_witness :
    path_exists fsC10 [".dummy.dat"] = false ∧
      ((∃ rest, (cleanup_photo_library [] true true true true true fsC10).2 =
          [Event.opCreate [".dummy.dat"] "TEST",
           Event.opLink [".dummy.dat"] [".dummy.dat.link"],
           Event.opUnlink [".dummy.dat.link"],
           Event.opUnlink [".dummy.dat"]] ++ rest) ∧
        (are_hardlinks_supported [] fsC10).2.1.entries = fsC10.entries) :=
  ⟨by decide, probe_mutates_even_dry_run [] fsC10 true true true true (by decide) (by decide)⟩

/-- A library with one project, for the C3 counterexample. -/
def fsC3 : FS :=
  { entries := [(["P"], FsEntry.dirE), (["P", "0_RAW"], FsEntry.dirE)],
    inodes := [] }

/-- C3 counterexample: with every flag enabled, a dry-run invocation
performs filesystem mutations — the capability probe's create, link
and unlinks are executed, not merely reported — so "the dry-run
invocation mutates nothing on the filesystem" is false as stated. -/
theorem dry_run_probe_mutation_cex :
    opPaths (cleanup_photo_library [] true true true true true fsC3).2 ≠ [] := by
  obtain ⟨rest, hrest⟩ := probe_prefix_helper [] fsC3 true true true true
  rw [hrest]
  simp [opPaths, Event.opPath]

/-!  ### C1: order of operations in the dedup relink  -/

theorem path_exists_congr_lookup {fs fs' : FS} {q : Path}
    (h : lookupEntry fs' q = lookupEntry fs q) :
    path_exists fs' q = path_exists fs q := by
  unfold path_exists
  rw [h]

theorem inoOf_congr_lookup {fs fs' : FS} {q : Path}
    (h : lookupEntry fs' q = lookupEntry fs q) :
    inoOf fs' q = inoOf fs q := by
  unfold inoOf
  rw [h]

theorem samefile_congr_lookup {fs fs' : FS} {p q : Path}
    (hp : lookupEntry fs' p = lookupEntry fs p)
    (hq : lookupEntry fs' q = lookupEntry fs q) :
    samefile fs' p q = samefile fs p q := by
  unfold samefile
  rw [inoOf_congr_lookup hp, inoOf_congr_lookup hq]

theorem contentAt_congr {fs fs' : FS} {q : Path}
    (h : lookupEntry fs' q = lookupEntry fs q) (hino : fs'.inodes = fs.inodes) :
    contentAt fs' q = contentAt fs q := by
  unfold contentAt
  rw [inoOf_congr_lookup h]
  have : ∀ i, inodeData fs' i = inodeData fs i := by
    intro i
    unfold inodeData
    rw [hino]
  cases inoOf fs q with
  | none => rfl
  | some i => simp only [Option.some_bind, this]

theorem st_mode_congr {fs fs' : FS} {q : Path}
    (h : lookupEntry fs' q = lookupEntry fs q) (hino : fs'.inodes = fs.inodes) :
    st_mode fs' q = st_mode fs q := by
  unfold st_mode
  rw [inoOf_congr_lookup h]
  have : ∀ i, inodeData fs' i = inodeData fs i := by
    intro i
    unfold inodeData
    rw [hino]
  cases inoOf fs q with
  | none => rfl
  | some i => simp only [Option.some_bind, this]

/-- One dedup relink step (unlink the select, link the raw candidate
over it) leaves every other path's entry alone. -/
theorem hardlink_step_lookup (fs : FS) (pp : Path) (m : String) (q : Path)
    (hq : q ≠ pp ++ [m]) :
    lookupEntry (os_link (os_unlink fs (pp ++ [m]))
      (pp ++ [PROJECT_RAW_SUBDIR, m]) (pp ++ [m])) q = lookupEntry fs q := by
  rw [lookupEntry_os_link_ne hq, lookupEntry_os_unlink_ne hq]

theorem append_singleton_ne_of_ne {pp : Path} {m n : String} (h : n ≠ m) :
    pp ++ [n] ≠ pp ++ [m] := by
  intro hc
  have := List.append_cancel_left hc
  simp only [List.cons.injEq, and_true] at this
  exact h this

theorem raw_len_ne_sel {pp : Path} {m n : String} :
    pp ++ [PROJECT_RAW_SUBDIR, n] ≠ pp ++ [m] := by
  intro hc
  have := congrArg List.length hc
  simp at this

theorem hardlinkGo_events_prefix (pp : Path) (dry : Bool) :
    ∀ (names : List String) (fs : FS) (evs : List Event),
      ∃ rest, (hardlinkGo pp dry names fs evs).2 = evs ++ rest := by
  intro names
  induction names with
  | nil => intro fs evs; exact ⟨[], by simp [hardlinkGo]⟩
  | cons m rest ih =>
    intro fs evs
    rw [hardlinkGo]
    by_cases hc : (path_exists fs (pp ++ [PROJECT_RAW_SUBDIR, m]) &&
        !(samefile fs (pp ++ [m]) (pp ++ [PROJECT_RAW_SUBDIR, m]))) = true
    · rw [if_pos hc]
      by_cases hmd : (get_file_md5_hash fs (pp ++ [m]) ==
          get_file_md5_hash fs (pp ++ [PROJECT_RAW_SUBDIR, m])) = true
      · rw [if_pos hmd]
        cases dry with
        | true =>
          simp only [if_true]
          obtain ⟨r, hr⟩ := ih fs (evs ++ [Event.printLink (pp ++ [m]) m])
          exact ⟨[Event.printLink (pp ++ [m]) m] ++ r, by rw [hr, List.append_assoc]⟩
        | false =>
          simp only [Bool.false_eq_true, if_false]
          obtain ⟨r, hr⟩ := ih _ (evs ++ [Event.printLink (pp ++ [m]) m] ++
            [Event.opUnlink (pp ++ [m]),
             Event.opLink (pp ++ [PROJECT_RAW_SUBDIR, m]) (pp ++ [m])])
          refine ⟨[Event.printLink (pp ++ [m]) m] ++
            [Event.opUnlink (pp ++ [m]),
             Event.opLink (pp ++ [PROJECT_RAW_SUBDIR, m]) (pp ++ [m])] ++ r, ?_⟩
          rw [hr]
          simp [List.append_assoc]
      · rw [if_neg hmd]
        obtain ⟨r, hr⟩ := ih fs (evs ++ [Event.printWarn (pp ++ [m])
          (get_file_md5_hash fs (pp ++ [m])) (get_file_md5_hash fs (pp ++ [PROJECT_RAW_SUBDIR, m]))])
        exact ⟨[Event.printWarn (pp ++ [m]) (get_file_md5_hash fs (pp ++ [m]))
          (get_file_md5_hash fs (pp ++ [PROJECT_RAW_SUBDIR, m]))] ++ r,
          by rw [hr, List.append_assoc]⟩
    · rw [if_neg hc]
      exact ih fs evs

theorem hardlinkGo_inodes (pp : Path) (dry : Bool) :
    ∀ (names : List String) (fs : FS) (evs : List Event),
      (hardlinkGo pp dry names fs evs).1.inodes = fs.inodes := by
  intro names
  induction names with
  | nil => intro fs evs; simp [hardlinkGo]
  | cons m rest ih =>
    intro fs evs
    rw [hardlinkGo]
    by_cases hc : (path_exists fs (pp ++ [PROJECT_RAW_SUBDIR, m]) &&
        !(samefile fs (pp ++ [m]) (pp ++ [PROJECT_RAW_SUBDIR, m]))) = true
    · rw [if_pos hc]
      by_cases hmd : (get_file_md5_hash fs (pp ++ [m]) ==
          get_file_md5_hash fs (pp ++ [PROJECT_RAW_SUBDIR, m])) = true
      · rw [if_pos hmd]
        cases dry with
        | true => simp only [if_true]; exact ih fs _
        | false =>
          simp only [Bool.false_eq_true, if_false]
          rw [ih _ _]
          rfl
      · rw [if_neg hmd]
        exact ih fs _
    · rw [if_neg hc]
      exact ih fs evs

/-- Entries at paths that are not project-root children are never
touched by the dedup pass. -/
theorem hardlinkGo_lookup_deep (pp : Path) (dry : Bool) :
    ∀ (names : List String) (fs : FS) (evs : List Event) (q : Path),
      q.length ≠ pp.length + 1 →
      lookupEntry (hardlinkGo pp dry names fs evs).1 q = lookupEntry fs q := by
  intro names
  induction names with
  | nil => intro fs evs q hq; simp [hardlinkGo]
  | cons m rest ih =>
    intro fs evs q hq
    rw [hardlinkGo]
    by_cases hc : (path_exists fs (pp ++ [PROJECT_RAW_SUBDIR, m]) &&
        !(samefile fs (pp ++ [m]) (pp ++ [PROJECT_RAW_SUBDIR, m]))) = true
    · rw [if_pos hc]
      by_cases hmd : (get_file_md5_hash fs (pp ++ [m]) ==
          get_file_md5_hash fs (pp ++ [PROJECT_RAW_SUBDIR, m])) = true
      · rw [if_pos hmd]
        cases dry with
        | true => simp only [if_true]; exact ih fs _ q hq
        | false =>
          simp only [Bool.false_eq_true, if_false]
          rw [ih _ _ q hq]
          apply hardlink_step_lookup
          intro hcq
          apply hq
          rw [hcq]
          simp
      · rw [if_neg hmd]
        exact ih fs _ q hq
    · rw [if_neg hc]
      exact ih fs evs q hq

/-- If `n` is among the names to process and its candidate conditions
hold (raw candidate exists, different storage, equal digests), the
non-dry dedup loop emits — for that file — the report line, then the
unlink of the select path, then the hardlink creation, contiguously
and in that order. -/
theorem hardlinkGo_emits_triple (pp : Path) (n : String) :
    ∀ (names : List String) (fs : FS) (evs : List Event),
      n ∈ names →
      path_exists fs (pp ++ [PROJECT_RAW_SUBDIR, n]) = true →
      samefile fs (pp ++ [n]) (pp ++ [PROJECT_RAW_SUBDIR, n]) = false →
      get_file_md5_hash fs (pp ++ [n]) =
        get_file_md5_hash fs (pp ++ [PROJECT_RAW_SUBDIR, n]) →
      ∃ evs1 evs2, (hardlinkGo pp false names fs evs).2 =
        evs ++ evs1 ++
          [Event.printLink (pp ++ [n]) n,
           Event.opUnlink (pp ++ [n]),
           Event.opLink (pp ++ [PROJECT_RAW_SUBDIR, n]) (pp ++ [n])] ++ evs2 := by
  intro names
  induction names with
  | nil => intro fs evs hmem; cases hmem
  | cons m rest ih =>
    intro fs evs hmem hex hsame hmd5
    by_cases hmn : m = n
    · subst hmn
      rw [hardlinkGo]
      rw [if_pos (by rw [hex, hsame]; rfl)]
      rw [if_pos (beq_iff_eq.mpr hmd5)]
      simp only [Bool.false_eq_true, if_false]
      obtain ⟨r, hr⟩ := hardlinkGo_events_prefix pp false rest
        (os_link (os_unlink fs (pp ++ [m])) (pp ++ [PROJECT_RAW_SUBDIR, m]) (pp ++ [m]))
        (evs ++ [Event.printLink (pp ++ [m]) m] ++
          [Event.opUnlink (pp ++ [m]),
           Event.opLink (pp ++ [PROJECT_RAW_SUBDIR, m]) (pp ++ [m])])
      refine ⟨[], r, ?_⟩
      rw [hr]
      simp
    · have hmem' : n ∈ rest := by
        rcases List.mem_cons.mp hmem with h | h
        · exact absurd h.symm hmn
        · exact h
      have hnm : n ≠ m := fun hc => hmn hc.symm
      rw [hardlinkGo]
      by_cases hc : (path_exists fs (pp ++ [PROJECT_RAW_SUBDIR, m]) &&
          !(samefile fs (pp ++ [m]) (pp ++ [PROJECT_RAW_SUBDIR, m]))) = true
      · rw [if_pos hc]
        by_cases hmd : (get_file_md5_hash fs (pp ++ [m]) ==
            get_file_md5_hash fs (pp ++ [PROJECT_RAW_SUBDIR, m])) = true
        · rw [if_pos hmd]
          simp only [Bool.false_eq_true, if_false]
          have hlsel := hardlink_step_lookup fs pp m (pp ++ [n]) (append_singleton_ne_of_ne hnm)
          have hlraw := hardlink_step_lookup fs pp m (pp ++ [PROJECT_RAW_SUBDIR, n]) raw_len_ne_sel
          obtain ⟨e1, e2, hgo⟩ := ih
            (os_link (os_unlink fs (pp ++ [m])) (pp ++ [PROJECT_RAW_SUBDIR, m]) (pp ++ [m]))
            (evs ++ [Event.printLink (pp ++ [m]) m] ++
              [Event.opUnlink (pp ++ [m]),
               Event.opLink (pp ++ [PROJECT_RAW_SUBDIR, m]) (pp ++ [m])])
            hmem'
            (by rw [path_exists_congr_lookup hlraw]; exact hex)
            (by rw [samefile_congr_lookup hlsel hlraw]; exact hsame)
            (by
              unfold get_file_md5_hash
              rw [contentAt_congr hlsel rfl, contentAt_congr hlraw rfl]
              exact hmd5)
          refine ⟨[Event.printLink (pp ++ [m]) m, Event.opUnlink (pp ++ [m]),
            Event.opLink (pp ++ [PROJECT_RAW_SUBDIR, m]) (pp ++ [m])] ++ e1, e2, ?_⟩
          rw [hgo]
          simp
        · rw [if_neg hmd]
          obtain ⟨e1, e2, hgo⟩ := ih fs (evs ++ [Event.printWarn (pp ++ [m])
            (get_file_md5_hash fs (pp ++ [m]))
            (get_file_md5_hash fs (pp ++ [PROJECT_RAW_SUBDIR, m]))]) hmem' hex hsame hmd5
          refine ⟨[Event.printWarn (pp ++ [m]) (get_file_md5_hash fs (pp ++ [m]))
            (get_file_md5_hash fs (pp ++ [PROJECT_RAW_SUBDIR, m]))] ++ e1, e2, ?_⟩
          rw [hgo]
          simp
      · rw [if_neg hc]
        exact ih fs evs hmem' hex hsame hmd5

/-- Scan a trace: `false` when an unlink of the select path occurs
before any hardlink creation (i.e. before a replacement exists). -/
def unlinkSafeAux (sel : Path) (linkSeen : Bool) : List Event → Bool
  | [] => true
  | Event.opUnlink p :: rest =>
      if p == sel && !linkSeen then false else unlinkSafeAux sel linkSeen rest
  | Event.opLink _ _ :: rest => unlinkSafeAux sel true rest
  | _ :: rest => unlinkSafeAux sel linkSeen rest

/-- `true` iff every unlink of `sel` in the trace is preceded by the
creation of some replacement hardlink. -/
def unlinkSafe (sel : Path) (evs : List Event) : Bool :=
  unlinkSafeAux sel false evs

/-- A project with a select file whose content equals its raw
candidate, on separate storage — the deduplication case. -/
def fsC1 : FS :=
  { entries := [(["P"], FsEntry.dirE), (["P", "0_RAW"], FsEntry.dirE),
      (["P", "0_RAW", "a.raw"], FsEntry.fileE 1), (["P", "a.raw"], FsEntry.fileE 2)],
    inodes := [(1, { content := "A", mode := 0o644 }),
      (2, { content := "A", mode := 0o644 })] }

/-- C1 counterexample: on a project with an equal-content select, the
dedup pass unlinks the select path first and only then creates the
hardlink — no link (under a temporary name or otherwise) precedes the
unlink, so the claimed "unlink never precedes the existence of a
replacement link" is false of the code. -/
theorem hardlink_unlink_precedes_link_cex :
    unlinkSafe ["P", "a.raw"] (hardlink_select_files ["P"] false fsC1).2 = false ∧
      (hardlink_select_files ["P"] false fsC1).2 =
        [Event.printLink ["P", "a.raw"] "a.raw",
         Event.opUnlink ["P", "a.raw"],
         Event.opLink ["P", "0_RAW", "a.raw"] ["P", "a.raw"]] := by decide

/-- C1 (amended): for every deduplication-eligible select file the
non-dry pass emits, contiguously, the report, the unlink of the
select path and then the creation of the hardlink directly at that
path — in that order, with no temporary name and no rename — and
after the pass the select file's bytes remain reachable through the
raw candidate (whose content equals the select's original content). -/
theorem hardlink_select_files_unlink_then_link
    (pp : Path) (fs : FS) (n : String)
    (hdir : isdir fs (pp ++ [PROJECT_RAW_SUBDIR]) = true)
    (hsel : n ∈ select_files pp fs)
    (hex : path_exists fs (pp ++ [PROJECT_RAW_SUBDIR, n]) = true)
    (hsame : samefile fs (pp ++ [n]) (pp ++ [PROJECT_RAW_SUBDIR, n]) = false)
    (hmd5 : get_file_md5_hash fs (pp ++ [n]) =
      get_file_md5_hash fs (pp ++ [PROJECT_RAW_SUBDIR, n])) :
    (∃ evs1 evs2, (hardlink_select_files pp false fs).2 =
        evs1 ++
          [Event.printLink (pp ++ [n]) n,
           Event.opUnlink (pp ++ [n]),
           Event.opLink (pp ++ [PROJECT_RAW_SUBDIR, n]) (pp ++ [n])] ++ evs2) ∧
      contentAt (hardlink_select_files pp false fs).1 (pp ++ [PROJECT_RAW_SUBDIR, n]) =
        contentAt fs (pp ++ [n]) := by
  unfold hardlink_select_files
  rw [if_pos hdir]
  constructor
  · obtain ⟨evs1, evs2, h⟩ :=
      hardlinkGo_emits_triple pp n (select_files pp fs) fs [] hsel hex hsame hmd5
    exact ⟨evs1, evs2, by rw [h]; simp⟩
  · have hraw := hardlinkGo_lookup_deep pp false (select_files pp fs) fs [] 
      (pp ++ [PROJECT_RAW_SUBDIR, n]) (by simp)
    rw [contentAt_congr hraw (hardlinkGo_inodes pp false (select_files pp fs) fs [])]
    exact hmd5.symm

/-- A second dedup-eligible project, for the C1 amended-claim
witness. -/
def fsC1w : FS :=
  { entries := [(["Q"], FsEntry.dirE), (["Q", "0_RAW"], FsEntry.dirE),
      (["Q", "0_RAW", "b.raw"], FsEntry.fileE 4), (["Q", "b.raw"], FsEntry.fileE 7)],
    inodes := [(4, { content := "BYTES", mode := 0o644 }),
      (7, { content := "BYTES", mode := 0o600 })] }

theorem hardlink_select_files_unlink_then_link_witness :
    isdir fsC1w (["Q"] ++ [PROJECT_RAW_SUBDIR]) = true ∧
      ((∃ evs1 evs2, (hardlink_select_files ["Q"] false fsC1w).2 =
          evs1 ++
            [Event.printLink (["Q"] ++ ["b.raw"]) "b.raw",
             Event.opUnlink (["Q"] ++ ["b.raw"]),
             Event.opLink (["Q"] ++ [PROJECT_RAW_SUBDIR, "b.raw"]) (["Q"] ++ ["b.raw"])] ++ evs2) ∧
        contentAt (hardlink_select_files ["Q"] false fsC1w).1
            (["Q"] ++ [PROJECT_RAW_SUBDIR, "b.raw"]) =
          contentAt fsC1w (["Q"] ++ ["b.raw"])) :=
  ⟨by decide, hardlink_select_files_unlink_then_link ["Q"] fsC1w "b.raw"
    (by decide) (by decide) (by decide) (by decide) (by decide)⟩

/-!  ### C9: reach of the recursive dot-file glob  -/

theorem removeDotGo_entries : ∀ (ms : List Path) (fs : FS) (evs : List Event),
    (removeDotGo false ms fs evs).1.entries =
      fs.entries.filter (fun e => !(ms.contains e.1)) := by
  intro ms
  induction ms with
  | nil =>
    intro fs evs
    simp [removeDotGo]
  | cons m t ih =>
    intro fs evs
    rw [removeDotGo]
    simp only [Bool.false_eq_true, if_false]
    rw [ih]
    unfold os_unlink
    simp only
    rw [List.filter_filter]
    apply List.filter_congr
    intro a ha
    by_cases h1 : a.1 = m
    · have hb : (a.1 == m) = true := beq_iff_eq.mpr h1
      simp [List.contains_cons, hb, h1]
    · have hb : (a.1 == m) = false := by simp [h1]
      by_cases h2 : a.1 ∈ t
      · have hc : t.contains a.1 = true := List.elem_eq_true_of_mem h2
        simp [List.contains_cons, hb, hc, h1, h2]
      · have hc : t.contains a.1 = false := by
          cases hcc : t.contains a.1
          · rfl
          · exact absurd (List.mem_of_elem_eq_true hcc) h2
        simp [List.contains_cons, hb, hc, h1, h2]

theorem contains_glob_eq_match {pp : Path} {fs : FS} {e : Path × FsEntry}
    (he : e ∈ fs.entries) :
    (glob_dot_files pp fs).contains e.1 = dotGlobMatch pp e.1 := by
  cases hm : dotGlobMatch pp e.1 with
  | true =>
    apply List.elem_eq_true_of_mem
    unfold glob_dot_files
    rw [List.mem_map]
    exact ⟨e, List.mem_filter.mpr ⟨he, hm⟩, rfl⟩
  | false =>
    cases hc : (glob_dot_files pp fs).contains e.1 with
    | false => rfl
    | true =>
      exfalso
      have hmem : e.1 ∈ glob_dot_files pp fs := List.mem_of_elem_eq_true hc
      unfold glob_dot_files at hmem
      rw [List.mem_map] at hmem
      obtain ⟨x, hx, hxe⟩ := hmem
      have hxm : dotGlobMatch pp x.1 = true := (List.mem_filter.mp hx).2
      rw [hxe, hm] at hxm
      cases hxm

/-- A dot-named file inside a hidden subdirectory of the project; the
recursive glob `**` does not enter hidden directories. -/
def fsC9 : FS :=
  { entries := [(["R"], FsEntry.dirE), (["R", ".h"], FsEntry.dirE),
      (["R", ".h", "._f"], FsEntry.fileE 1)],
    inodes := [(1, { content := "junk", mode := 0o644 })] }

/-- C9 counterexample: the sweep of project `R` matches nothing — the
`._f` file inside the hidden subdirectory `.h` survives a non-dry
sweep untouched (no report, no unlink), so "removes every `._*` file
anywhere under the project, including inside hidden subdirectories"
is false of the code. -/
theorem dot_sweep_misses_hidden_subdir_cex :
    strStartsWith "._f" "._" = true ∧
      lookupEntry (remove_dot_files ["R"] false fsC9).1 ["R", ".h", "._f"] =
        some (FsEntry.fileE 1) ∧
      (remove_dot_files ["R"] false fsC9).2 = [] := by decide

/-- C9 (amended): the non-dry sweep removes exactly the entries whose
path matches the recursive glob — a `._*`-named entry all of whose
intermediate directories below the project are non-hidden — and every
`._*` entry lying inside a hidden (dot-prefixed) subdirectory is left
in place.  (The hypothesis that all matches are regular files keeps
the model on the exception-free path: Python's `os.unlink` would
raise on a matching directory.) -/
theorem dot_sweep_filter_characterization (pp : Path) (fs : FS)
    ( _hfiles : ∀ e ∈ fs.entries, dotGlobMatch pp e.1 = true → e.2 ≠ FsEntry.dirE) :
    (remove_dot_files pp false fs).1.entries =
        fs.entries.filter (fun e => !(dotGlobMatch pp e.1)) ∧
      (∀ e ∈ fs.entries, ∀ (comps : List String) (last : String),
        e.1 = pp ++ comps ++ [last] →
        (∃ c ∈ comps, strStartsWith c "." = true) →
        e ∈ (remove_dot_files pp false fs).1.entries) := by
  have hmain : (remove_dot_files pp false fs).1.entries =
      fs.entries.filter (fun e => !(dotGlobMatch pp e.1)) := by
    unfold remove_dot_files
    rw [removeDotGo_entries]
    apply List.filter_congr
    intro a ha
    rw [contains_glob_eq_match ha]
  refine ⟨hmain, ?_⟩
  intro e he comps last hpath hhid
  rw [hmain, List.mem_filter]
  refine ⟨he, ?_⟩
  obtain ⟨c, hc, hcdot⟩ := hhid
  have hmatch : dotGlobMatch pp e.1 = false := by
    unfold dotGlobMatch
    rw [hpath]
    have htake : (pp ++ comps ++ [last]).take pp.length = pp := by
      rw [List.append_assoc, List.take_append_of_le_length (by simp)]
      simp
    have hdrop : (pp ++ comps ++ [last]).drop pp.length = comps ++ [last] := by
      rw [List.append_assoc, List.drop_append_of_le_length (by simp)]
      simp
    rw [hdrop]
    simp
    intro hforall
    rw [hforall c hc] at hcdot
    cases hcdot
  rw [hmatch]
  rfl

/-- A project holding reachable and hidden-shadowed dot files, for the
C9 witness. -/
def fsC9w : FS :=
  { entries := [(["S"], FsEntry.dirE), (["S", "._a"], FsEntry.fileE 1),
      (["S", "d"], FsEntry.dirE), (["S", "d", "._b"], FsEntry.fileE 2),
      (["S", ".hide"], FsEntry.dirE), (["S", ".hide", "._c"], FsEntry.fileE 3)],
    inodes := [(1, { content := "x", mode := 0o644 }),
      (2, { content := "y", mode := 0o644 }),
      (3, { content := "z", mode := 0o644 })] }

theorem dot_sweep_filter_characterization_witness :
    (∀ e ∈ fsC9w.entries, dotGlobMatch ["S"] e.1 = true → e.2 ≠ FsEntry.dirE) ∧
      ((remove_dot_files ["S"] false fsC9w).1.entries =
          fsC9w.entries.filter (fun e => !(dotGlobMatch ["S"] e.1)) ∧
        (∀ e ∈ fsC9w.entries, ∀ (comps : List String) (last : String),
          e.1 = ["S"] ++ comps ++ [last] →
          (∃ c ∈ comps, strStartsWith c "." = true) →
          e ∈ (remove_dot_files ["S"] false fsC9w).1.entries)) :=
  ⟨by decide, dot_sweep_filter_characterization ["S"] fsC9w (by decide)⟩

/-!  ### C5: the project locator  -/

/-- Does the directory at `q` directly contain a stage-named child
directory?  This is exactly the classification test of
`find_projects`. -/
def hasStageChild (fs : FS) (q : Path) : Bool :=
  (subdirsOf fs q).any (fun n =>
    n == PROJECT_RAW_SUBDIR || n == PROJECT_EDIT_SUBDIR || n == PROJECT_EXPORT_SUBDIR)

theorem find_projects_mem_aux (fs : FS) :
    ∀ (k : Nat) (p : Path), fpMeasure fs p < k →
      ∀ q ∈ find_projects fs p, p <+: q ∧ hasStageChild fs q = true := by
  intro k
  induction k with
  | zero => intro p hp; exact absurd hp (Nat.not_lt_zero _)
  | succ k ih =>
    intro p hp q hq
    rw [find_projects] at hq
    by_cases hstage : (subdirsOf fs p).any (fun n =>
        n == PROJECT_RAW_SUBDIR || n == PROJECT_EDIT_SUBDIR || n == PROJECT_EXPORT_SUBDIR) = true
    · rw [if_pos hstage] at hq
      rw [List.mem_singleton] at hq
      subst hq
      exact ⟨List.prefix_refl q, hstage⟩
    · rw [if_neg hstage] at hq
      rw [List.mem_flatMap] at hq
      obtain ⟨x, hx, hqx⟩ := hq
      have hlt : fpMeasure fs (p ++ [x.1]) < fpMeasure fs p := fpMeasure_child_lt x.2
      have hres := ih (p ++ [x.1]) (by omega) q hqx
      refine ⟨List.IsPrefix.trans ⟨[x.1], rfl⟩ hres.1, hres.2⟩

theorem find_projects_antichain_aux (fs : FS) :
    ∀ (k : Nat) (p : Path), fpMeasure fs p < k →
      ∀ q1 ∈ find_projects fs p, ∀ q2 ∈ find_projects fs p, q1 <+: q2 → q1 = q2 := by
  intro k
  induction k with
  | zero => intro p hp; exact absurd hp (Nat.not_lt_zero _)
  | succ k ih =>
    intro p hp q1 hq1 q2 hq2 hpre
    rw [find_projects] at hq1 hq2
    by_cases hstage : (subdirsOf fs p).any (fun n =>
        n == PROJECT_RAW_SUBDIR || n == PROJECT_EDIT_SUBDIR || n == PROJECT_EXPORT_SUBDIR) = true
    · rw [if_pos hstage] at hq1 hq2
      rw [List.mem_singleton] at hq1 hq2
      rw [hq1, hq2]
    · rw [if_neg hstage] at hq1 hq2
      rw [List.mem_flatMap] at hq1 hq2
      obtain ⟨x1, hx1, hq1x⟩ := hq1
      obtain ⟨x2, hx2, hq2x⟩ := hq2
      have hlt1 : fpMeasure fs (p ++ [x1.1]) < fpMeasure fs p := fpMeasure_child_lt x1.2
      have hlt2 : fpMeasure fs (p ++ [x2.1]) < fpMeasure fs p := fpMeasure_child_lt x2.2
      have hpre1 : (p ++ [x1.1]) <+: q1 :=
        (find_projects_mem_aux fs (fpMeasure fs (p ++ [x1.1]) + 1) (p ++ [x1.1])
          (Nat.lt_succ_self _) q1 hq1x).1
      have hpre2 : (p ++ [x2.1]) <+: q2 :=
        (find_projects_mem_aux fs (fpMeasure fs (p ++ [x2.1]) + 1) (p ++ [x2.1])
          (Nat.lt_succ_self _) q2 hq2x).1
      by_cases hxx : x1.1 = x2.1
      · have : find_projects fs (p ++ [x1.1]) = find_projects fs (p ++ [x2.1]) := by rw [hxx]
        exact ih (p ++ [x1.1]) (by omega) q1 hq1x q2 (by rw [this]; exact hq2x) hpre
      · exfalso
        have h1q2 : (p ++ [x1.1]) <+: q2 := hpre1.trans hpre
        have h12 : (p ++ [x1.1]) <+: (p ++ [x2.1]) :=
          List.prefix_of_prefix_length_le h1q2 hpre2 (by simp)
        have := List.IsPrefix.eq_of_length h12 (by simp)
        have := List.append_cancel_left this
        simp only [List.cons.injEq, and_true] at this
        exact hxx this

/-- C5: every path returned by the project locator directly contains
at least one stage-named child directory, and the returned paths form
an antichain under the ancestor (prefix) relation: one returned path
is a prefix of another only if they are equal. -/
theorem find_projects_stage_and_antichain (fs : FS) (p : Path) (q1 q2 : Path)
    (h1 : q1 ∈ find_projects fs p) (h2 : q2 ∈ find_projects fs p) :
    hasStageChild fs q1 = true ∧ (q1 <+: q2 → q1 = q2) :=
  ⟨(find_projects_mem_aux fs (fpMeasure fs p + 1) p (Nat.lt_succ_self _) q1 h1).2,
    fun hpre => find_projects_antichain_aux fs (fpMeasure fs p + 1) p (Nat.lt_succ_self _)
      q1 h1 q2 h2 hpre⟩

/-- A two-level library for the C5 witness: `A` is a project (has
`0_RAW`), `B` contains a nested project `B/C` (with `1_EDIT`). -/
def fsC5 : FS :=
  { entries := [(["A"], FsEntry.dirE), (["A", "0_RAW"], FsEntry.dirE),
      (["B"], FsEntry.dirE), (["B", "C"], FsEntry.dirE),
      (["B", "C", "1_EDIT"], FsEntry.dirE)],
    inodes := [] }

theorem flatMap_attach_eq {α β : Type _} (l : List α) (f : α → List β) :
    l.attach.flatMap (fun x => f x.1) = l.flatMap f := by
  conv_rhs => rw [← List.attach_map_subtype_val l]
  rw [List.flatMap_map]

theorem find_projects_fsC5_A : find_projects fsC5 ["A"] = [["A"]] := by
  rw [find_projects]
  rw [if_pos (by decide)]

theorem find_projects_fsC5_BC : find_projects fsC5 ["B", "C"] = [["B", "C"]] := by
  rw [find_projects]
  rw [if_pos (by decide)]

theorem find_projects_fsC5_B : find_projects fsC5 ["B"] = [["B", "C"]] := by
  rw [find_projects]
  rw [if_neg (by decide)]
  rw [flatMap_attach_eq (subdirsOf fsC5 ["B"]) (fun n => find_projects fsC5 (["B"] ++ [n]))]
  rw [show subdirsOf fsC5 ["B"] = ["C"] from rfl]
  rw [List.flatMap_cons, List.flatMap_nil]
  rw [show (["B"] ++ ["C"] : Path) = ["B", "C"] from rfl]
  rw [find_projects_fsC5_BC]
  rfl

theorem find_projects_fsC5 : find_projects fsC5 [] = [["A"], ["B", "C"]] := by
  rw [find_projects]
  rw [if_neg (by decide)]
  rw [flatMap_attach_eq (subdirsOf fsC5 []) (fun n => find_projects fsC5 ([] ++ [n]))]
  rw [show subdirsOf fsC5 [] = ["A", "B"] from rfl]
  rw [List.flatMap_cons, List.flatMap_cons, List.flatMap_nil]
  rw [show (([] : Path) ++ ["A"] : Path) = ["A"] from rfl,
    show (([] : Path) ++ ["B"] : Path) = ["B"] from rfl]
  rw [find_projects_fsC5_A, find_projects_fsC5_B]
  rfl

theorem find_projects_stage_and_antichain_witness :
    ["A"] ∈ find_projects fsC5 [] ∧ ["B", "C"] ∈ find_projects fsC5 [] ∧
      (hasStageChild fsC5 ["A"] = true ∧ (["A"] <+: ["B", "C"] → ["A"] = ["B", "C"])) :=
  ⟨by rw [find_projects_fsC5]; simp, by rw [find_projects_fsC5]; simp,
    find_projects_stage_and_antichain fsC5 [] ["A"] ["B", "C"]
      (by rw [find_projects_fsC5]; simp) (by rw [find_projects_fsC5]; simp)⟩

/-!  ### C8: a digest mismatch warns once and touches nothing  -/

/-- While every occurrence of `n` keeps hitting the mismatch branch
(candidate exists, separate storage, differing digests), the dedup
loop never changes the entry at the select path `pp ++ [n]`. -/
theorem hardlinkGo_lookup_sel_preserved (pp : Path) (n : String) :
    ∀ (names : List String) (fs : FS) (evs : List Event),
      path_exists fs (pp ++ [PROJECT_RAW_SUBDIR, n]) = true →
      samefile fs (pp ++ [n]) (pp ++ [PROJECT_RAW_SUBDIR, n]) = false →
      get_file_md5_hash fs (pp ++ [n]) ≠ get_file_md5_hash fs (pp ++ [PROJECT_RAW_SUBDIR, n]) →
      lookupEntry (hardlinkGo pp false names fs evs).1 (pp ++ [n]) =
        lookupEntry fs (pp ++ [n]) := by
  intro names
  induction names with
  | nil => intro fs evs _ _ _; simp [hardlinkGo]
  | cons m rest ih =>
    intro fs evs hex hsame hne
    by_cases hmn : m = n
    · subst hmn
      rw [hardlinkGo]
      rw [if_pos (by rw [hex, hsame]; rfl)]
      rw [if_neg (by rw [beq_eq_false_iff_ne.mpr hne]; simp)]
      exact ih fs _ hex hsame hne
    · have hnm : n ≠ m := fun hc => hmn hc.symm
      rw [hardlinkGo]
      by_cases hc : (path_exists fs (pp ++ [PROJECT_RAW_SUBDIR, m]) &&
          !(samefile fs (pp ++ [m]) (pp ++ [PROJECT_RAW_SUBDIR, m]))) = true
      · rw [if_pos hc]
        by_cases hmd : (get_file_md5_hash fs (pp ++ [m]) ==
            get_file_md5_hash fs (pp ++ [PROJECT_RAW_SUBDIR, m])) = true
        · rw [if_pos hmd]
          simp only [Bool.false_eq_true, if_false]
          have hlsel := hardlink_step_lookup fs pp m (pp ++ [n]) (append_singleton_ne_of_ne hnm)
          have hlraw := hardlink_step_lookup fs pp m (pp ++ [PROJECT_RAW_SUBDIR, n]) raw_len_ne_sel
          rw [ih _ _
            (by rw [path_exists_congr_lookup hlraw]; exact hex)
            (by rw [samefile_congr_lookup hlsel hlraw]; exact hsame)
            (by
              unfold get_file_md5_hash
              rw [contentAt_congr hlsel rfl, contentAt_congr hlraw rfl]
              exact hne)]
          exact hlsel
        · rw [if_neg hmd]
          exact ih fs _ hex hsame hne
      · rw [if_neg hc]
        exact ih fs evs hex hsame hne

/-- When `n` is not among the remaining names, no further event of the
loop is the mismatch warning for `n`'s select path. -/
theorem hardlinkGo_no_warn (pp : Path) (n : String) (s1 s2 : String) :
    ∀ (names : List String) (fs : FS) (evs : List Event),
      n ∉ names →
      (hardlinkGo pp false names fs evs).2.count (Event.printWarn (pp ++ [n]) s1 s2) =
        evs.count (Event.printWarn (pp ++ [n]) s1 s2) := by
  intro names
  induction names with
  | nil => intro fs evs _; simp [hardlinkGo]
  | cons m rest ih =>
    intro fs evs hmem
    have hnm : n ≠ m := fun hc => hmem (by rw [hc]; exact List.mem_cons_self m rest)
    have hrest : n ∉ rest := fun hc => hmem (List.mem_cons_of_mem m hc)
    have hpathne : (pp ++ [m]) ≠ (pp ++ [n]) :=
      append_singleton_ne_of_ne (fun hc => hnm hc.symm)
    rw [hardlinkGo]
    by_cases hc : (path_exists fs (pp ++ [PROJECT_RAW_SUBDIR, m]) &&
        !(samefile fs (pp ++ [m]) (pp ++ [PROJECT_RAW_SUBDIR, m]))) = true
    · rw [if_pos hc]
      by_cases hmd : (get_file_md5_hash fs (pp ++ [m]) ==
          get_file_md5_hash fs (pp ++ [PROJECT_RAW_SUBDIR, m])) = true
      · rw [if_pos hmd]
        simp only [Bool.false_eq_true, if_false]
        rw [ih _ _ hrest]
        simp [List.count_append, List.count_cons, hpathne]
      · rw [if_neg hmd]
        rw [ih _ _ hrest]
        simp [List.count_append, List.count_cons, hpathne]
    · rw [if_neg hc]
      exact ih fs evs hrest

/-- If `n` occurs exactly once among the names and its candidate has a
differing digest, the loop emits exactly one mismatch warning naming
the select path and both digests. -/
theorem hardlinkGo_warn_once (pp : Path) (n : String) (s1 s2 : String) :
    ∀ (names : List String) (fs : FS) (evs : List Event),
      names.count n = 1 →
      path_exists fs (pp ++ [PROJECT_RAW_SUBDIR, n]) = true →
      samefile fs (pp ++ [n]) (pp ++ [PROJECT_RAW_SUBDIR, n]) = false →
      get_file_md5_hash fs (pp ++ [n]) = s1 →
      get_file_md5_hash fs (pp ++ [PROJECT_RAW_SUBDIR, n]) = s2 →
      s1 ≠ s2 →
      (hardlinkGo pp false names fs evs).2.count (Event.printWarn (pp ++ [n]) s1 s2) =
        evs.count (Event.printWarn (pp ++ [n]) s1 s2) + 1 := by
  intro names
  induction names with
  | nil => intro fs evs hcount; simp at hcount
  | cons m rest ih =>
    intro fs evs hcount hex hsame hs1 hs2 hne
    by_cases hmn : m = n
    · subst hmn
      have hrest : rest.count m = 0 := by
        rw [List.count_cons_self] at hcount
        omega
      have hnotmem : m ∉ rest := by
        rw [← List.count_eq_zero]
        exact hrest
      rw [hardlinkGo]
      rw [if_pos (by rw [hex, hsame]; rfl)]
      have hmdne : (get_file_md5_hash fs (pp ++ [m]) ==
          get_file_md5_hash fs (pp ++ [PROJECT_RAW_SUBDIR, m])) = false := by
        rw [hs1, hs2]
        exact beq_eq_false_iff_ne.mpr hne
      rw [if_neg (by rw [hmdne]; simp)]
      rw [hardlinkGo_no_warn pp m s1 s2 rest fs _ hnotmem]
      rw [hs1, hs2]
      simp [List.count_append]
    · have hnm : n ≠ m := fun hc => hmn hc.symm
      have hcount' : rest.count n = 1 := by
        rw [List.count_cons_of_ne hnm] at hcount
        exact hcount
      have hpathne : (pp ++ [m]) ≠ (pp ++ [n]) :=
        append_singleton_ne_of_ne (fun hc => hnm hc.symm)
      rw [hardlinkGo]
      by_cases hc : (path_exists fs (pp ++ [PROJECT_RAW_SUBDIR, m]) &&
          !(samefile fs (pp ++ [m]) (pp ++ [PROJECT_RAW_SUBDIR, m]))) = true
      · rw [if_pos hc]
        by_cases hmd : (get_file_md5_hash fs (pp ++ [m]) ==
            get_file_md5_hash fs (pp ++ [PROJECT_RAW_SUBDIR, m])) = true
        · rw [if_pos hmd]
          simp only [Bool.false_eq_true, if_false]
          have hlsel := hardlink_step_lookup fs pp m (pp ++ [n]) (append_singleton_ne_of_ne hnm)
          have hlraw := hardlink_step_lookup fs pp m (pp ++ [PROJECT_RAW_SUBDIR, n]) raw_len_ne_sel
          rw [ih _ _ hcount'
            (by rw [path_exists_congr_lookup hlraw]; exact hex)
            (by rw [samefile_congr_lookup hlsel hlraw]; exact hsame)
            (by
              unfold get_file_md5_hash
              rw [contentAt_congr hlsel rfl]
              exact hs1)
            (by
              unfold get_file_md5_hash
              rw [contentAt_congr hlraw rfl]
              exact hs2)
            hne]
          simp [List.count_append, List.count_cons, hpathne]
        · rw [if_neg hmd]
          rw [ih _ _ hcount' hex hsame hs1 hs2 hne]
          simp [List.count_append, List.count_cons, hpathne]
      · rw [if_neg hc]
        exact ih fs evs hcount' hex hsame hs1 hs2 hne

/-- C8: for every select root file whose digest differs from its
same-named raw candidate's, the non-dry dedup pass emits exactly one
mismatch warning naming the select path and both digests, and leaves
both files untouched: directory entries, byte contents and mode bits
of the select and of the raw candidate are unchanged. -/
theorem digest_mismatch_warns_once_untouched (pp : Path) (fs : FS) (n : String)
    (hdir : isdir fs (pp ++ [PROJECT_RAW_SUBDIR]) = true)
    (hcount : (select_files pp fs).count n = 1)
    (hex : path_exists fs (pp ++ [PROJECT_RAW_SUBDIR, n]) = true)
    (hsame : samefile fs (pp ++ [n]) (pp ++ [PROJECT_RAW_SUBDIR, n]) = false)
    (hne : get_file_md5_hash fs (pp ++ [n]) ≠
      get_file_md5_hash fs (pp ++ [PROJECT_RAW_SUBDIR, n])) :
    (hardlink_select_files pp false fs).2.count
        (Event.printWarn (pp ++ [n]) (get_file_md5_hash fs (pp ++ [n]))
          (get_file_md5_hash fs (pp ++ [PROJECT_RAW_SUBDIR, n]))) = 1 ∧
      lookupEntry (hardlink_select_files pp false fs).1 (pp ++ [n]) =
        lookupEntry fs (pp ++ [n]) ∧
      lookupEntry (hardlink_select_files pp false fs).1 (pp ++ [PROJECT_RAW_SUBDIR, n]) =
        lookupEntry fs (pp ++ [PROJECT_RAW_SUBDIR, n]) ∧
      contentAt (hardlink_select_files pp false fs).1 (pp ++ [n]) =
        contentAt fs (pp ++ [n]) ∧
      contentAt (hardlink_select_files pp false fs).1 (pp ++ [PROJECT_RAW_SUBDIR, n]) =
        contentAt fs (pp ++ [PROJECT_RAW_SUBDIR, n]) ∧
      st_mode (hardlink_select_files pp false fs).1 (pp ++ [n]) =
        st_mode fs (pp ++ [n]) ∧
      st_mode (hardlink_select_files pp false fs).1 (pp ++ [PROJECT_RAW_SUBDIR, n]) =
        st_mode fs (pp ++ [PROJECT_RAW_SUBDIR, n]) := by
  unfold hardlink_select_files
  rw [if_pos hdir]
  have hsel := hardlinkGo_lookup_sel_preserved pp n (select_files pp fs) fs [] hex hsame hne
  have hraw := hardlinkGo_lookup_deep pp false (select_files pp fs) fs []
    (pp ++ [PROJECT_RAW_SUBDIR, n]) (by simp)
  have hino := hardlinkGo_inodes pp false (select_files pp fs) fs []
  refine ⟨?_, hsel, hraw, contentAt_congr hsel hino, contentAt_congr hraw hino,
    st_mode_congr hsel hino, st_mode_congr hraw hino⟩
  have := hardlinkGo_warn_once pp n (get_file_md5_hash fs (pp ++ [n]))
    (get_file_md5_hash fs (pp ++ [PROJECT_RAW_SUBDIR, n]))
    (select_files pp fs) fs [] hcount hex hsame rfl rfl hne
  rw [this]
  rfl

/-- A project whose select differs from its raw candidate, for the C8
witness. -/
def fsC8 : FS :=
  { entries := [(["T"], FsEntry.dirE), (["T", "0_RAW"], FsEntry.dirE),
      (["T", "0_RAW", "c.raw"], FsEntry.fileE 1), (["T", "c.raw"], FsEntry.fileE 2)],
    inodes := [(1, { content := "ORIGINAL", mode := 0o644 }),
      (2, { content := "EDITED", mode := 0o644 })] }

theorem digest_mismatch_warns_once_untouched_witness :
    isdir fsC8 (["T"] ++ [PROJECT_RAW_SUBDIR]) = true ∧
      ((hardlink_select_files ["T"] false fsC8).2.count
          (Event.printWarn (["T"] ++ ["c.raw"]) (get_file_md5_hash fsC8 (["T"] ++ ["c.raw"]))
            (get_file_md5_hash fsC8 (["T"] ++ [PROJECT_RAW_SUBDIR, "c.raw"]))) = 1 ∧
        lookupEntry (hardlink_select_files ["T"] false fsC8).1 (["T"] ++ ["c.raw"]) =
          lookupEntry fsC8 (["T"] ++ ["c.raw"]) ∧
        lookupEntry (hardlink_select_files ["T"] false fsC8).1
            (["T"] ++ [PROJECT_RAW_SUBDIR, "c.raw"]) =
          lookupEntry fsC8 (["T"] ++ [PROJECT_RAW_SUBDIR, "c.raw"]) ∧
        contentAt (hardlink_select_files ["T"] false fsC8).1 (["T"] ++ ["c.raw"]) =
          contentAt fsC8 (["T"] ++ ["c.raw"]) ∧
        contentAt (hardlink_select_files ["T"] false fsC8).1
            (["T"] ++ [PROJECT_RAW_SUBDIR, "c.raw"]) =
          contentAt fsC8 (["T"] ++ [PROJECT_RAW_SUBDIR, "c.raw"]) ∧
        st_mode (hardlink_select_files ["T"] false fsC8).1 (["T"] ++ ["c.raw"]) =
          st_mode fsC8 (["T"] ++ ["c.raw"]) ∧
        st_mode (hardlink_select_files ["T"] false fsC8).1
            (["T"] ++ [PROJECT_RAW_SUBDIR, "c.raw"]) =
          st_mode fsC8 (["T"] ++ [PROJECT_RAW_SUBDIR, "c.raw"])) :=
  ⟨by decide, digest_mismatch_warns_once_untouched ["T"] fsC8 "c.raw"
    (by decide) (by decide) (by decide) (by decide) (by decide)⟩

/-!  ### Permission-pass effect lemmas (C7, C6)  -/

theorem mask_ro_clean (x : Nat) : (x &&& 0o777444) &&& 0o333 = 0 := by
  rw [Nat.land_assoc, show ((0o777444 : Nat) &&& 0o333) = 0 by decide, Nat.and_zero]

theorem mask_rw_no_x (x : Nat) : ((x &&& 0o777666) ||| 0o666) &&& 0o111 = 0 := by
  apply Nat.eq_of_testBit_eq
  intro i
  rw [Nat.testBit_and, Nat.testBit_or, Nat.testBit_and, Nat.zero_testBit]
  by_cases hi : i < 9
  · have hb : ∀ j, j < 9 → ∀ xb : Bool,
        (((xb && Nat.testBit 0o777666 j) || Nat.testBit 0o666 j) &&
          Nat.testBit 0o111 j) = false := by
      decide
    exact hb i hi (x.testBit i)
  · have h9 : (0o111 : Nat) < 2 ^ 9 := by norm_num
    have hle : (2 : Nat) ^ 9 ≤ 2 ^ i := Nat.pow_le_pow_right (by norm_num) (by omega)
    rw [Nat.testBit_lt_two_pow (Nat.lt_of_lt_of_le h9 hle)]
    simp

theorem mask_rw_rw (x : Nat) : ((x &&& 0o777666) ||| 0o666) &&& 0o666 = 0o666 := by
  apply Nat.eq_of_testBit_eq
  intro i
  rw [Nat.testBit_and, Nat.testBit_or, Nat.testBit_and]
  by_cases hi : i < 9
  · have hb : ∀ j, j < 9 → ∀ xb : Bool,
        ((((xb && Nat.testBit 0o777666 j) || Nat.testBit 0o666 j) &&
          Nat.testBit 0o666 j)) = Nat.testBit 0o666 j := by
      decide
    exact hb i hi (x.testBit i)
  · have h9 : (0o666 : Nat) < 2 ^ 9 := by norm_num
    have hle : (2 : Nat) ^ 9 ≤ 2 ^ i := Nat.pow_le_pow_right (by norm_num) (by omega)
    rw [Nat.testBit_lt_two_pow (Nat.lt_of_lt_of_le h9 hle)]
    simp

/-- A nonzero observed mode means the path resolves to an inode that is
present in the table. -/
theorem st_mode_present {fs : FS} {p : Path} (h : st_mode fs p ≠ 0) :
    ∃ i, inoOf fs p = some i ∧ (inodeData fs i).isSome = true := by
  unfold st_mode at h
  cases hin : inoOf fs p with
  | none => rw [hin] at h; simp at h
  | some i =>
    rw [hin] at h
    cases hd : inodeData fs i with
    | none => rw [Option.some_bind, hd] at h; simp at h
    | some d => exact ⟨i, rfl, by rw [hd]; rfl⟩

theorem st_mode_os_chmod_same_cases {fs : FS} {p q : Path} {m : Nat} {i : Nat}
    (hq : inoOf fs q = some i) (hp : inoOf fs p = some i) :
    st_mode (os_chmod fs p m) q = m ∨ st_mode (os_chmod fs p m) q = 0 := by
  cases hd : (inodeData fs i).isSome
  · right
    unfold st_mode
    rw [inoOf_os_chmod, hq, Option.some_bind, inodeData_os_chmod_target hp]
    cases hdd : inodeData fs i with
    | none => rfl
    | some d => rw [hdd] at hd; cases hd
  · left
    exact st_mode_os_chmod_same hq hp hd

theorem entries_set_file_mode (p : Path) (m : Nat) (dry : Bool) (fs : FS) :
    (set_file_mode p m dry fs).1.entries = fs.entries := by
  unfold set_file_mode
  cases dry
  · exact entries_os_chmod fs p m
  · rfl

theorem entries_set_file_readonly (p : Path) (dry : Bool) (fs : FS) :
    (set_file_readonly p dry fs).1.entries = fs.entries := by
  unfold set_file_readonly
  by_cases h : st_mode fs p &&& 0o333 ≠ 0
  · rw [if_pos h]
    exact entries_set_file_mode p _ dry fs
  · rw [if_neg h]

theorem entries_set_file_readwrite (p : Path) (dry : Bool) (fs : FS) :
    (set_file_readwrite p dry fs).1.entries = fs.entries := by
  unfold set_file_readwrite
  by_cases h : st_mode fs p &&& 0o111 ≠ 0 ∨ st_mode fs p &&& 0o666 ≠ 0o666
  · rw [if_pos h]
    exact entries_set_file_mode p _ dry fs
  · rw [if_neg h]

theorem inodeData_isSome_os_chmod (fs : FS) (p : Path) (m : Nat) (i : Nat) :
    (inodeData (os_chmod fs p m) i).isSome = (inodeData fs i).isSome := by
  by_cases hp : inoOf fs p = some i
  · rw [inodeData_os_chmod_target hp]
    cases inodeData fs i <;> rfl
  · rw [inodeData_os_chmod_other hp]

/-- A read-only call establishes the no-write/no-execute state at its
own path. -/
theorem set_file_readonly_clean_self (p : Path) (fs : FS) :
    st_mode (set_file_readonly p false fs).1 p &&& 0o333 = 0 := by
  unfold set_file_readonly
  by_cases h : st_mode fs p &&& 0o333 ≠ 0
  · rw [if_pos h]
    unfold set_file_mode
    simp only [Bool.false_eq_true, if_false]
    have hmode : st_mode fs p ≠ 0 := by
      intro hz
      rw [hz] at h
      simp at h
    obtain ⟨i, hin, hd⟩ := st_mode_present hmode
    rw [st_mode_os_chmod_same hin hin hd]
    exact mask_ro_clean _
  · rw [if_neg h]
    rw [ne_eq, Decidable.not_not] at h
    exact h

/-- A read-only call leaves every already-clean path clean (its chmod
value carries no write/execute bits). -/
theorem set_file_readonly_clean_preserved (p q : Path) (fs : FS)
    (h : st_mode fs q &&& 0o333 = 0) :
    st_mode (set_file_readonly p false fs).1 q &&& 0o333 = 0 := by
  unfold set_file_readonly
  by_cases hc : st_mode fs p &&& 0o333 ≠ 0
  · rw [if_pos hc]
    unfold set_file_mode
    simp only [Bool.false_eq_true, if_false]
    cases hq : inoOf fs q with
    | none =>
      unfold st_mode
      rw [inoOf_os_chmod, hq]
      simp
    | some i =>
      by_cases hp : inoOf fs p = some i
      · rcases st_mode_os_chmod_same_cases hq hp with hs | hs
        · rw [hs]; exact mask_ro_clean _
        · rw [hs]; rfl
      · rw [st_mode_os_chmod_of_ne_ino (fun j hj => by rw [hq] at hj; cases hj; exact hp)]
        exact h
  · rw [if_neg hc]
    exact h

/-- A read-only call touches only its own inode. -/
theorem set_file_readonly_other_ino (p q : Path) (fs : FS)
    (h : ∀ i, inoOf fs q = some i → inoOf fs p ≠ some i) :
    st_mode (set_file_readonly p false fs).1 q = st_mode fs q := by
  unfold set_file_readonly
  by_cases hc : st_mode fs p &&& 0o333 ≠ 0
  · rw [if_pos hc]
    unfold set_file_mode
    simp only [Bool.false_eq_true, if_false]
    exact st_mode_os_chmod_of_ne_ino h
  · rw [if_neg hc]

/-- A read-write call touches only its own inode. -/
theorem set_file_readwrite_other_ino (p q : Path) (fs : FS)
    (h : ∀ i, inoOf fs q = some i → inoOf fs p ≠ some i) :
    st_mode (set_file_readwrite p false fs).1 q = st_mode fs q := by
  unfold set_file_readwrite
  by_cases hc : st_mode fs p &&& 0o111 ≠ 0 ∨ st_mode fs p &&& 0o666 ≠ 0o666
  · rw [if_pos hc]
    unfold set_file_mode
    simp only [Bool.false_eq_true, if_false]
    exact st_mode_os_chmod_of_ne_ino h
  · rw [if_neg hc]

/-- A read-write call establishes read+write-for-all with no execute
bits at its own path, provided the file's inode is present. -/
theorem set_file_readwrite_rw_self (p : Path) (fs : FS) {i : Nat}
    (hin : inoOf fs p = some i) (hd : (inodeData fs i).isSome = true) :
    st_mode (set_file_readwrite p false fs).1 p &&& 0o666 = 0o666 ∧
      st_mode (set_file_readwrite p false fs).1 p &&& 0o111 = 0 := by
  unfold set_file_readwrite
  by_cases hc : st_mode fs p &&& 0o111 ≠ 0 ∨ st_mode fs p &&& 0o666 ≠ 0o666
  · rw [if_pos hc]
    unfold set_file_mode
    simp only [Bool.false_eq_true, if_false]
    rw [st_mode_os_chmod_same hin hin hd]
    exact ⟨mask_rw_rw _, mask_rw_no_x _⟩
  · rw [if_neg hc]
    push_neg at hc
    exact ⟨hc.2, hc.1⟩

/-- A read-write call keeps read+write-for-all/no-execute wherever it
already holds. -/
theorem set_file_readwrite_rw_preserved (p q : Path) (fs : FS)
    (h : st_mode fs q &&& 0o666 = 0o666 ∧ st_mode fs q &&& 0o111 = 0) :
    st_mode (set_file_readwrite p false fs).1 q &&& 0o666 = 0o666 ∧
      st_mode (set_file_readwrite p false fs).1 q &&& 0o111 = 0 := by
  have hnz : st_mode fs q ≠ 0 := by
    intro hz
    rw [hz] at h
    simp at h
  obtain ⟨i, hq, hd⟩ := st_mode_present hnz
  unfold set_file_readwrite
  by_cases hc : st_mode fs p &&& 0o111 ≠ 0 ∨ st_mode fs p &&& 0o666 ≠ 0o666
  · rw [if_pos hc]
    unfold set_file_mode
    simp only [Bool.false_eq_true, if_false]
    by_cases hp : inoOf fs p = some i
    · rw [st_mode_os_chmod_same hq hp hd]
      exact ⟨mask_rw_rw _, mask_rw_no_x _⟩
    · rw [st_mode_os_chmod_of_ne_ino (fun j hj => by rw [hq] at hj; cases hj; exact hp)]
      exact h
  · rw [if_neg hc]
    exact h

/-- A read-write call keeps the no-write/no-execute state at paths on
other storage. -/
theorem set_file_readwrite_clean_preserved_other (p q : Path) (fs : FS)
    (hino : ∀ i, inoOf fs q = some i → inoOf fs p ≠ some i)
    (h : st_mode fs q &&& 0o333 = 0) :
    st_mode (set_file_readwrite p false fs).1 q &&& 0o333 = 0 := by
  rw [set_file_readwrite_other_ino p q fs hino]
  exact h

/-!  Fold-level lemmas for the two permission passes.  -/

theorem rawsGo_entries (raw_dir : Path) (dry : Bool) :
    ∀ (names : List String) (fs : FS) (evs : List Event),
      (rawsGo raw_dir dry names fs evs).1.entries = fs.entries := by
  intro names
  induction names with
  | nil => intro fs evs; rfl
  | cons n rest ih =>
    intro fs evs
    rw [rawsGo]
    rw [ih]
    exact entries_set_file_readonly _ dry fs

theorem rootGo_entries (pp : Path) (hl : Bool) (rps : List Path) (dry : Bool) :
    ∀ (names : List String) (fs : FS) (evs : List Event),
      (rootGo pp hl rps dry names fs evs).1.entries = fs.entries := by
  intro names
  induction names with
  | nil => intro fs evs; rfl
  | cons n rest ih =>
    intro fs evs
    rw [rootGo]
    by_cases hskip : (hl && rps.contains (pp ++ [n])) = true
    · rw [if_pos hskip]
      exact ih fs evs
    · rw [if_neg hskip]
      by_cases hx : (splitextLower n == ".xmp") = true
      · rw [if_pos hx, ih]
        exact entries_set_file_readwrite _ dry fs
      · rw [if_neg hx, ih]
        exact entries_set_file_readonly _ dry fs

theorem rawsGo_clean_preserved (raw_dir : Path) :
    ∀ (names : List String) (fs : FS) (evs : List Event) (q : Path),
      st_mode fs q &&& 0o333 = 0 →
      st_mode (rawsGo raw_dir false names fs evs).1 q &&& 0o333 = 0 := by
  intro names
  induction names with
  | nil => intro fs evs q h; exact h
  | cons n rest ih =>
    intro fs evs q h
    rw [rawsGo]
    exact ih _ _ q (set_file_readonly_clean_preserved _ q fs h)

theorem rawsGo_clean_mem (raw_dir : Path) :
    ∀ (names : List String) (fs : FS) (evs : List Event) (n : String),
      n ∈ names →
      st_mode (rawsGo raw_dir false names fs evs).1 (raw_dir ++ [n]) &&& 0o333 = 0 := by
  intro names
  induction names with
  | nil => intro fs evs n h; cases h
  | cons m rest ih =>
    intro fs evs n hmem
    rw [rawsGo]
    rcases List.mem_cons.mp hmem with rfl | hrest
    · exact rawsGo_clean_preserved raw_dir rest _ _ _ (set_file_readonly_clean_self _ fs)
    · exact ih _ _ n hrest

theorem rawsGo_other_ino (raw_dir : Path) :
    ∀ (names : List String) (fs : FS) (evs : List Event) (q : Path),
      (∀ m ∈ names, ∀ i, inoOf fs q = some i → inoOf fs (raw_dir ++ [m]) ≠ some i) →
      st_mode (rawsGo raw_dir false names fs evs).1 q = st_mode fs q := by
  intro names
  induction names with
  | nil => intro fs evs q _; rfl
  | cons m rest ih =>
    intro fs evs q h
    rw [rawsGo]
    have hent := entries_set_file_readonly (raw_dir ++ [m]) false fs
    rw [ih _ _ q (fun m' hm' i hi => by
      rw [inoOf_congr_entries hent] at hi ⊢
      exact h m' (List.mem_cons_of_mem m hm') i hi)]
    exact set_file_readonly_other_ino _ q fs (h m (List.mem_cons_self m rest))

theorem inodeData_isSome_set_file_readonly (p : Path) (fs : FS) (i : Nat) :
    (inodeData (set_file_readonly p false fs).1 i).isSome = (inodeData fs i).isSome := by
  unfold set_file_readonly
  by_cases h : st_mode fs p &&& 0o333 ≠ 0
  · rw [if_pos h]
    unfold set_file_mode
    simp only [Bool.false_eq_true, if_false]
    exact inodeData_isSome_os_chmod fs p _ i
  · rw [if_neg h]

theorem inodeData_isSome_set_file_readwrite (p : Path) (fs : FS) (i : Nat) :
    (inodeData (set_file_readwrite p false fs).1 i).isSome = (inodeData fs i).isSome := by
  unfold set_file_readwrite
  by_cases h : st_mode fs p &&& 0o111 ≠ 0 ∨ st_mode fs p &&& 0o666 ≠ 0o666
  · rw [if_pos h]
    unfold set_file_mode
    simp only [Bool.false_eq_true, if_false]
    exact inodeData_isSome_os_chmod fs p _ i
  · rw [if_neg h]

theorem rawsGo_inodeData_isSome (raw_dir : Path) :
    ∀ (names : List String) (fs : FS) (evs : List Event) (i : Nat),
      (inodeData (rawsGo raw_dir false names fs evs).1 i).isSome = (inodeData fs i).isSome := by
  intro names
  induction names with
  | nil => intro fs evs i; rfl
  | cons n rest ih =>
    intro fs evs i
    rw [rawsGo, ih]
    exact inodeData_isSome_set_file_readonly _ fs i

theorem rootGo_clean_preserved (pp : Path) (hl : Bool) (rps : List Path) :
    ∀ (names : List String) (fs : FS) (evs : List Event) (q : Path),
      st_mode fs q &&& 0o333 = 0 →
      (∀ m ∈ names, splitextLower m = ".xmp" →
        ∀ i, inoOf fs q = some i → inoOf fs (pp ++ [m]) ≠ some i) →
      st_mode (rootGo pp hl rps false names fs evs).1 q &&& 0o333 = 0 := by
  intro names
  induction names with
  | nil => intro fs evs q h _; exact h
  | cons m rest ih =>
    intro fs evs q h hiso
    rw [rootGo]
    by_cases hskip : (hl && rps.contains (pp ++ [m])) = true
    · rw [if_pos hskip]
      exact ih fs evs q h (fun m' hm' => hiso m' (List.mem_cons_of_mem m hm'))
    · rw [if_neg hskip]
      by_cases hx : (splitextLower m == ".xmp") = true
      · rw [if_pos hx]
        have hent := entries_set_file_readwrite (pp ++ [m]) false fs
        refine ih _ _ q ?_ ?_
        · exact set_file_readwrite_clean_preserved_other _ q fs
            (hiso m (List.mem_cons_self m rest) (beq_iff_eq.mp hx)) h
        · intro m' hm' hxm' i hi
          rw [inoOf_congr_entries hent] at hi ⊢
          exact hiso m' (List.mem_cons_of_mem m hm') hxm' i hi
      · rw [if_neg hx]
        have hent := entries_set_file_readonly (pp ++ [m]) false fs
        refine ih _ _ q (set_file_readonly_clean_preserved _ q fs h) ?_
        intro m' hm' hxm' i hi
        rw [inoOf_congr_entries hent] at hi ⊢
        exact hiso m' (List.mem_cons_of_mem m hm') hxm' i hi

theorem rootGo_rw_preserved (pp : Path) (hl : Bool) (rps : List Path) :
    ∀ (names : List String) (fs : FS) (evs : List Event) (q : Path),
      st_mode fs q &&& 0o666 = 0o666 ∧ st_mode fs q &&& 0o111 = 0 →
      (∀ m ∈ names, splitextLower m ≠ ".xmp" →
        ∀ i, inoOf fs q = some i → inoOf fs (pp ++ [m]) ≠ some i) →
      st_mode (rootGo pp hl rps false names fs evs).1 q &&& 0o666 = 0o666 ∧
        st_mode (rootGo pp hl rps false names fs evs).1 q &&& 0o111 = 0 := by
  intro names
  induction names with
  | nil => intro fs evs q h _; exact h
  | cons m rest ih =>
    intro fs evs q h hiso
    rw [rootGo]
    by_cases hskip : (hl && rps.contains (pp ++ [m])) = true
    · rw [if_pos hskip]
      exact ih fs evs q h (fun m' hm' => hiso m' (List.mem_cons_of_mem m hm'))
    · rw [if_neg hskip]
      by_cases hx : (splitextLower m == ".xmp") = true
      · rw [if_pos hx]
        have hent := entries_set_file_readwrite (pp ++ [m]) false fs
        refine ih _ _ q (set_file_readwrite_rw_preserved _ q fs h) ?_
        intro m' hm' hxm' i hi
        rw [inoOf_congr_entries hent] at hi ⊢
        exact hiso m' (List.mem_cons_of_mem m hm') hxm' i hi
      · rw [if_neg hx]
        have hent := entries_set_file_readonly (pp ++ [m]) false fs
        have hne : splitextLower m ≠ ".xmp" := by
          intro hc
          rw [Bool.not_eq_true] at hx
          rw [beq_eq_false_iff_ne] at hx
          exact hx hc
        have heq := set_file_readonly_other_ino (pp ++ [m]) q fs
          (hiso m (List.mem_cons_self m rest) hne)
        refine ih _ _ q (by rw [heq]; exact h) ?_
        intro m' hm' hxm' i hi
        rw [inoOf_congr_entries hent] at hi ⊢
        exact hiso m' (List.mem_cons_of_mem m hm') hxm' i hi

theorem rootGo_ro_mem (pp : Path) (hl : Bool) (rps : List Path) :
    ∀ (names : List String) (fs : FS) (evs : List Event) (n : String),
      n ∈ names → splitextLower n ≠ ".xmp" →
      (hl && rps.contains (pp ++ [n])) = false →
      (∀ m ∈ names, splitextLower m = ".xmp" →
        ∀ i, inoOf fs (pp ++ [n]) = some i → inoOf fs (pp ++ [m]) ≠ some i) →
      st_mode (rootGo pp hl rps false names fs evs).1 (pp ++ [n]) &&& 0o333 = 0 := by
  intro names
  induction names with
  | nil => intro fs evs n h; cases h
  | cons m rest ih =>
    intro fs evs n hmem hxne hskip hiso
    rw [rootGo]
    rcases List.mem_cons.mp hmem with rfl | hrest
    · rw [if_neg (by rw [hskip]; simp)]
      rw [if_neg (by rw [beq_eq_false_iff_ne.mpr hxne]; simp)]
      have hent := entries_set_file_readonly (pp ++ [n]) false fs
      refine rootGo_clean_preserved pp hl rps rest _ _ _
        (set_file_readonly_clean_self _ fs) ?_
      intro m' hm' hxm' i hi
      rw [inoOf_congr_entries hent] at hi ⊢
      exact hiso m' (List.mem_cons_of_mem n hm') hxm' i hi
    · by_cases hsk : (hl && rps.contains (pp ++ [m])) = true
      · rw [if_pos hsk]
        exact ih fs evs n hrest hxne hskip
          (fun m' hm' => hiso m' (List.mem_cons_of_mem m hm'))
      · rw [if_neg hsk]
        by_cases hx : (splitextLower m == ".xmp") = true
        · rw [if_pos hx]
          have hent := entries_set_file_readwrite (pp ++ [m]) false fs
          refine ih _ _ n hrest hxne hskip ?_
          intro m' hm' hxm' i hi
          rw [inoOf_congr_entries hent] at hi ⊢
          exact hiso m' (List.mem_cons_of_mem m hm') hxm' i hi
        · rw [if_neg hx]
          have hent := entries_set_file_readonly (pp ++ [m]) false fs
          refine ih _ _ n hrest hxne hskip ?_
          intro m' hm' hxm' i hi
          rw [inoOf_congr_entries hent] at hi ⊢
          exact hiso m' (List.mem_cons_of_mem m hm') hxm' i hi

theorem rootGo_rw_mem (pp : Path) (hl : Bool) (rps : List Path) :
    ∀ (names : List String) (fs : FS) (evs : List Event) (n : String) (i : Nat),
      n ∈ names → splitextLower n = ".xmp" →
      (hl && rps.contains (pp ++ [n])) = false →
      inoOf fs (pp ++ [n]) = some i → (inodeData fs i).isSome = true →
      (∀ m ∈ names, splitextLower m ≠ ".xmp" →
        ∀ j, inoOf fs (pp ++ [n]) = some j → inoOf fs (pp ++ [m]) ≠ some j) →
      st_mode (rootGo pp hl rps false names fs evs).1 (pp ++ [n]) &&& 0o666 = 0o666 ∧
        st_mode (rootGo pp hl rps false names fs evs).1 (pp ++ [n]) &&& 0o111 = 0 := by
  intro names
  induction names with
  | nil => intro fs evs n i h; cases h
  | cons m rest ih =>
    intro fs evs n i hmem hx hskip hin hd hiso
    rw [rootGo]
    rcases List.mem_cons.mp hmem with rfl | hrest
    · rw [if_neg (by rw [hskip]; simp)]
      rw [if_pos (beq_iff_eq.mpr hx)]
      have hent := entries_set_file_readwrite (pp ++ [n]) false fs
      refine rootGo_rw_preserved pp hl rps rest _ _ _
        (set_file_readwrite_rw_self _ fs hin hd) ?_
      intro m' hm' hxm' j hj
      rw [inoOf_congr_entries hent] at hj ⊢
      exact hiso m' (List.mem_cons_of_mem n hm') hxm' j hj
    · by_cases hsk : (hl && rps.contains (pp ++ [m])) = true
      · rw [if_pos hsk]
        exact ih fs evs n i hrest hx hskip hin hd
          (fun m' hm' => hiso m' (List.mem_cons_of_mem m hm'))
      · rw [if_neg hsk]
        by_cases hxm : (splitextLower m == ".xmp") = true
        · rw [if_pos hxm]
          have hent := entries_set_file_readwrite (pp ++ [m]) false fs
          refine ih _ _ n i hrest hx hskip
            (by rw [inoOf_congr_entries hent]; exact hin)
            (by rw [inodeData_isSome_set_file_readwrite]; exact hd) ?_
          intro m' hm' hxm' j hj
          rw [inoOf_congr_entries hent] at hj ⊢
          exact hiso m' (List.mem_cons_of_mem m hm') hxm' j hj
        · rw [if_neg hxm]
          have hent := entries_set_file_readonly (pp ++ [m]) false fs
          refine ih _ _ n i hrest hx hskip
            (by rw [inoOf_congr_entries hent]; exact hin)
            (by rw [inodeData_isSome_set_file_readonly]; exact hd) ?_
          intro m' hm' hxm' j hj
          rw [inoOf_congr_entries hent] at hj ⊢
          exact hiso m' (List.mem_cons_of_mem m hm') hxm' j hj

/-!  Membership bridges and decidable well-formedness predicates.  -/

theorem find?_of_mem_nodup {l : List (Path × FsEntry)} {q : Path} {e : FsEntry}
    (hnd : (l.map Prod.fst).Nodup) (h : (q, e) ∈ l) :
    (l.find? (fun x => x.1 == q)).map (·.2) = some e := by
  induction l with
  | nil => cases h
  | cons a t ih =>
    rw [List.map_cons, List.nodup_cons] at hnd
    rcases List.mem_cons.mp h with rfl | ht
    · rw [List.find?_cons_of_pos _ (by simp)]
      rfl
    · have hne : ¬ (a.1 = q) := by
        intro hc
        apply hnd.1
        rw [hc]
        exact List.mem_map.mpr ⟨(q, e), ht, rfl⟩
      rw [List.find?_cons_of_neg _ (by simp [hne])]
      exact ih hnd.2 ht

theorem lookupEntry_of_mem_nodup {fs : FS} {q : Path} {e : FsEntry}
    (hnd : (fs.entries.map Prod.fst).Nodup) (h : (q, e) ∈ fs.entries) :
    lookupEntry fs q = some e :=
  find?_of_mem_nodup hnd h

theorem inoOf_of_mem_nodup {fs : FS} {q : Path} {i : Nat}
    (hnd : (fs.entries.map Prod.fst).Nodup) (h : (q, FsEntry.fileE i) ∈ fs.entries) :
    inoOf fs q = some i := by
  unfold inoOf
  rw [lookupEntry_of_mem_nodup hnd h]

theorem mem_entry_of_inoOf {fs : FS} {q : Path} {i : Nat}
    (h : inoOf fs q = some i) : (q, FsEntry.fileE i) ∈ fs.entries := by
  unfold inoOf lookupEntry at h
  cases hf : fs.entries.find? (fun e => e.1 == q) with
  | none => rw [hf] at h; cases h
  | some e =>
    rw [hf] at h
    have hmem := List.mem_of_find?_eq_some hf
    have hq' := List.find?_some hf
    simp only [beq_iff_eq] at hq'
    have hq : e.1 = q := hq' 
    cases he : e.2 with
    | dirE => simp [he] at h
    | fileE j =>
      simp [he] at h
      have heq : e = (q, FsEntry.fileE i) := by
        obtain ⟨a, b⟩ := e
        simp only at hq' he
        subst hq'
        subst he
        rw [h]
      rw [← heq]
      exact hmem

theorem scandir_mem_of_entry {fs : FS} {p : Path} {n : String} {e : FsEntry}
    (h : (p ++ [n], e) ∈ fs.entries) : (n, e) ∈ scandir fs p := by
  unfold scandir
  rw [List.mem_filterMap]
  refine ⟨(p ++ [n], e), h, ?_⟩
  rw [if_pos (by rw [List.take_left]; simp)]
  rw [List.drop_left]

theorem raw_files_mem_of_entry {fs : FS} {pp : Path} {n : String} {i : Nat}
    (h : (pp ++ [PROJECT_RAW_SUBDIR, n], FsEntry.fileE i) ∈ fs.entries) :
    n ∈ raw_files pp fs := by
  unfold raw_files
  rw [List.mem_filterMap]
  refine ⟨(n, FsEntry.fileE i), ?_, rfl⟩
  apply scandir_mem_of_entry
  rw [List.append_assoc]
  exact h

theorem project_root_files_mem_of_entry {fs : FS} {pp : Path} {n : String} {i : Nat}
    (h : (pp ++ [n], FsEntry.fileE i) ∈ fs.entries) :
    n ∈ project_root_files pp fs := by
  unfold project_root_files
  rw [List.mem_filterMap]
  exact ⟨(n, FsEntry.fileE i), scandir_mem_of_entry h, rfl⟩

/-- Decidable form: every file entry's inode is present in the table. -/
def wfInodesB (fs : FS) : Bool :=
  fs.entries.all (fun e =>
    match e.2 with
    | FsEntry.fileE i => (inodeData fs i).isSome
    | FsEntry.dirE => true)

theorem wfInodesB_spec {fs : FS} (h : wfInodesB fs = true) :
    ∀ (q : Path) (i : Nat), (q, FsEntry.fileE i) ∈ fs.entries →
      (inodeData fs i).isSome = true := by
  intro q i hmem
  unfold wfInodesB at h
  rw [List.all_eq_true] at h
  exact h (q, FsEntry.fileE i) hmem

/-- Is `q` a sidecar (`.xmp`) file directly at the project root? -/
def isRootXmp (pp : Path) (q : Path) : Bool :=
  (q.take pp.length == pp) &&
    (match q.drop pp.length with
     | [n] => splitextLower n == ".xmp"
     | _ => false)

/-- Decidable form of sidecar isolation: no project-root `.xmp` file
shares its inode with any other file entry. -/
def xmpIsoB (pp : Path) (fs : FS) : Bool :=
  fs.entries.all (fun e =>
    match e.2 with
    | FsEntry.fileE i =>
        !(isRootXmp pp e.1) ||
          fs.entries.all (fun e2 =>
            match e2.2 with
            | FsEntry.fileE j => (e2.1 == e.1) || !(j == i)
            | FsEntry.dirE => true)
    | FsEntry.dirE => true)

theorem isRootXmp_true {pp : Path} {n : String} (hx : splitextLower n = ".xmp") :
    isRootXmp pp (pp ++ [n]) = true := by
  unfold isRootXmp
  rw [List.take_left, List.drop_left]
  simp [hx]

theorem xmpIsoB_spec {pp : Path} {fs : FS} (h : xmpIsoB pp fs = true) :
    ∀ (n : String) (i : Nat), (pp ++ [n], FsEntry.fileE i) ∈ fs.entries →
      splitextLower n = ".xmp" →
      ∀ (q : Path) (j : Nat), (q, FsEntry.fileE j) ∈ fs.entries →
        q ≠ pp ++ [n] → j ≠ i := by
  intro n i hmem hx q j hmem2 hne
  unfold xmpIsoB at h
  rw [List.all_eq_true] at h
  have h1 := h (pp ++ [n], FsEntry.fileE i) hmem
  simp only [isRootXmp_true hx, Bool.not_true, Bool.false_or] at h1
  rw [List.all_eq_true] at h1
  have h2 := h1 (q, FsEntry.fileE j) hmem2
  simp only [Bool.or_eq_true, beq_iff_eq] at h2
  rcases h2 with hc | hc
  · exact absurd hc hne
  · simp only [Bool.not_eq_eq_eq_not, Bool.not_true, beq_eq_false_iff_ne, ne_eq] at hc
    exact hc

theorem rawPass_entries (pp : Path) (dry : Bool) (fs : FS) :
    (rawPass pp dry fs).1.entries = fs.entries := by
  unfold rawPass
  by_cases h : path_exists fs (pp ++ [PROJECT_RAW_SUBDIR]) = true
  · rw [if_pos h]
    exact rawsGo_entries _ dry _ fs []
  · rw [if_neg h]

theorem project_root_files_congr_entries {fs fs' : FS} (h : fs.entries = fs'.entries)
    (pp : Path) : project_root_files pp fs = project_root_files pp fs' := by
  unfold project_root_files
  rw [scandir_congr_entries h]

theorem rps_skip_false (hl : Bool) (pp : Path) (fs : FS) (n : String) :
    (hl && (rps_of pp fs).contains (pp ++ [n])) = false := by
  unfold rps_of
  by_cases h : path_exists fs (pp ++ [PROJECT_RAW_SUBDIR]) = true
  · rw [if_pos h, raw_path_set_contains_root]
    simp
  · rw [if_neg h]
    simp [List.contains]

theorem rawPass_clean_raw (pp : Path) (fs : FS) {n : String} {i : Nat}
    (hrawdir : path_exists fs (pp ++ [PROJECT_RAW_SUBDIR]) = true)
    (hmem : (pp ++ [PROJECT_RAW_SUBDIR, n], FsEntry.fileE i) ∈ fs.entries) :
    st_mode (rawPass pp false fs).1 (pp ++ [PROJECT_RAW_SUBDIR, n]) &&& 0o333 = 0 := by
  unfold rawPass
  rw [if_pos hrawdir]
  have hres := rawsGo_clean_mem (pp ++ [PROJECT_RAW_SUBDIR]) (raw_files pp fs) fs [] n
    (raw_files_mem_of_entry hmem)
  rw [List.append_assoc] at hres
  exact hres

theorem rawPass_inodeData_isSome (pp : Path) (fs : FS) (i : Nat) :
    (inodeData (rawPass pp false fs).1 i).isSome = (inodeData fs i).isSome := by
  unfold rawPass
  by_cases h : path_exists fs (pp ++ [PROJECT_RAW_SUBDIR]) = true
  · rw [if_pos h]
    exact rawsGo_inodeData_isSome _ _ fs [] i
  · rw [if_neg h]

/-- C7 (amended): after a non-dry permission pass on a project whose
raw directory exists, whose path table has no duplicates, whose file
inodes are present, and whose root sidecar files share storage with no
other file: every raw file has no write/execute bit; every root
sidecar (`.xmp`) file has read+write for all and no execute bit; and
every other root file — deduplicated or not — has no write/execute
bit. -/
theorem set_files_permissions_target_modes (pp : Path) (fs : FS) (hl : Bool)
    (hnd : (fs.entries.map Prod.fst).Nodup)
    (hwf : wfInodesB fs = true)
    (hrawdir : path_exists fs (pp ++ [PROJECT_RAW_SUBDIR]) = true)
    (hiso : xmpIsoB pp fs = true) :
    (∀ (n : String) (i : Nat),
        (pp ++ [PROJECT_RAW_SUBDIR, n], FsEntry.fileE i) ∈ fs.entries →
        st_mode (set_files_permissions pp hl false fs).1
          (pp ++ [PROJECT_RAW_SUBDIR, n]) &&& 0o333 = 0) ∧
      (∀ (n : String) (i : Nat), (pp ++ [n], FsEntry.fileE i) ∈ fs.entries →
        splitextLower n = ".xmp" →
        st_mode (set_files_permissions pp hl false fs).1 (pp ++ [n]) &&& 0o666 = 0o666 ∧
          st_mode (set_files_permissions pp hl false fs).1 (pp ++ [n]) &&& 0o111 = 0) ∧
      (∀ (n : String) (i : Nat), (pp ++ [n], FsEntry.fileE i) ∈ fs.entries →
        splitextLower n ≠ ".xmp" →
        st_mode (set_files_permissions pp hl false fs).1 (pp ++ [n]) &&& 0o333 = 0) := by
  have hxmp := xmpIsoB_spec hiso
  have hwf' := wfInodesB_spec hwf
  have hent1 : (rawPass pp false fs).1.entries = fs.entries := rawPass_entries pp false fs
  unfold set_files_permissions
  refine ⟨?_, ?_, ?_⟩
  · intro n i hmem
    apply rootGo_clean_preserved
    · exact rawPass_clean_raw pp fs hrawdir hmem
    · intro m hm hxm i' hi' hc
      rw [inoOf_congr_entries hent1] at hi' hc
      have e1 := mem_entry_of_inoOf hi'
      have e2 := mem_entry_of_inoOf hc
      refine absurd rfl (hxmp m i' e2 hxm _ i' e1 ?_)
      intro hceq
      have := congrArg List.length hceq
      simp at this
  · intro n i hmem hx
    have hino : inoOf fs (pp ++ [n]) = some i := inoOf_of_mem_nodup hnd hmem
    apply rootGo_rw_mem pp hl (rps_of pp fs) _ _ _ n i
    · rw [project_root_files_congr_entries hent1]
      exact project_root_files_mem_of_entry hmem
    · exact hx
    · exact rps_skip_false hl pp fs n
    · rw [inoOf_congr_entries hent1]
      exact hino
    · rw [rawPass_inodeData_isSome]
      exact hwf' _ i hmem
    · intro m hm hxm j hj hc
      rw [inoOf_congr_entries hent1] at hj hc
      rw [hino] at hj
      cases hj
      have e2 := mem_entry_of_inoOf hc
      refine absurd rfl (hxmp n i hmem hx (pp ++ [m]) i e2 ?_)
      apply append_singleton_ne_of_ne
      intro hmeq
      exact hxm (by rw [hmeq]; exact hx)
  · intro n i hmem hxne
    apply rootGo_ro_mem
    · rw [project_root_files_congr_entries hent1]
      exact project_root_files_mem_of_entry hmem
    · exact hxne
    · exact rps_skip_false hl pp fs n
    · intro m hm hxm i' hi' hc
      rw [inoOf_congr_entries hent1] at hi' hc
      have e1 := mem_entry_of_inoOf hi'
      have e2 := mem_entry_of_inoOf hc
      refine absurd rfl (hxmp m i' e2 hxm (pp ++ [n]) i' e1 ?_)
      apply append_singleton_ne_of_ne
      intro hneq
      exact hxne (by rw [hneq]; exact hxm)

/-- A project whose root sidecar `b.xmp` shares inode 3 with the raw
original `0_RAW/b.xmp`. -/
def fsC7 : FS :=
  { entries := [(["V"], FsEntry.dirE), (["V", "0_RAW"], FsEntry.dirE),
      (["V", "0_RAW", "b.xmp"], FsEntry.fileE 3), (["V", "b.xmp"], FsEntry.fileE 3)],
    inodes := [(3, { content := "meta", mode := 0o644 })] }

/-- C7 counterexample: when a root sidecar shares storage with a raw
original, the root pass makes the shared inode read-write after the
raw pass made it read-only, so the raw file ends with its write bit
set — the claim's first clause (no write bit on any raw file) is false
as stated. -/
theorem raw_write_bit_after_enforcement_cex :
    st_mode (set_files_permissions ["V"] true false fsC7).1 ["V", "0_RAW", "b.xmp"] = 0o666 ∧
      st_mode (set_files_permissions ["V"] true false fsC7).1
          ["V", "0_RAW", "b.xmp"] &&& 0o222 ≠ 0 := by decide

/-- A well-formed project for the C7 witness: the sidecar has its own
storage. -/
def fsC7w : FS :=
  { entries := [(["W"], FsEntry.dirE), (["W", "0_RAW"], FsEntry.dirE),
      (["W", "0_RAW", "d.raw"], FsEntry.fileE 1), (["W", "d.raw"], FsEntry.fileE 1),
      (["W", "d.xmp"], FsEntry.fileE 2), (["W", "e.jpg"], FsEntry.fileE 5)],
    inodes := [(1, { content := "raw", mode := 0o755 }),
      (2, { content := "meta", mode := 0o444 }),
      (5, { content := "jpg", mode := 0o666 })] }

theorem set_files_permissions_target_modes_witness :
    (fsC7w.entries.map Prod.fst).Nodup ∧ wfInodesB fsC7w = true ∧
      path_exists fsC7w (["W"] ++ [PROJECT_RAW_SUBDIR]) = true ∧
      xmpIsoB ["W"] fsC7w = true ∧
      ((∀ (n : String) (i : Nat),
          (["W"] ++ [PROJECT_RAW_SUBDIR, n], FsEntry.fileE i) ∈ fsC7w.entries →
          st_mode (set_files_permissions ["W"] true false fsC7w).1
            (["W"] ++ [PROJECT_RAW_SUBDIR, n]) &&& 0o333 = 0) ∧
        (∀ (n : String) (i : Nat), (["W"] ++ [n], FsEntry.fileE i) ∈ fsC7w.entries →
          splitextLower n = ".xmp" →
          st_mode (set_files_permissions ["W"] true false fsC7w).1 (["W"] ++ [n]) &&& 0o666 = 0o666 ∧
            st_mode (set_files_permissions ["W"] true false fsC7w).1 (["W"] ++ [n]) &&& 0o111 = 0) ∧
        (∀ (n : String) (i : Nat), (["W"] ++ [n], FsEntry.fileE i) ∈ fsC7w.entries →
          splitextLower n ≠ ".xmp" →
          st_mode (set_files_permissions ["W"] true false fsC7w).1 (["W"] ++ [n]) &&& 0o333 = 0)) :=
  ⟨by decide, by decide, by decide, by decide,
    set_files_permissions_target_modes ["W"] fsC7w true (by decide) (by decide)
      (by decide) (by decide)⟩

/-!  ### C2: an uncaught deletion failure aborts the run  -/

/-- The dot-file sweep against an OS where unlinking the paths in
`locked` raises `PermissionError`: the loop stops at the first failing
unlink (the script has no try/except), flagging the raise.  The report
line is printed before the failing unlink, as in the source. -/
def removeDotGoE (locked : List Path) (dry : Bool) :
    List Path → FS → List Event → FS × List Event × Bool
  | [], fs, evs => (fs, evs, false)
  | f :: rest, fs, evs =>
    if dry then removeDotGoE locked dry rest fs (evs ++ [Event.printRemove f])
    else if locked.contains f then (fs, evs ++ [Event.printRemove f], true)
    else removeDotGoE locked dry rest (os_unlink fs f)
      (evs ++ [Event.printRemove f, Event.opUnlink f])

/-- `remove_dot_files` in the raising model. -/
def remove_dot_filesE (locked : List Path) (pp : Path) (dry : Bool) (fs : FS) :
    FS × List Event × Bool :=
  removeDotGoE locked dry (glob_dot_files pp fs) fs []

/-- `cleanup_project` in the raising model: a raise in the sweep
propagates, skipping the remaining stages of the project. -/
def cleanup_projectE (locked : List Path) (pp : Path)
    (remove_dotfiles remove_edits hardlink_selects fix_permissions dry_run : Bool)
    (fs : FS) : FS × List Event × Bool :=
  if remove_dotfiles then
    if (remove_dot_filesE locked pp dry_run fs).2.2 then
      ((remove_dot_filesE locked pp dry_run fs).1,
        (remove_dot_filesE locked pp dry_run fs).2.1, true)
    else
      ((cleanup_project pp false remove_edits hardlink_selects fix_permissions dry_run
          (remove_dot_filesE locked pp dry_run fs).1).1,
        (remove_dot_filesE locked pp dry_run fs).2.1 ++
          (cleanup_project pp false remove_edits hardlink_selects fix_permissions dry_run
            (remove_dot_filesE locked pp dry_run fs).1).2, false)
  else
    ((cleanup_project pp false remove_edits hardlink_selects fix_permissions dry_run fs).1,
      (cleanup_project pp false remove_edits hardlink_selects fix_permissions dry_run fs).2,
      false)

/-- The project loop in the raising model: an uncaught raise aborts
the loop, leaving the remaining projects unprocessed. -/
def projectsGoE (locked : List Path) (rd re hl fp dry : Bool) :
    List Path → FS → List Event → FS × List Event × Bool
  | [], fs, evs => (fs, evs, false)
  | p :: rest, fs, evs =>
    if (cleanup_projectE locked p rd re hl fp dry fs).2.2 then
      ((cleanup_projectE locked p rd re hl fp dry fs).1,
        evs ++ (cleanup_projectE locked p rd re hl fp dry fs).2.1, true)
    else
      projectsGoE locked rd re hl fp dry rest
        (cleanup_projectE locked p rd re hl fp dry fs).1
        (evs ++ (cleanup_projectE locked p rd re hl fp dry fs).2.1)

/-- `cleanup_photo_library` in the raising model. -/
def cleanup_photo_libraryE (locked : List Path) (lp : Path)
    (remove_dotfiles remove_edits hardlink_selects fix_permissions dry_run : Bool)
    (fs : FS) : FS × List Event × Bool :=
  projectsGoE locked remove_dotfiles remove_edits
    (hardlink_selects && (if hardlink_selects then are_hardlinks_supported lp fs
      else (false, fs, [])).1)
    fix_permissions dry_run
    (find_projects (if hardlink_selects then are_hardlinks_supported lp fs
      else (false, fs, [])).2.1 lp)
    (if hardlink_selects then are_hardlinks_supported lp fs else (false, fs, [])).2.1
    (if hardlink_selects then are_hardlinks_supported lp fs else (false, fs, [])).2.2

theorem removeDotGoE_raises (locked : List Path) :
    ∀ (ms : List Path) (fs : FS) (evs : List Event),
      ms.any (fun f => locked.contains f) = true →
      (removeDotGoE locked false ms fs evs).2.2 = true := by
  intro ms
  induction ms with
  | nil => intro fs evs h; simp at h
  | cons m rest ih =>
    intro fs evs h
    rw [removeDotGoE]
    simp only [Bool.false_eq_true, if_false]
    by_cases hm : locked.contains m = true
    · rw [if_pos hm]
    · rw [if_neg hm]
      apply ih
      rw [List.any_cons, Bool.or_eq_true] at h
      rcases h with hc | hc
      · exact absurd hc hm
      · exact hc

theorem removeDotGoE_entry_preserved (locked : List Path) :
    ∀ (ms : List Path) (fs : FS) (evs : List Event) (e : Path × FsEntry),
      e ∈ fs.entries → (∀ m ∈ ms, e.1 ≠ m) →
      e ∈ (removeDotGoE locked false ms fs evs).1.entries := by
  intro ms
  induction ms with
  | nil => intro fs evs e he _; exact he
  | cons m rest ih =>
    intro fs evs e he hne
    rw [removeDotGoE]
    simp only [Bool.false_eq_true, if_false]
    by_cases hm : locked.contains m = true
    · rw [if_pos hm]
      exact he
    · rw [if_neg hm]
      apply ih
      · unfold os_unlink
        rw [List.mem_filter]
        refine ⟨he, ?_⟩
        simp only [Bool.not_eq_eq_eq_not, Bool.not_true, beq_eq_false_iff_ne, ne_eq]
        exact hne m (List.mem_cons_self m rest)
      · exact fun m' hm' => hne m' (List.mem_cons_of_mem m hm')

theorem dotGlobMatch_prefix {pp q : Path} (h : dotGlobMatch pp q = true) : pp <+: q := by
  unfold dotGlobMatch at h
  rw [Bool.and_eq_true] at h
  have htake := h.1
  rw [beq_iff_eq] at htake
  rw [List.prefix_iff_eq_take]
  exact htake.symm

/-- C2 (amended): an unlink failure during the dot-file sweep of the
first project raises an uncaught exception; the run aborts — the
remaining matches, stages and projects are never processed — while
every entry outside that project is left untouched.  Only the report
lines printed before the raise are emitted.  (Deduplication disabled
here so the capability probe does not run first.) -/
theorem deletion_failure_aborts_run (locked : List Path) (lp : Path) (fs : FS)
    (re fp : Bool) (p1 : Path) (rest : List Path)
    (hfp : find_projects fs lp = p1 :: rest)
    (hlocked : (glob_dot_files p1 fs).any (fun f => locked.contains f) = true) :
    (cleanup_photo_libraryE locked lp true re false fp false fs).2.2 = true ∧
      ∀ e ∈ fs.entries, ¬ (p1 <+: e.1) →
        e ∈ (cleanup_photo_libraryE locked lp true re false fp false fs).1.entries := by
  have hsw : (remove_dot_filesE locked p1 false fs).2.2 = true :=
    removeDotGoE_raises locked _ fs [] hlocked
  have hpr : (cleanup_projectE locked p1 true re false fp false fs).2.2 = true := by
    unfold cleanup_projectE
    rw [if_pos rfl, if_pos hsw]
  have hps : (cleanup_projectE locked p1 true re false fp false fs).1 =
      (remove_dot_filesE locked p1 false fs).1 := by
    unfold cleanup_projectE
    rw [if_pos rfl, if_pos hsw]
  have hlib : cleanup_photo_libraryE locked lp true re false fp false fs =
      projectsGoE locked true re false fp false (find_projects fs lp) fs [] := rfl
  rw [hlib, hfp]
  rw [projectsGoE, if_pos hpr]
  refine ⟨rfl, ?_⟩
  intro e he hnp
  simp only [hps]
  unfold remove_dot_filesE
  apply removeDotGoE_entry_preserved locked _ fs [] e he
  intro m hm
  intro hc
  apply hnp
  rw [hc]
  unfold glob_dot_files at hm
  rw [List.mem_map] at hm
  obtain ⟨x, hx, hxe⟩ := hm
  have := (List.mem_filter.mp hx).2
  rw [hxe] at this
  exact dotGlobMatch_prefix this

/-- Two projects; the first holds a locked (undeletable) dot file
`._a` followed by `._b`, the second its own dot file `._c`. -/
def fsC2 : FS :=
  { entries := [(["P1"], FsEntry.dirE), (["P1", "0_RAW"], FsEntry.dirE),
      (["P1", "._a"], FsEntry.fileE 1), (["P1", "._b"], FsEntry.fileE 2),
      (["P2"], FsEntry.dirE), (["P2", "1_EDIT"], FsEntry.dirE),
      (["P2", "._c"], FsEntry.fileE 3)],
    inodes := [(1, { content := "a", mode := 0o644 }),
      (2, { content := "b", mode := 0o644 }),
      (3, { content := "c", mode := 0o644 })] }

theorem find_projects_fsC2_P1 : find_projects fsC2 ["P1"] = [["P1"]] := by
  rw [find_projects]
  rw [if_pos (by decide)]

theorem find_projects_fsC2_P2 : find_projects fsC2 ["P2"] = [["P2"]] := by
  rw [find_projects]
  rw [if_pos (by decide)]

theorem find_projects_fsC2 : find_projects fsC2 [] = [["P1"], ["P2"]] := by
  rw [find_projects]
  rw [if_neg (by decide)]
  rw [flatMap_attach_eq (subdirsOf fsC2 []) (fun n => find_projects fsC2 ([] ++ [n]))]
  rw [show subdirsOf fsC2 [] = ["P1", "P2"] from rfl]
  rw [List.flatMap_cons, List.flatMap_cons, List.flatMap_nil]
  rw [show (([] : Path) ++ ["P1"] : Path) = ["P1"] from rfl,
    show (([] : Path) ++ ["P2"] : Path) = ["P2"] from rfl]
  rw [find_projects_fsC2_P1, find_projects_fsC2_P2]
  rfl

/-- C2 counterexample: with `._a` undeletable, the run raises — the
sweep stops, `._b` in the same project survives, the second project's
`._c` survives, and the whole run aborts.  The claim's "does not abort
processing of the remaining entries, the remaining projects, or the
whole run" is false of the code, which has no exception handler. -/
theorem deletion_failure_aborts_run_cex :
    (cleanup_photo_libraryE [["P1", "._a"]] [] true true false true false fsC2).2.2 = true ∧
      lookupEntry (cleanup_photo_libraryE [["P1", "._a"]] [] true true false true false fsC2).1
          ["P1", "._b"] = some (FsEntry.fileE 2) ∧
      lookupEntry (cleanup_photo_libraryE [["P1", "._a"]] [] true true false true false fsC2).1
          ["P2", "._c"] = some (FsEntry.fileE 3) := by
  have hlib : cleanup_photo_libraryE [["P1", "._a"]] [] true true false true false fsC2 =
      projectsGoE [["P1", "._a"]] true true false true false (find_projects fsC2 []) fsC2 [] :=
    rfl
  rw [hlib, find_projects_fsC2]
  decide

theorem deletion_failure_aborts_run_witness :
    find_projects fsC2 [] = ["P1"] :: [["P2"]] ∧
      (glob_dot_files ["P1"] fsC2).any (fun f => [["P1", "._a"]].contains f) = true ∧
      ((cleanup_photo_libraryE [["P1", "._a"]] [] true true false true false fsC2).2.2 = true ∧
        ∀ e ∈ fsC2.entries, ¬ (["P1"] <+: e.1) →
          e ∈ (cleanup_photo_libraryE [["P1", "._a"]] [] true true false true false fsC2).1.entries) :=
  ⟨find_projects_fsC2, by decide,
    deletion_failure_aborts_run [["P1", "._a"]] [] fsC2 true true ["P1"] [["P2"]]
      find_projects_fsC2 (by decide)⟩

/-!  ### C6: idempotence of the per-project pipeline  -/

/-- Propositional form of `wfInodesB`: every file entry's inode is in
the table. -/
def WfInodes (fs : FS) : Prop :=
  ∀ (q : Path) (i : Nat), (q, FsEntry.fileE i) ∈ fs.entries →
    (inodeData fs i).isSome = true

/-- Propositional form of `xmpIsoB`: no root sidecar shares its inode
with any other file entry. -/
def XmpIso (pp : Path) (fs : FS) : Prop :=
  ∀ (n : String) (i : Nat), (pp ++ [n], FsEntry.fileE i) ∈ fs.entries →
    splitextLower n = ".xmp" →
    ∀ (q : Path) (j : Nat), (q, FsEntry.fileE j) ∈ fs.entries →
      q ≠ pp ++ [n] → j ≠ i

/-- Every entry directly under the raw subdirectory is a regular file
(`get_file_md5_hash` — Python's `open` — would raise on a
directory). -/
def RawChildrenFiles (pp : Path) (fs : FS) : Prop :=
  ∀ (m : String) (e : FsEntry), (pp ++ [PROJECT_RAW_SUBDIR, m], e) ∈ fs.entries →
    ∃ i, e = FsEntry.fileE i

/-- No root sidecar file is eligible for deduplication: its same-named
raw candidate is missing, or the digests differ. -/
def XmpNoDedup (pp : Path) (fs : FS) : Prop :=
  ∀ (n : String) (i : Nat), (pp ++ [n], FsEntry.fileE i) ∈ fs.entries →
    splitextLower n = ".xmp" →
    path_exists fs (pp ++ [PROJECT_RAW_SUBDIR, n]) = false ∨
      get_file_md5_hash fs (pp ++ [n]) ≠ get_file_md5_hash fs (pp ++ [PROJECT_RAW_SUBDIR, n])

/-- Decidable form of `RawChildrenFiles`. -/
def rawChildrenFilesB (pp : Path) (fs : FS) : Bool :=
  fs.entries.all (fun e =>
    if (e.1.take (pp.length + 1) == pp ++ [PROJECT_RAW_SUBDIR]) &&
        (e.1.length == pp.length + 2) then
      match e.2 with
      | FsEntry.fileE _ => true
      | FsEntry.dirE => false
    else true)

theorem rawChildrenFilesB_spec {pp : Path} {fs : FS} (h : rawChildrenFilesB pp fs = true) :
    RawChildrenFiles pp fs := by
  intro m e hmem
  unfold rawChildrenFilesB at h
  rw [List.all_eq_true] at h
  have h1 := h _ hmem
  have hassoc : pp ++ [PROJECT_RAW_SUBDIR, m] = (pp ++ [PROJECT_RAW_SUBDIR]) ++ [m] := by simp
  have htake : (pp ++ [PROJECT_RAW_SUBDIR, m]).take (pp.length + 1) =
      pp ++ [PROJECT_RAW_SUBDIR] := by
    rw [hassoc]
    rw [show pp.length + 1 = (pp ++ [PROJECT_RAW_SUBDIR]).length by simp]
    exact List.take_left _ _
  have hlen : (pp ++ [PROJECT_RAW_SUBDIR, m]).length = pp.length + 2 := by simp
  rw [if_pos (by rw [htake, hlen]; simp)] at h1
  cases e with
  | fileE i => exact ⟨i, rfl⟩
  | dirE => cases h1

/-- Decidable form of `XmpNoDedup`. -/
def xmpNoDedupB (pp : Path) (fs : FS) : Bool :=
  fs.entries.all (fun e =>
    match e.2 with
    | FsEntry.fileE _ =>
        !(isRootXmp pp e.1) ||
          (!(path_exists fs (pp ++ [PROJECT_RAW_SUBDIR, e.1.getLastD ""])) ||
            !(get_file_md5_hash fs e.1 ==
              get_file_md5_hash fs (pp ++ [PROJECT_RAW_SUBDIR, e.1.getLastD ""])))
    | FsEntry.dirE => true)

theorem xmpNoDedupB_spec {pp : Path} {fs : FS} (h : xmpNoDedupB pp fs = true) :
    XmpNoDedup pp fs := by
  intro n i hmem hx
  unfold xmpNoDedupB at h
  rw [List.all_eq_true] at h
  have h1 := h _ hmem
  simp only [isRootXmp_true hx, Bool.not_true, Bool.false_or] at h1
  have hlast : (pp ++ [n]).getLastD "" = n := by simp
  rw [hlast, Bool.or_eq_true] at h1
  rcases h1 with hc | hc
  · left
    rwa [Bool.not_eq_true'] at hc
  · right
    rw [Bool.not_eq_true', beq_eq_false_iff_ne] at hc
    exact hc

theorem wfInodesB_Wf {fs : FS} (h : wfInodesB fs = true) : WfInodes fs :=
  wfInodesB_spec h

theorem xmpIsoB_Iso {pp : Path} {fs : FS} (h : xmpIsoB pp fs = true) : XmpIso pp fs :=
  xmpIsoB_spec h

theorem WfInodes_of_subset {fs fs' : FS}
    (he : ∀ x ∈ fs'.entries, x ∈ fs.entries) (hi : fs'.inodes = fs.inodes)
    (h : WfInodes fs) : WfInodes fs' := by
  intro q i hmem
  have hsome := h q i (he _ hmem)
  unfold inodeData at hsome ⊢
  rw [hi]
  exact hsome

theorem XmpIso_of_subset {pp : Path} {fs fs' : FS}
    (he : ∀ x ∈ fs'.entries, x ∈ fs.entries) (h : XmpIso pp fs) : XmpIso pp fs' :=
  fun n i hmem hx q j hmem2 hne => h n i (he _ hmem) hx q j (he _ hmem2) hne

theorem RawChildrenFiles_of_subset {pp : Path} {fs fs' : FS}
    (he : ∀ x ∈ fs'.entries, x ∈ fs.entries) (h : RawChildrenFiles pp fs) :
    RawChildrenFiles pp fs' :=
  fun m e hmem => h m e (he _ hmem)

theorem remove_dot_files_entries_sublist (pp : Path) (fs : FS) :
    (remove_dot_files pp false fs).1.entries.Sublist fs.entries := by
  unfold remove_dot_files
  rw [removeDotGo_entries]
  exact List.filter_sublist _

theorem removeEditGo_entries_sublist (edit : Path) :
    ∀ (children : List (String × FsEntry)) (fs : FS) (evs : List Event),
      (removeEditGo false edit children fs evs).1.entries.Sublist fs.entries := by
  intro children
  induction children with
  | nil => intro fs evs; exact List.Sublist.refl _
  | cons c rest ih =>
    obtain ⟨n, e⟩ := c
    intro fs evs
    cases e with
    | fileE i =>
      rw [removeEditGo]
      simp only [Bool.false_eq_true, if_false]
      exact (ih _ _).trans (List.filter_sublist _)
    | dirE =>
      rw [removeEditGo]
      simp only [Bool.false_eq_true, if_false]
      exact (ih _ _).trans (List.filter_sublist _)

theorem remove_edit_files_entries_sublist (pp : Path) (fs : FS) :
    (remove_edit_files pp false fs).1.entries.Sublist fs.entries := by
  show (if isdir fs (pp ++ [PROJECT_EDIT_SUBDIR]) then
      removeEditGo false (pp ++ [PROJECT_EDIT_SUBDIR])
        (scandir fs (pp ++ [PROJECT_EDIT_SUBDIR])) fs []
    else (fs, [])).1.entries.Sublist fs.entries
  by_cases h : isdir fs (pp ++ [PROJECT_EDIT_SUBDIR]) = true
  · rw [if_pos h]
    exact removeEditGo_entries_sublist _ _ fs []
  · rw [if_neg h]

theorem removeDotGo_inodes : ∀ (ms : List Path) (fs : FS) (evs : List Event),
    (removeDotGo false ms fs evs).1.inodes = fs.inodes := by
  intro ms
  induction ms with
  | nil => intro fs evs; rfl
  | cons m rest ih =>
    intro fs evs
    rw [removeDotGo]
    simp only [Bool.false_eq_true, if_false]
    rw [ih]
    rfl

theorem remove_dot_files_inodes (pp : Path) (fs : FS) :
    (remove_dot_files pp false fs).1.inodes = fs.inodes := by
  unfold remove_dot_files
  exact removeDotGo_inodes _ fs []

theorem removeEditGo_inodes (edit : Path) :
    ∀ (children : List (String × FsEntry)) (fs : FS) (evs : List Event),
      (removeEditGo false edit children fs evs).1.inodes = fs.inodes := by
  intro children
  induction children with
  | nil => intro fs evs; rfl
  | cons c rest ih =>
    obtain ⟨n, e⟩ := c
    intro fs evs
    cases e with
    | fileE i =>
      rw [removeEditGo]
      simp only [Bool.false_eq_true, if_false]
      rw [ih]
      rfl
    | dirE =>
      rw [removeEditGo]
      simp only [Bool.false_eq_true, if_false]
      rw [ih]
      rfl

theorem remove_edit_files_inodes (pp : Path) (fs : FS) :
    (remove_edit_files pp false fs).1.inodes = fs.inodes := by
  show (if isdir fs (pp ++ [PROJECT_EDIT_SUBDIR]) then
      removeEditGo false (pp ++ [PROJECT_EDIT_SUBDIR])
        (scandir fs (pp ++ [PROJECT_EDIT_SUBDIR])) fs []
    else (fs, [])).1.inodes = fs.inodes
  by_cases h : isdir fs (pp ++ [PROJECT_EDIT_SUBDIR]) = true
  · rw [if_pos h]
    exact removeEditGo_inodes _ _ fs []
  · rw [if_neg h]

theorem opPaths_append (evs1 evs2 : List Event) :
    opPaths (evs1 ++ evs2) = opPaths evs1 ++ opPaths evs2 := by
  unfold opPaths
  exact List.filterMap_append _ _ _

theorem reportedPaths_append (evs1 evs2 : List Event) :
    reportedPaths (evs1 ++ evs2) = reportedPaths evs1 ++ reportedPaths evs2 := by
  unfold reportedPaths
  exact List.filterMap_append _ _ _

theorem glob_dot_files_eq_nil {pp : Path} {fs : FS}
    (h : ∀ e ∈ fs.entries, dotGlobMatch pp e.1 = false) :
    glob_dot_files pp fs = [] := by
  unfold glob_dot_files
  have hf : fs.entries.filter (fun e => dotGlobMatch pp e.1) = [] := by
    rw [List.filter_eq_nil_iff]
    intro a ha
    rw [h a ha]
    exact Bool.false_ne_true
  rw [hf]
  rfl

theorem remove_dot_files_noop {pp : Path} {fs : FS} (dry : Bool)
    (h : glob_dot_files pp fs = []) : remove_dot_files pp dry fs = (fs, []) := by
  unfold remove_dot_files
  rw [h]
  rfl

theorem remove_edit_files_noop_of_not_isdir {pp : Path} {fs : FS} (dry : Bool)
    (h : isdir fs (pp ++ [PROJECT_EDIT_SUBDIR]) = false) :
    remove_edit_files pp dry fs = (fs, []) := by
  show (if isdir fs (pp ++ [PROJECT_EDIT_SUBDIR]) then
      removeEditGo dry (pp ++ [PROJECT_EDIT_SUBDIR])
        (scandir fs (pp ++ [PROJECT_EDIT_SUBDIR])) fs []
    else (fs, [])) = (fs, [])
  rw [if_neg (by rw [h]; exact Bool.false_ne_true)]

theorem remove_edit_files_noop_of_scandir_nil {pp : Path} {fs : FS} (dry : Bool)
    (h : scandir fs (pp ++ [PROJECT_EDIT_SUBDIR]) = []) :
    remove_edit_files pp dry fs = (fs, []) := by
  show (if isdir fs (pp ++ [PROJECT_EDIT_SUBDIR]) then
      removeEditGo dry (pp ++ [PROJECT_EDIT_SUBDIR])
        (scandir fs (pp ++ [PROJECT_EDIT_SUBDIR])) fs []
    else (fs, [])) = (fs, [])
  by_cases hd : isdir fs (pp ++ [PROJECT_EDIT_SUBDIR]) = true
  · rw [if_pos hd, h]
    rfl
  · rw [if_neg hd]

theorem set_file_readonly_noop {p : Path} {fs : FS} (dry : Bool)
    (h : st_mode fs p &&& 0o333 = 0) : set_file_readonly p dry fs = (fs, []) := by
  unfold set_file_readonly
  rw [if_neg (fun hc => hc h)]

theorem set_file_readwrite_noop {p : Path} {fs : FS} (dry : Bool)
    (h1 : st_mode fs p &&& 0o111 = 0) (h2 : st_mode fs p &&& 0o666 = 0o666) :
    set_file_readwrite p dry fs = (fs, []) := by
  unfold set_file_readwrite
  rw [if_neg (by rintro (hc | hc); exacts [hc h1, hc h2])]

theorem rawsGo_noop (raw_dir : Path) (dry : Bool) :
    ∀ (names : List String) (fs : FS) (evs : List Event),
      (∀ n ∈ names, st_mode fs (raw_dir ++ [n]) &&& 0o333 = 0) →
      rawsGo raw_dir dry names fs evs = (fs, evs) := by
  intro names
  induction names with
  | nil => intro fs evs _; rfl
  | cons n rest ih =>
    intro fs evs h
    rw [rawsGo]
    rw [set_file_readonly_noop dry (h n (List.mem_cons_self n rest))]
    show rawsGo raw_dir dry rest fs (evs ++ []) = (fs, evs)
    rw [List.append_nil]
    exact ih fs evs (fun m hm => h m (List.mem_cons_of_mem n hm))

theorem rootGo_noop (pp : Path) (hl : Bool) (rps : List Path) (dry : Bool) :
    ∀ (names : List String) (fs : FS) (evs : List Event),
      (∀ n ∈ names,
        (splitextLower n = ".xmp" →
          st_mode fs (pp ++ [n]) &&& 0o111 = 0 ∧
            st_mode fs (pp ++ [n]) &&& 0o666 = 0o666) ∧
        (splitextLower n ≠ ".xmp" → st_mode fs (pp ++ [n]) &&& 0o333 = 0)) →
      rootGo pp hl rps dry names fs evs = (fs, evs) := by
  intro names
  induction names with
  | nil => intro fs evs _; rfl
  | cons n rest ih =>
    intro fs evs h
    rw [rootGo]
    by_cases hskip : (hl && rps.contains (pp ++ [n])) = true
    · rw [if_pos hskip]
      exact ih fs evs (fun m hm => h m (List.mem_cons_of_mem n hm))
    · rw [if_neg hskip]
      by_cases hx : (splitextLower n == ".xmp") = true
      · rw [if_pos hx]
        obtain ⟨h1, h2⟩ := (h n (List.mem_cons_self n rest)).1 (beq_iff_eq.mp hx)
        rw [set_file_readwrite_noop dry h1 h2]
        show rootGo pp hl rps dry rest fs (evs ++ []) = (fs, evs)
        rw [List.append_nil]
        exact ih fs evs (fun m hm => h m (List.mem_cons_of_mem n hm))
      · rw [if_neg hx]
        have hne : splitextLower n ≠ ".xmp" := by
          rw [Bool.not_eq_true, beq_eq_false_iff_ne] at hx
          exact hx
        rw [set_file_readonly_noop dry ((h n (List.mem_cons_self n rest)).2 hne)]
        show rootGo pp hl rps dry rest fs (evs ++ []) = (fs, evs)
        rw [List.append_nil]
        exact ih fs evs (fun m hm => h m (List.mem_cons_of_mem n hm))

theorem set_files_permissions_noop (pp : Path) (hl : Bool) (fs : FS)
    (hraw : path_exists fs (pp ++ [PROJECT_RAW_SUBDIR]) = true →
      ∀ n ∈ raw_files pp fs,
      st_mode fs (pp ++ [PROJECT_RAW_SUBDIR] ++ [n]) &&& 0o333 = 0)
    (hroot : ∀ n ∈ project_root_files pp fs,
      (splitextLower n = ".xmp" →
        st_mode fs (pp ++ [n]) &&& 0o111 = 0 ∧ st_mode fs (pp ++ [n]) &&& 0o666 = 0o666) ∧
      (splitextLower n ≠ ".xmp" → st_mode fs (pp ++ [n]) &&& 0o333 = 0)) :
    set_files_permissions pp hl false fs = (fs, []) := by
  have hrp : rawPass pp false fs = (fs, []) := by
    unfold rawPass
    by_cases h : path_exists fs (pp ++ [PROJECT_RAW_SUBDIR]) = true
    · rw [if_pos h]
      exact rawsGo_noop _ false _ fs [] (hraw h)
    · rw [if_neg h]
  unfold set_files_permissions
  rw [hrp]
  show rootGo pp hl (rps_of pp fs) false (project_root_files pp fs) fs [] = (fs, [])
  exact rootGo_noop pp hl _ false _ fs [] hroot

theorem hardlinkGo_noop (pp : Path) :
    ∀ (names : List String) (fs : FS) (evs : List Event),
      (∀ n ∈ names,
        (path_exists fs (pp ++ [PROJECT_RAW_SUBDIR, n]) &&
          !(samefile fs (pp ++ [n]) (pp ++ [PROJECT_RAW_SUBDIR, n]))) = false ∨
        get_file_md5_hash fs (pp ++ [n]) ≠
          get_file_md5_hash fs (pp ++ [PROJECT_RAW_SUBDIR, n])) →
      (hardlinkGo pp false names fs evs).1 = fs ∧
        opPaths (hardlinkGo pp false names fs evs).2 = opPaths evs := by
  intro names
  induction names with
  | nil => intro fs evs _; exact ⟨rfl, rfl⟩
  | cons n rest ih =>
    intro fs evs h
    rw [hardlinkGo]
    by_cases hc : (path_exists fs (pp ++ [PROJECT_RAW_SUBDIR, n]) &&
        !(samefile fs (pp ++ [n]) (pp ++ [PROJECT_RAW_SUBDIR, n]))) = true
    · rw [if_pos hc]
      have hmd : get_file_md5_hash fs (pp ++ [n]) ≠
          get_file_md5_hash fs (pp ++ [PROJECT_RAW_SUBDIR, n]) := by
        rcases h n (List.mem_cons_self n rest) with hc' | hmd
        · rw [hc] at hc'
          cases hc'
        · exact hmd
      rw [if_neg (by rw [beq_eq_false_iff_ne.mpr hmd]; exact Bool.false_ne_true)]
      obtain ⟨h1, h2⟩ := ih fs (evs ++ [Event.printWarn (pp ++ [n])
          (get_file_md5_hash fs (pp ++ [n]))
          (get_file_md5_hash fs (pp ++ [PROJECT_RAW_SUBDIR, n]))])
        (fun m hm => h m (List.mem_cons_of_mem n hm))
      refine ⟨h1, ?_⟩
      rw [h2, opPaths_append]
      show opPaths evs ++ [] = opPaths evs
      rw [List.append_nil]
    · rw [if_neg hc]
      exact ih fs evs (fun m hm => h m (List.mem_cons_of_mem n hm))

theorem hardlink_select_files_noop (pp : Path) (fs : FS)
    (h : isdir fs (pp ++ [PROJECT_RAW_SUBDIR]) = true →
      ∀ n ∈ select_files pp fs,
        (path_exists fs (pp ++ [PROJECT_RAW_SUBDIR, n]) &&
          !(samefile fs (pp ++ [n]) (pp ++ [PROJECT_RAW_SUBDIR, n]))) = false ∨
        get_file_md5_hash fs (pp ++ [n]) ≠
          get_file_md5_hash fs (pp ++ [PROJECT_RAW_SUBDIR, n])) :
    (hardlink_select_files pp false fs).1 = fs ∧
      opPaths (hardlink_select_files pp false fs).2 = [] := by
  unfold hardlink_select_files
  by_cases hd : isdir fs (pp ++ [PROJECT_RAW_SUBDIR]) = true
  · rw [if_pos hd]
    have hgo := hardlinkGo_noop pp (select_files pp fs) fs [] (h hd)
    exact ⟨hgo.1, by rw [hgo.2]; rfl⟩
  · rw [if_neg hd]
    exact ⟨rfl, rfl⟩

/-- If each of the four stages, run on `fs` under its flag, leaves the
state unchanged and performs no operation, then the whole per-project
pipeline does. -/
theorem cleanup_project_noop_of (pp : Path) (rd re hl fp : Bool) (fs : FS)
    (h1 : rd = true → remove_dot_files pp false fs = (fs, []))
    (h2 : re = true → remove_edit_files pp false fs = (fs, []))
    (h3 : hl = true → (hardlink_select_files pp false fs).1 = fs ∧
      opPaths (hardlink_select_files pp false fs).2 = [])
    (h4 : fp = true → set_files_permissions pp hl false fs = (fs, [])) :
    (cleanup_project pp rd re hl fp false fs).1 = fs ∧
      opPaths (cleanup_project pp rd re hl fp false fs).2 = [] := by
  have hs1 : (if rd then remove_dot_files pp false fs else (fs, [])) = (fs, []) := by
    cases rd
    · rfl
    · exact h1 rfl
  have hs2 : (if re then remove_edit_files pp false fs else (fs, [])) = (fs, []) := by
    cases re
    · rfl
    · exact h2 rfl
  have hs3a : (if hl then hardlink_select_files pp false fs else (fs, [])).1 = fs := by
    cases hl
    · rfl
    · exact (h3 rfl).1
  have hs3b : opPaths (if hl then hardlink_select_files pp false fs else (fs, [])).2 = [] := by
    cases hl
    · rfl
    · exact (h3 rfl).2
  have hs4 : (if fp then set_files_permissions pp hl false fs else (fs, [])) = (fs, []) := by
    cases fp
    · rfl
    · exact h4 rfl
  unfold cleanup_project
  dsimp only
  rw [hs1]
  dsimp only
  rw [hs2]
  dsimp only
  constructor
  · rw [hs3a, hs4]
  · rw [hs3a, hs4]
    dsimp only
    rw [List.append_nil, opPaths_append]
    show [] ++ (opPaths [] ++ opPaths (if hl then hardlink_select_files pp false fs
      else (fs, [])).2) = []
    rw [hs3b]
    rfl

theorem lookupEntry_os_unlink_self (fs : FS) (p : Path) :
    lookupEntry (os_unlink fs p) p = none := by
  have hf : (fs.entries.filter (fun e => !(e.1 == p))).find? (fun e => e.1 == p) = none := by
    rw [List.find?_eq_none]
    intro x hx
    have h2 := (List.mem_filter.mp hx).2
    rw [Bool.not_eq_true'] at h2
    rw [h2]
    exact Bool.false_ne_true
  show ((fs.entries.filter (fun e => !(e.1 == p))).find? (fun e => e.1 == p)).map (·.2) = none
  rw [hf]
  rfl

theorem find?_append_none {α : Type _} {l1 : List α} {p : α → Bool}
    (h : l1.find? p = none) (l2 : List α) : (l1 ++ l2).find? p = l2.find? p := by
  induction l1 with
  | nil => rfl
  | cons a t ih =>
    by_cases hp : p a = true
    · rw [List.find?_cons_of_pos _ hp] at h
      cases h
    · rw [List.find?_cons_of_neg _ hp] at h
      rw [List.cons_append, List.find?_cons_of_neg _ hp]
      exact ih h

theorem lookupEntry_os_link_self {fs : FS} {src dst : Path}
    (h : lookupEntry fs dst = none) :
    lookupEntry (os_link fs src dst) dst =
      some (FsEntry.fileE ((inoOf fs src).getD 0)) := by
  have hfind : fs.entries.find? (fun e => e.1 == dst) = none := by
    unfold lookupEntry at h
    cases hf : fs.entries.find? (fun e => e.1 == dst) with
    | none => rfl
    | some e => rw [hf] at h; cases h
  show ((fs.entries ++ [(dst, FsEntry.fileE ((inoOf fs src).getD 0))]).find?
    (fun e => e.1 == dst)).map (·.2) = some (FsEntry.fileE ((inoOf fs src).getD 0))
  rw [find?_append_none hfind]
  rw [List.find?_cons_of_pos _ (by simp)]
  rfl

theorem lookup_mem_entry {fs : FS} {q : Path} {e : FsEntry}
    (h : lookupEntry fs q = some e) : (q, e) ∈ fs.entries := by
  unfold lookupEntry at h
  cases hf : fs.entries.find? (fun x => x.1 == q) with
  | none => rw [hf] at h; cases h
  | some x =>
    rw [hf] at h
    have hq := List.find?_some hf
    simp only [beq_iff_eq] at hq
    have hmem := List.mem_of_find?_eq_some hf
    have hx : x = (q, e) := by
      obtain ⟨a, b⟩ := x
      have ha : a = q := hq
      have hb : b = e := Option.some.inj h
      rw [ha, hb]
    rw [← hx]
    exact hmem

theorem nodup_unlink_link (fs : FS) (sel raw : Path)
    (hnd : (fs.entries.map Prod.fst).Nodup) :
    ((os_link (os_unlink fs sel) raw sel).entries.map Prod.fst).Nodup := by
  show ((fs.entries.filter (fun x => !(x.1 == sel)) ++
      [(sel, FsEntry.fileE ((inoOf (os_unlink fs sel) raw).getD 0))]).map Prod.fst).Nodup
  rw [List.map_append, List.nodup_append]
  refine ⟨List.Nodup.sublist (List.Sublist.map _ (List.filter_sublist _)) hnd, by simp, ?_⟩
  intro a ha hb
  simp only [List.map_cons, List.map_nil, List.mem_singleton] at hb
  subst hb
  rw [List.mem_map] at ha
  obtain ⟨x, hx, hxa⟩ := ha
  have h2 := (List.mem_filter.mp hx).2
  rw [Bool.not_eq_true', beq_eq_false_iff_ne] at h2
  exact h2 hxa

theorem hardlinkGo_nodup (pp : Path) :
    ∀ (names : List String) (fs : FS) (evs : List Event),
      (fs.entries.map Prod.fst).Nodup →
      ((hardlinkGo pp false names fs evs).1.entries.map Prod.fst).Nodup := by
  intro names
  induction names with
  | nil => intro fs evs h; exact h
  | cons m rest ih =>
    intro fs evs hnd
    rw [hardlinkGo]
    by_cases hc : (path_exists fs (pp ++ [PROJECT_RAW_SUBDIR, m]) &&
        !(samefile fs (pp ++ [m]) (pp ++ [PROJECT_RAW_SUBDIR, m]))) = true
    · rw [if_pos hc]
      by_cases hmd : (get_file_md5_hash fs (pp ++ [m]) ==
          get_file_md5_hash fs (pp ++ [PROJECT_RAW_SUBDIR, m])) = true
      · rw [if_pos hmd]
        simp only [Bool.false_eq_true, if_false]
        exact ih _ _ (nodup_unlink_link fs (pp ++ [m]) (pp ++ [PROJECT_RAW_SUBDIR, m]) hnd)
      · rw [if_neg hmd]
        exact ih _ _ hnd
    · rw [if_neg hc]
      exact ih _ _ hnd

theorem hardlinkGo_lookup_root_not_mem (pp : Path) (dry : Bool) :
    ∀ (names : List String) (fs : FS) (evs : List Event) (n : String),
      n ∉ names →
      lookupEntry (hardlinkGo pp dry names fs evs).1 (pp ++ [n]) =
        lookupEntry fs (pp ++ [n]) := by
  intro names
  induction names with
  | nil => intro fs evs n _; rfl
  | cons m rest ih =>
    intro fs evs n hnm
    have hm : n ≠ m := fun hc => hnm (by rw [hc]; exact List.mem_cons_self m rest)
    have hrest : n ∉ rest := fun hc => hnm (List.mem_cons_of_mem m hc)
    rw [hardlinkGo]
    by_cases hc : (path_exists fs (pp ++ [PROJECT_RAW_SUBDIR, m]) &&
        !(samefile fs (pp ++ [m]) (pp ++ [PROJECT_RAW_SUBDIR, m]))) = true
    · rw [if_pos hc]
      by_cases hmd : (get_file_md5_hash fs (pp ++ [m]) ==
          get_file_md5_hash fs (pp ++ [PROJECT_RAW_SUBDIR, m])) = true
      · rw [if_pos hmd]
        cases dry with
        | true =>
          simp only [if_true]
          exact ih fs _ n hrest
        | false =>
          simp only [Bool.false_eq_true, if_false]
          rw [ih _ _ n hrest]
          exact hardlink_step_lookup fs pp m _ (append_singleton_ne_of_ne hm)
      · rw [if_neg hmd]
        exact ih fs _ n hrest
    · rw [if_neg hc]
      exact ih fs evs n hrest

theorem hardlinkGo_entries_shape (pp : Path) :
    ∀ (names : List String) (fs : FS) (evs : List Event) (x : Path × FsEntry),
      x ∈ (hardlinkGo pp false names fs evs).1.entries →
      x ∈ fs.entries ∨ ∃ n i, n ∈ names ∧ x = (pp ++ [n], FsEntry.fileE i) := by
  intro names
  induction names with
  | nil => intro fs evs x h; exact Or.inl h
  | cons m rest ih =>
    intro fs evs x h
    rw [hardlinkGo] at h
    by_cases hc : (path_exists fs (pp ++ [PROJECT_RAW_SUBDIR, m]) &&
        !(samefile fs (pp ++ [m]) (pp ++ [PROJECT_RAW_SUBDIR, m]))) = true
    · rw [if_pos hc] at h
      by_cases hmd : (get_file_md5_hash fs (pp ++ [m]) ==
          get_file_md5_hash fs (pp ++ [PROJECT_RAW_SUBDIR, m])) = true
      · rw [if_pos hmd] at h
        simp only [Bool.false_eq_true, if_false] at h
        rcases ih _ _ x h with hin | ⟨n, i, hn, hx⟩
        · have hin' : x ∈ fs.entries.filter (fun e => !(e.1 == pp ++ [m])) ++
              [(pp ++ [m], FsEntry.fileE
                ((inoOf (os_unlink fs (pp ++ [m])) (pp ++ [PROJECT_RAW_SUBDIR, m])).getD 0))] :=
            hin
          rcases List.mem_append.mp hin' with hl | hr
          · exact Or.inl (List.mem_filter.mp hl).1
          · simp only [List.mem_singleton] at hr
            exact Or.inr ⟨m, _, List.mem_cons_self m rest, hr⟩
        · exact Or.inr ⟨n, i, List.mem_cons_of_mem m hn, hx⟩
      · rw [if_neg hmd] at h
        rcases ih _ _ x h with hin | ⟨n, i, hn, hx⟩
        · exact Or.inl hin
        · exact Or.inr ⟨n, i, List.mem_cons_of_mem m hn, hx⟩
    · rw [if_neg hc] at h
      rcases ih _ _ x h with hin | ⟨n, i, hn, hx⟩
      · exact Or.inl hin
      · exact Or.inr ⟨n, i, List.mem_cons_of_mem m hn, hx⟩

theorem mem_select_files_iff {pp : Path} {fs : FS} {n : String} :
    n ∈ select_files pp fs ↔
      (∃ i, (pp ++ [n], FsEntry.fileE i) ∈ fs.entries) ∧
        strStartsWith n "." = false := by
  constructor
  · intro h
    unfold select_files at h
    rw [List.mem_filterMap] at h
    obtain ⟨⟨m, e⟩, hm, hmap⟩ := h
    cases e with
    | dirE => cases hmap
    | fileE i =>
      have hmap2 : (if strStartsWith m "." then none else some m) = some n := hmap
      cases hsw : strStartsWith m "." with
      | true => rw [if_pos hsw] at hmap2; cases hmap2
      | false =>
        rw [if_neg (by rw [hsw]; exact Bool.false_ne_true)] at hmap2
        cases hmap2
        exact ⟨⟨i, mem_scandir_entry hm⟩, hsw⟩
  · rintro ⟨⟨i, hmem⟩, hh⟩
    unfold select_files
    rw [List.mem_filterMap]
    refine ⟨(n, FsEntry.fileE i), scandir_mem_of_entry hmem, ?_⟩
    show (if strStartsWith n "." then none else some n) = some n
    rw [if_neg (by rw [hh]; exact Bool.false_ne_true)]

theorem hardlinkGo_select_mem (pp : Path) :
    ∀ (names : List String) (fs : FS) (evs : List Event) (n : String),
      n ∈ select_files pp (hardlinkGo pp false names fs evs).1 →
      n ∈ select_files pp fs ∨ n ∈ names := by
  intro names
  induction names with
  | nil => intro fs evs n h; exact Or.inl h
  | cons m rest ih =>
    intro fs evs n h
    rw [hardlinkGo] at h
    by_cases hc : (path_exists fs (pp ++ [PROJECT_RAW_SUBDIR, m]) &&
        !(samefile fs (pp ++ [m]) (pp ++ [PROJECT_RAW_SUBDIR, m]))) = true
    · rw [if_pos hc] at h
      by_cases hmd : (get_file_md5_hash fs (pp ++ [m]) ==
          get_file_md5_hash fs (pp ++ [PROJECT_RAW_SUBDIR, m])) = true
      · rw [if_pos hmd] at h
        simp only [Bool.false_eq_true, if_false] at h
        rcases ih _ _ n h with hsel | hr
        · rw [mem_select_files_iff] at hsel
          obtain ⟨⟨i, hmem⟩, hh⟩ := hsel
          have hmem' : (pp ++ [n], FsEntry.fileE i) ∈
              fs.entries.filter (fun e => !(e.1 == pp ++ [m])) ++
              [(pp ++ [m], FsEntry.fileE
                ((inoOf (os_unlink fs (pp ++ [m])) (pp ++ [PROJECT_RAW_SUBDIR, m])).getD 0))] :=
            hmem
          rcases List.mem_append.mp hmem' with hl | hr2
          · exact Or.inl (mem_select_files_iff.mpr ⟨⟨i, (List.mem_filter.mp hl).1⟩, hh⟩)
          · simp only [List.mem_singleton, Prod.mk.injEq] at hr2
            have hnm : n = m := by
              have := List.append_cancel_left hr2.1
              simp only [List.cons.injEq, and_true] at this
              exact this
            rw [hnm]
            exact Or.inr (List.mem_cons_self m rest)
        · exact Or.inr (List.mem_cons_of_mem m hr)
      · rw [if_neg hmd] at h
        rcases ih _ _ n h with hsel | hr
        · exact Or.inl hsel
        · exact Or.inr (List.mem_cons_of_mem m hr)
    · rw [if_neg hc] at h
      rcases ih _ _ n h with hsel | hr
      · exact Or.inl hsel
      · exact Or.inr (List.mem_cons_of_mem m hr)

theorem nodup_filterMap_path (pp : Path) {l : List (Path × FsEntry)}
    {h : Path × FsEntry → Option String}
    (hinj : ∀ e n, h e = some n → e.1 = pp ++ [n])
    (hnd : (l.map Prod.fst).Nodup) : (l.filterMap h).Nodup := by
  induction l with
  | nil => exact List.nodup_nil
  | cons a t ih =>
    rw [List.map_cons, List.nodup_cons] at hnd
    cases ha : h a with
    | none =>
      rw [List.filterMap_cons_none ha]
      exact ih hnd.2
    | some n =>
      rw [List.filterMap_cons_some ha]
      rw [List.nodup_cons]
      refine ⟨?_, ih hnd.2⟩
      intro hc
      rw [List.mem_filterMap] at hc
      obtain ⟨b, hb, hbn⟩ := hc
      have hb1 := hinj b n hbn
      have ha1 := hinj a n ha
      apply hnd.1
      rw [ha1, ← hb1]
      exact List.mem_map.mpr ⟨b, hb, rfl⟩

theorem select_files_nodup {pp : Path} {fs : FS}
    (hnd : (fs.entries.map Prod.fst).Nodup) : (select_files pp fs).Nodup := by
  have heq : select_files pp fs = fs.entries.filterMap (fun e =>
      (if e.1.take pp.length == pp then
        match e.1.drop pp.length with
        | [n] => some (n, e.2)
        | _ => none
      else none).bind (fun q =>
        match q with
        | (n, FsEntry.fileE _) => if strStartsWith n "." then none else some n
        | _ => none)) := by
    unfold select_files scandir
    rw [List.filterMap_filterMap]
  rw [heq]
  apply nodup_filterMap_path pp ?_ hnd
  intro e n h
  by_cases ht : (e.1.take pp.length == pp) = true
  · rw [if_pos ht] at h
    cases hd : e.1.drop pp.length with
    | nil =>
      rw [hd] at h
      cases h
    | cons a t =>
      cases t with
      | nil =>
        rw [hd] at h
        have h2 : (match (a, e.2) with
          | (n, FsEntry.fileE _) => if strStartsWith n "." then none else some n
          | _ => none) = some n := h
        cases he : e.2 with
        | dirE =>
          rw [he] at h2
          cases h2
        | fileE i =>
          rw [he] at h2
          have h3 : (if strStartsWith a "." then none else some a) = some n := h2
          cases hsw : strStartsWith a "." with
          | true =>
            rw [if_pos hsw] at h3
            cases h3
          | false =>
            rw [if_neg (by rw [hsw]; exact Bool.false_ne_true)] at h3
            cases h3
            conv_lhs => rw [← List.take_append_drop pp.length e.1]
            rw [hd, beq_iff_eq.mp ht]
      | cons b t2 =>
        rw [hd] at h
        cases h
  · rw [if_neg ht] at h
    cases h

theorem md5_congr {fs fs' : FS} {q : Path} (hl : lookupEntry fs' q = lookupEntry fs q)
    (hi : fs'.inodes = fs.inodes) : get_file_md5_hash fs' q = get_file_md5_hash fs q :=
  contentAt_congr hl hi

theorem raw_ino_of_guard {pp : Path} {fs : FS} {m : String}
    (hraw : RawChildrenFiles pp fs)
    (hex : path_exists fs (pp ++ [PROJECT_RAW_SUBDIR, m]) = true) :
    ∃ j, lookupEntry fs (pp ++ [PROJECT_RAW_SUBDIR, m]) = some (FsEntry.fileE j) := by
  unfold path_exists at hex
  cases hl : lookupEntry fs (pp ++ [PROJECT_RAW_SUBDIR, m]) with
  | none => rw [hl] at hex; cases hex
  | some e =>
    obtain ⟨j, hj⟩ := hraw m e (lookup_mem_entry hl)
    subst hj
    exact ⟨j, rfl⟩

theorem hardlink_step_samefile {pp : Path} {fs : FS} {m : String}
    (hraw : RawChildrenFiles pp fs)
    (hex : path_exists fs (pp ++ [PROJECT_RAW_SUBDIR, m]) = true) :
    samefile (os_link (os_unlink fs (pp ++ [m])) (pp ++ [PROJECT_RAW_SUBDIR, m]) (pp ++ [m]))
      (pp ++ [m]) (pp ++ [PROJECT_RAW_SUBDIR, m]) = true := by
  obtain ⟨j, hj⟩ := raw_ino_of_guard hraw hex
  have hraw_ne : (pp ++ [PROJECT_RAW_SUBDIR, m]) ≠ (pp ++ [m]) := raw_len_ne_sel
  have hun : lookupEntry (os_unlink fs (pp ++ [m])) (pp ++ [PROJECT_RAW_SUBDIR, m]) =
      some (FsEntry.fileE j) := by
    rw [lookupEntry_os_unlink_ne hraw_ne]
    exact hj
  have hlsel : lookupEntry (os_link (os_unlink fs (pp ++ [m]))
      (pp ++ [PROJECT_RAW_SUBDIR, m]) (pp ++ [m])) (pp ++ [m]) =
      some (FsEntry.fileE j) := by
    rw [lookupEntry_os_link_self (lookupEntry_os_unlink_self fs (pp ++ [m]))]
    unfold inoOf
    rw [hun]
    rfl
  have hlraw : lookupEntry (os_link (os_unlink fs (pp ++ [m]))
      (pp ++ [PROJECT_RAW_SUBDIR, m]) (pp ++ [m])) (pp ++ [PROJECT_RAW_SUBDIR, m]) =
      some (FsEntry.fileE j) := by
    rw [lookupEntry_os_link_ne hraw_ne]
    exact hun
  unfold samefile inoOf
  rw [hlsel, hlraw]
  simp

theorem hardlinkGo_invariants (pp : Path) :
    ∀ (names : List String) (fs : FS) (evs : List Event),
      names.Nodup →
      (fs.entries.map Prod.fst).Nodup →
      RawChildrenFiles pp fs →
      WfInodes fs →
      XmpIso pp fs →
      (∀ x ∈ names, splitextLower x = ".xmp" →
        path_exists fs (pp ++ [PROJECT_RAW_SUBDIR, x]) = false ∨
          get_file_md5_hash fs (pp ++ [x]) ≠
            get_file_md5_hash fs (pp ++ [PROJECT_RAW_SUBDIR, x])) →
      RawChildrenFiles pp (hardlinkGo pp false names fs evs).1 ∧
        WfInodes (hardlinkGo pp false names fs evs).1 ∧
        XmpIso pp (hardlinkGo pp false names fs evs).1 ∧
        (∀ n ∈ names,
          (path_exists (hardlinkGo pp false names fs evs).1 (pp ++ [PROJECT_RAW_SUBDIR, n]) &&
            !(samefile (hardlinkGo pp false names fs evs).1 (pp ++ [n])
              (pp ++ [PROJECT_RAW_SUBDIR, n]))) = false ∨
          get_file_md5_hash (hardlinkGo pp false names fs evs).1 (pp ++ [n]) ≠
            get_file_md5_hash (hardlinkGo pp false names fs evs).1
              (pp ++ [PROJECT_RAW_SUBDIR, n])) := by
  intro names
  induction names with
  | nil =>
    intro fs evs _ _ hraw hwf hiso _
    exact ⟨hraw, hwf, hiso, fun n hn => absurd hn (List.not_mem_nil n)⟩
  | cons m rest ih =>
    intro fs evs hnames hnd hraw hwf hiso hnoded
    rw [List.nodup_cons] at hnames
    have hnoded_rest : ∀ x ∈ rest, splitextLower x = ".xmp" →
        path_exists fs (pp ++ [PROJECT_RAW_SUBDIR, x]) = false ∨
          get_file_md5_hash fs (pp ++ [x]) ≠
            get_file_md5_hash fs (pp ++ [PROJECT_RAW_SUBDIR, x]) :=
      fun x hx => hnoded x (List.mem_cons_of_mem m hx)
    rw [hardlinkGo]
    by_cases hc : (path_exists fs (pp ++ [PROJECT_RAW_SUBDIR, m]) &&
        !(samefile fs (pp ++ [m]) (pp ++ [PROJECT_RAW_SUBDIR, m]))) = true
    · rw [if_pos hc]
      by_cases hmd : (get_file_md5_hash fs (pp ++ [m]) ==
          get_file_md5_hash fs (pp ++ [PROJECT_RAW_SUBDIR, m])) = true
      · rw [if_pos hmd]
        simp only [Bool.false_eq_true, if_false]
        have hex : path_exists fs (pp ++ [PROJECT_RAW_SUBDIR, m]) = true := by
          have hc2 := hc
          rw [Bool.and_eq_true] at hc2
          exact hc2.1
        obtain ⟨j, hj⟩ := raw_ino_of_guard hraw hex
        have hrawmem : (pp ++ [PROJECT_RAW_SUBDIR, m], FsEntry.fileE j) ∈ fs.entries :=
          lookup_mem_entry hj
        have hmxmp : splitextLower m ≠ ".xmp" := by
          intro hx
          rcases hnoded m (List.mem_cons_self m rest) hx with hne | hne
          · rw [hex] at hne
            cases hne
          · exact hne (beq_iff_eq.mp hmd)
        have hinoeq : inoOf (os_unlink fs (pp ++ [m])) (pp ++ [PROJECT_RAW_SUBDIR, m]) =
            some j := by
          unfold inoOf
          rw [lookupEntry_os_unlink_ne raw_len_ne_sel, hj]
        have hentries1 :
            (os_link (os_unlink fs (pp ++ [m])) (pp ++ [PROJECT_RAW_SUBDIR, m])
              (pp ++ [m])).entries =
            fs.entries.filter (fun x => !(x.1 == pp ++ [m])) ++
              [(pp ++ [m], FsEntry.fileE j)] := by
          show fs.entries.filter (fun x => !(x.1 == pp ++ [m])) ++
              [(pp ++ [m], FsEntry.fileE
                ((inoOf (os_unlink fs (pp ++ [m])) (pp ++ [PROJECT_RAW_SUBDIR, m])).getD 0))] = _
          rw [hinoeq]
          rfl
        have hraw1 : RawChildrenFiles pp
            (os_link (os_unlink fs (pp ++ [m])) (pp ++ [PROJECT_RAW_SUBDIR, m]) (pp ++ [m])) := by
          intro m' e hmem
          rw [hentries1] at hmem
          rcases List.mem_append.mp hmem with hl | hr
          · exact hraw m' e (List.mem_filter.mp hl).1
          · simp only [List.mem_singleton, Prod.mk.injEq] at hr
            exact absurd hr.1 raw_len_ne_sel
        have hwf1 : WfInodes
            (os_link (os_unlink fs (pp ++ [m])) (pp ++ [PROJECT_RAW_SUBDIR, m]) (pp ++ [m])) := by
          intro q i hmem
          rw [hentries1] at hmem
          rcases List.mem_append.mp hmem with hl | hr
          · have : (inodeData fs i).isSome = true := hwf q i (List.mem_filter.mp hl).1
            exact this
          · simp only [List.mem_singleton, Prod.mk.injEq, FsEntry.fileE.injEq] at hr
            have : (inodeData fs j).isSome = true := hwf _ j hrawmem
            rw [hr.2]
            exact this
        have hiso1 : XmpIso pp
            (os_link (os_unlink fs (pp ++ [m])) (pp ++ [PROJECT_RAW_SUBDIR, m]) (pp ++ [m])) := by
          intro n i hmem hx q k hmem2 hne
          rw [hentries1] at hmem hmem2
          rcases List.mem_append.mp hmem with hl | hr
          · have hmemfs : (pp ++ [n], FsEntry.fileE i) ∈ fs.entries := (List.mem_filter.mp hl).1
            rcases List.mem_append.mp hmem2 with hl2 | hr2
            · exact hiso n i hmemfs hx q k (List.mem_filter.mp hl2).1 hne
            · simp only [List.mem_singleton, Prod.mk.injEq, FsEntry.fileE.injEq] at hr2
              rw [hr2.2]
              exact hiso n i hmemfs hx _ j hrawmem raw_len_ne_sel
          · simp only [List.mem_singleton, Prod.mk.injEq] at hr
            have hnm : n = m := by
              have := List.append_cancel_left hr.1
              simp only [List.cons.injEq, and_true] at this
              exact this
            rw [hnm] at hx
            exact absurd hx hmxmp
        have hnoded1 : ∀ x ∈ rest, splitextLower x = ".xmp" →
            path_exists (os_link (os_unlink fs (pp ++ [m])) (pp ++ [PROJECT_RAW_SUBDIR, m])
              (pp ++ [m])) (pp ++ [PROJECT_RAW_SUBDIR, x]) = false ∨
              get_file_md5_hash (os_link (os_unlink fs (pp ++ [m]))
                (pp ++ [PROJECT_RAW_SUBDIR, m]) (pp ++ [m])) (pp ++ [x]) ≠
                get_file_md5_hash (os_link (os_unlink fs (pp ++ [m]))
                  (pp ++ [PROJECT_RAW_SUBDIR, m]) (pp ++ [m]))
                  (pp ++ [PROJECT_RAW_SUBDIR, x]) := by
          intro x hx hxxmp
          have hxm : x ≠ m := fun hcx => hnames.1 (hcx ▸ hx)
          have hlselx := hardlink_step_lookup fs pp m (pp ++ [x])
            (append_singleton_ne_of_ne hxm)
          have hlrawx := hardlink_step_lookup fs pp m (pp ++ [PROJECT_RAW_SUBDIR, x])
            raw_len_ne_sel
          rcases hnoded_rest x hx hxxmp with hne | hne
          · left
            rw [path_exists_congr_lookup hlrawx]
            exact hne
          · right
            unfold get_file_md5_hash
            rw [contentAt_congr hlselx rfl, contentAt_congr hlrawx rfl]
            exact hne
        obtain ⟨ihr, ihw, ihi, ihs⟩ := ih
          (os_link (os_unlink fs (pp ++ [m])) (pp ++ [PROJECT_RAW_SUBDIR, m]) (pp ++ [m]))
          (evs ++ [Event.printLink (pp ++ [m]) m] ++
            [Event.opUnlink (pp ++ [m]),
             Event.opLink (pp ++ [PROJECT_RAW_SUBDIR, m]) (pp ++ [m])])
          hnames.2
          (nodup_unlink_link fs (pp ++ [m]) (pp ++ [PROJECT_RAW_SUBDIR, m]) hnd)
          hraw1 hwf1 hiso1 hnoded1
        refine ⟨ihr, ihw, ihi, ?_⟩
        intro n hn
        rcases List.mem_cons.mp hn with rfl | hnr
        · left
          have hlsel := hardlinkGo_lookup_root_not_mem pp false rest
            (os_link (os_unlink fs (pp ++ [n])) (pp ++ [PROJECT_RAW_SUBDIR, n]) (pp ++ [n]))
            (evs ++ [Event.printLink (pp ++ [n]) n] ++
              [Event.opUnlink (pp ++ [n]),
               Event.opLink (pp ++ [PROJECT_RAW_SUBDIR, n]) (pp ++ [n])])
            n hnames.1
          have hlraw := hardlinkGo_lookup_deep pp false rest
            (os_link (os_unlink fs (pp ++ [n])) (pp ++ [PROJECT_RAW_SUBDIR, n]) (pp ++ [n]))
            (evs ++ [Event.printLink (pp ++ [n]) n] ++
              [Event.opUnlink (pp ++ [n]),
               Event.opLink (pp ++ [PROJECT_RAW_SUBDIR, n]) (pp ++ [n])])
            (pp ++ [PROJECT_RAW_SUBDIR, n]) (by simp)
          rw [samefile_congr_lookup hlsel hlraw]
          rw [hardlink_step_samefile hraw hex]
          rw [Bool.not_true, Bool.and_false]
        · exact ihs n hnr
      · rw [if_neg hmd]
        obtain ⟨ihr, ihw, ihi, ihs⟩ := ih fs (evs ++ [Event.printWarn (pp ++ [m])
            (get_file_md5_hash fs (pp ++ [m]))
            (get_file_md5_hash fs (pp ++ [PROJECT_RAW_SUBDIR, m]))])
          hnames.2 hnd hraw hwf hiso hnoded_rest
        refine ⟨ihr, ihw, ihi, ?_⟩
        intro n hn
        rcases List.mem_cons.mp hn with rfl | hnr
        · right
          have hlsel := hardlinkGo_lookup_root_not_mem pp false rest fs
            (evs ++ [Event.printWarn (pp ++ [n]) (get_file_md5_hash fs (pp ++ [n]))
              (get_file_md5_hash fs (pp ++ [PROJECT_RAW_SUBDIR, n]))]) n hnames.1
          have hlraw := hardlinkGo_lookup_deep pp false rest fs
            (evs ++ [Event.printWarn (pp ++ [n]) (get_file_md5_hash fs (pp ++ [n]))
              (get_file_md5_hash fs (pp ++ [PROJECT_RAW_SUBDIR, n]))])
            (pp ++ [PROJECT_RAW_SUBDIR, n]) (by simp)
          have hino := hardlinkGo_inodes pp false rest fs
            (evs ++ [Event.printWarn (pp ++ [n]) (get_file_md5_hash fs (pp ++ [n]))
              (get_file_md5_hash fs (pp ++ [PROJECT_RAW_SUBDIR, n]))])
          rw [md5_congr hlsel hino, md5_congr hlraw hino]
          rw [Bool.not_eq_true, beq_eq_false_iff_ne] at hmd
          exact hmd
        · exact ihs n hnr
    · rw [if_neg hc]
      obtain ⟨ihr, ihw, ihi, ihs⟩ := ih fs evs hnames.2 hnd hraw hwf hiso hnoded_rest
      refine ⟨ihr, ihw, ihi, ?_⟩
      intro n hn
      rcases List.mem_cons.mp hn with rfl | hnr
      · left
        have hlsel := hardlinkGo_lookup_root_not_mem pp false rest fs evs n hnames.1
        have hlraw := hardlinkGo_lookup_deep pp false rest fs evs
          (pp ++ [PROJECT_RAW_SUBDIR, n]) (by simp)
        rw [path_exists_congr_lookup hlraw, samefile_congr_lookup hlsel hlraw]
        rw [Bool.not_eq_true] at hc
        exact hc
      · exact ihs n hnr

theorem perms_raw_clean_of (pp : Path) (fs : FS) (hl : Bool)
    (hrawdir : path_exists fs (pp ++ [PROJECT_RAW_SUBDIR]) = true)
    (hiso : XmpIso pp fs) {n : String} {i : Nat}
    (hmem : (pp ++ [PROJECT_RAW_SUBDIR, n], FsEntry.fileE i) ∈ fs.entries) :
    st_mode (set_files_permissions pp hl false fs).1
      (pp ++ [PROJECT_RAW_SUBDIR, n]) &&& 0o333 = 0 := by
  have hent1 : (rawPass pp false fs).1.entries = fs.entries := rawPass_entries pp false fs
  unfold set_files_permissions
  apply rootGo_clean_preserved
  · exact rawPass_clean_raw pp fs hrawdir hmem
  · intro m hm hxm i' hi' hc
    rw [inoOf_congr_entries hent1] at hi' hc
    have e1 := mem_entry_of_inoOf hi'
    have e2 := mem_entry_of_inoOf hc
    refine absurd rfl (hiso m i' e2 hxm _ i' e1 ?_)
    intro hceq
    have := congrArg List.length hceq
    simp at this

theorem perms_root_xmp_of (pp : Path) (fs : FS) (hl : Bool)
    (hnd : (fs.entries.map Prod.fst).Nodup)
    (hwf : WfInodes fs)
    (hiso : XmpIso pp fs) {n : String} {i : Nat}
    (hmem : (pp ++ [n], FsEntry.fileE i) ∈ fs.entries)
    (hx : splitextLower n = ".xmp") :
    st_mode (set_files_permissions pp hl false fs).1 (pp ++ [n]) &&& 0o666 = 0o666 ∧
      st_mode (set_files_permissions pp hl false fs).1 (pp ++ [n]) &&& 0o111 = 0 := by
  have hent1 : (rawPass pp false fs).1.entries = fs.entries := rawPass_entries pp false fs
  have hino : inoOf fs (pp ++ [n]) = some i := inoOf_of_mem_nodup hnd hmem
  unfold set_files_permissions
  apply rootGo_rw_mem pp hl (rps_of pp fs) _ _ _ n i
  · rw [project_root_files_congr_entries hent1]
    exact project_root_files_mem_of_entry hmem
  · exact hx
  · exact rps_skip_false hl pp fs n
  · rw [inoOf_congr_entries hent1]
    exact hino
  · rw [rawPass_inodeData_isSome]
    exact hwf _ i hmem
  · intro m hm hxm j hj hc
    rw [inoOf_congr_entries hent1] at hj hc
    rw [hino] at hj
    cases hj
    have e2 := mem_entry_of_inoOf hc
    refine absurd rfl (hiso n i hmem hx (pp ++ [m]) i e2 ?_)
    apply append_singleton_ne_of_ne
    intro hmeq
    exact hxm (by rw [hmeq]; exact hx)

theorem perms_root_ro_of (pp : Path) (fs : FS) (hl : Bool)
    (hiso : XmpIso pp fs) {n : String} {i : Nat}
    (hmem : (pp ++ [n], FsEntry.fileE i) ∈ fs.entries)
    (hxne : splitextLower n ≠ ".xmp") :
    st_mode (set_files_permissions pp hl false fs).1 (pp ++ [n]) &&& 0o333 = 0 := by
  have hent1 : (rawPass pp false fs).1.entries = fs.entries := rawPass_entries pp false fs
  unfold set_files_permissions
  apply rootGo_ro_mem
  · rw [project_root_files_congr_entries hent1]
    exact project_root_files_mem_of_entry hmem
  · exact hxne
  · exact rps_skip_false hl pp fs n
  · intro m hm hxm i' hi' hc
    rw [inoOf_congr_entries hent1] at hi' hc
    have e1 := mem_entry_of_inoOf hi'
    have e2 := mem_entry_of_inoOf hc
    refine absurd rfl (hiso m i' e2 hxm (pp ++ [n]) i' e1 ?_)
    apply append_singleton_ne_of_ne
    intro hneq
    exact hxne (by rw [hneq]; exact hxm)

theorem set_files_permissions_entries (pp : Path) (hl dry : Bool) (fs : FS) :
    (set_files_permissions pp hl dry fs).1.entries = fs.entries := by
  unfold set_files_permissions
  rw [rootGo_entries, rawPass_entries]

theorem set_file_readonly_contentAt (p : Path) (fs : FS) (q : Path) :
    contentAt (set_file_readonly p false fs).1 q = contentAt fs q := by
  unfold set_file_readonly
  by_cases h : st_mode fs p &&& 0o333 ≠ 0
  · rw [if_pos h]
    unfold set_file_mode
    simp only [Bool.false_eq_true, if_false]
    exact contentAt_os_chmod fs p _ q
  · rw [if_neg h]

theorem set_file_readwrite_contentAt (p : Path) (fs : FS) (q : Path) :
    contentAt (set_file_readwrite p false fs).1 q = contentAt fs q := by
  unfold set_file_readwrite
  by_cases h : st_mode fs p &&& 0o111 ≠ 0 ∨ st_mode fs p &&& 0o666 ≠ 0o666
  · rw [if_pos h]
    unfold set_file_mode
    simp only [Bool.false_eq_true, if_false]
    exact contentAt_os_chmod fs p _ q
  · rw [if_neg h]

theorem rawsGo_contentAt (raw_dir : Path) :
    ∀ (names : List String) (fs : FS) (evs : List Event) (q : Path),
      contentAt (rawsGo raw_dir false names fs evs).1 q = contentAt fs q := by
  intro names
  induction names with
  | nil => intro fs evs q; rfl
  | cons n rest ih =>
    intro fs evs q
    rw [rawsGo, ih]
    exact set_file_readonly_contentAt _ fs q

theorem rootGo_contentAt (pp : Path) (hl : Bool) (rps : List Path) :
    ∀ (names : List String) (fs : FS) (evs : List Event) (q : Path),
      contentAt (rootGo pp hl rps false names fs evs).1 q = contentAt fs q := by
  intro names
  induction names with
  | nil => intro fs evs q; rfl
  | cons n rest ih =>
    intro fs evs q
    rw [rootGo]
    by_cases hskip : (hl && rps.contains (pp ++ [n])) = true
    · rw [if_pos hskip]
      exact ih fs evs q
    · rw [if_neg hskip]
      by_cases hx : (splitextLower n == ".xmp") = true
      · rw [if_pos hx, ih]
        exact set_file_readwrite_contentAt _ fs q
      · rw [if_neg hx, ih]
        exact set_file_readonly_contentAt _ fs q

theorem set_files_permissions_contentAt (pp : Path) (hl : Bool) (fs : FS) (q : Path) :
    contentAt (set_files_permissions pp hl false fs).1 q = contentAt fs q := by
  unfold set_files_permissions
  rw [rootGo_contentAt]
  unfold rawPass
  by_cases h : path_exists fs (pp ++ [PROJECT_RAW_SUBDIR]) = true
  · rw [if_pos h]
    exact rawsGo_contentAt _ _ fs [] q
  · rw [if_neg h]

theorem isdir_congr_entries {fs fs' : FS} (h : fs.entries = fs'.entries) (q : Path) :
    isdir fs q = isdir fs' q := by
  unfold isdir
  rw [lookupEntry_congr_entries h]

theorem isdir_of_lookup_file {fs : FS} {q : Path} {i : Nat}
    (h : lookupEntry fs q = some (FsEntry.fileE i)) : isdir fs q = false := by
  unfold isdir
  rw [h]

theorem hardlinkGo_isdir_root_false (pp : Path) :
    ∀ (names : List String) (fs : FS) (evs : List Event) (n : String),
      isdir fs (pp ++ [n]) = false →
      isdir (hardlinkGo pp false names fs evs).1 (pp ++ [n]) = false := by
  intro names
  induction names with
  | nil => intro fs evs n h; exact h
  | cons m rest ih =>
    intro fs evs n h
    rw [hardlinkGo]
    by_cases hc : (path_exists fs (pp ++ [PROJECT_RAW_SUBDIR, m]) &&
        !(samefile fs (pp ++ [m]) (pp ++ [PROJECT_RAW_SUBDIR, m]))) = true
    · rw [if_pos hc]
      by_cases hmd : (get_file_md5_hash fs (pp ++ [m]) ==
          get_file_md5_hash fs (pp ++ [PROJECT_RAW_SUBDIR, m])) = true
      · rw [if_pos hmd]
        simp only [Bool.false_eq_true, if_false]
        apply ih
        by_cases hnm : n = m
        · subst hnm
          apply isdir_of_lookup_file
          exact lookupEntry_os_link_self (lookupEntry_os_unlink_self fs (pp ++ [n]))
        · unfold isdir
          rw [hardlink_step_lookup fs pp m (pp ++ [n]) (append_singleton_ne_of_ne hnm)]
          unfold isdir at h
          exact h
      · rw [if_neg hmd]
        exact ih fs _ n h
    · rw [if_neg hc]
      exact ih fs evs n h

theorem removeEditGo_child_removed (edit : Path) :
    ∀ (children : List (String × FsEntry)) (fs : FS) (evs : List Event)
      (c : String) (ce : FsEntry), (c, ce) ∈ children →
      ∀ x ∈ (removeEditGo false edit children fs evs).1.entries, x.1 ≠ edit ++ [c] := by
  intro children
  induction children with
  | nil => intro fs evs c ce h; cases h
  | cons a rest ih =>
    obtain ⟨m, e⟩ := a
    intro fs evs c ce hmem x hx hc
    rcases List.mem_cons.mp hmem with heq | hrest
    · have hcm : c = m := (Prod.mk.injEq _ _ _ _ ▸ heq).1
      subst hcm
      cases e with
      | fileE i =>
        rw [removeEditGo] at hx
        simp only [Bool.false_eq_true, if_false] at hx
        have hx0 : x ∈ (os_unlink fs (edit ++ [c])).entries :=
          (removeEditGo_entries_sublist edit rest _ _).subset hx
        have h2 := (List.mem_filter.mp hx0).2
        rw [Bool.not_eq_true', beq_eq_false_iff_ne] at h2
        exact h2 hc
      | dirE =>
        rw [removeEditGo] at hx
        simp only [Bool.false_eq_true, if_false] at hx
        have hx0 : x ∈ (rmtree fs (edit ++ [c])).entries :=
          (removeEditGo_entries_sublist edit rest _ _).subset hx
        have h2 := (List.mem_filter.mp hx0).2
        rw [Bool.not_eq_true'] at h2
        rw [hc] at h2
        have h3 : ((edit ++ [c]).isPrefixOf (edit ++ [c])) = true := by
          rw [List.isPrefixOf_iff_prefix]
        rw [h3] at h2
        cases h2
    · cases e with
      | fileE i =>
        rw [removeEditGo] at hx
        simp only [Bool.false_eq_true, if_false] at hx
        exact ih _ _ c ce hrest x hx hc
      | dirE =>
        rw [removeEditGo] at hx
        simp only [Bool.false_eq_true, if_false] at hx
        exact ih _ _ c ce hrest x hx hc

theorem remove_edit_files_clears (pp : Path) (fs : FS)
    (hd : isdir fs (pp ++ [PROJECT_EDIT_SUBDIR]) = true) :
    ∀ x ∈ (remove_edit_files pp false fs).1.entries, ∀ c : String,
      x.1 ≠ (pp ++ [PROJECT_EDIT_SUBDIR]) ++ [c] := by
  intro x hx c hc
  have hre : remove_edit_files pp false fs =
      removeEditGo false (pp ++ [PROJECT_EDIT_SUBDIR])
        (scandir fs (pp ++ [PROJECT_EDIT_SUBDIR])) fs [] := by
    show (if isdir fs (pp ++ [PROJECT_EDIT_SUBDIR]) then
        removeEditGo false (pp ++ [PROJECT_EDIT_SUBDIR])
          (scandir fs (pp ++ [PROJECT_EDIT_SUBDIR])) fs []
      else (fs, [])) = _
    rw [if_pos hd]
  rw [hre] at hx
  have hmem0 : x ∈ fs.entries :=
    (removeEditGo_entries_sublist _ _ fs []).subset hx
  have hmem1 : ((pp ++ [PROJECT_EDIT_SUBDIR]) ++ [c], x.2) ∈ fs.entries := by
    rw [← hc, Prod.mk.eta]
    exact hmem0
  have hsc : (c, x.2) ∈ scandir fs (pp ++ [PROJECT_EDIT_SUBDIR]) :=
    scandir_mem_of_entry hmem1
  exact removeEditGo_child_removed _ _ fs [] c x.2 hsc x hx hc

theorem scandir_eq_nil_of_no_children {fs : FS} {d : Path}
    (h : ∀ x ∈ fs.entries, ∀ c : String, x.1 ≠ d ++ [c]) : scandir fs d = [] := by
  unfold scandir
  rw [List.filterMap_eq_nil_iff]
  intro e he
  by_cases ht : (e.1.take d.length == d) = true
  · rw [if_pos ht]
    cases hd : e.1.drop d.length with
    | nil => rfl
    | cons a t =>
      cases t with
      | nil =>
        exfalso
        apply h e he a
        conv_lhs => rw [← List.take_append_drop d.length e.1]
        rw [hd, beq_iff_eq.mp ht]
      | cons b t2 => rfl
  · rw [if_neg ht]

theorem strStartsWith_dot_of_dotu {n : String} (h : strStartsWith n "._" = true) :
    strStartsWith n "." = true := by
  unfold strStartsWith at h ⊢
  cases hd : n.data with
  | nil =>
    rw [hd] at h
    cases h
  | cons c rest =>
    rw [hd] at h
    have h2 : (('.' == c) && List.isPrefixOf ['_'] rest) = true := h
    rw [Bool.and_eq_true] at h2
    show (('.' == c) && List.isPrefixOf ([] : List Char) rest) = true
    rw [Bool.and_eq_true]
    exact ⟨h2.1, by cases rest <;> rfl⟩

theorem dotGlobMatch_root_nonhidden {pp : Path} {m : String}
    (h : strStartsWith m "." = false) : dotGlobMatch pp (pp ++ [m]) = false := by
  unfold dotGlobMatch
  rw [List.take_left, List.drop_left]
  have hd : strStartsWith m "._" = false := by
    cases hc : strStartsWith m "._"
    · rfl
    · rw [strStartsWith_dot_of_dotu hc] at h
      cases h
  simp [hd]

/-- No entry of the state matches the project's recursive dot glob. -/
def NoDots (pp : Path) (fs : FS) : Prop :=
  ∀ e ∈ fs.entries, dotGlobMatch pp e.1 = false

theorem NoDots_of_subset {pp : Path} {fs fs' : FS}
    (he : ∀ x ∈ fs'.entries, x ∈ fs.entries) (h : NoDots pp fs) : NoDots pp fs' :=
  fun e hm => h e (he e hm)

theorem remove_dot_files_NoDots (pp : Path) (fs : FS) :
    NoDots pp (remove_dot_files pp false fs).1 := by
  intro e he
  unfold remove_dot_files at he
  rw [removeDotGo_entries] at he
  rw [List.mem_filter] at he
  have h2 := he.2
  rw [contains_glob_eq_match he.1] at h2
  rw [Bool.not_eq_true'] at h2
  exact h2

theorem hardlink_select_files_NoDots (pp : Path) (fs : FS) (h : NoDots pp fs) :
    NoDots pp (hardlink_select_files pp false fs).1 := by
  unfold hardlink_select_files
  by_cases hd : isdir fs (pp ++ [PROJECT_RAW_SUBDIR]) = true
  · rw [if_pos hd]
    intro e he
    rcases hardlinkGo_entries_shape pp _ fs [] e he with hin | ⟨n, i, hn, hx⟩
    · exact h e hin
    · have hnh : strStartsWith n "." = false := (mem_select_files_iff.mp hn).2
      rw [hx]
      exact dotGlobMatch_root_nonhidden hnh
  · rw [if_neg hd]
    exact h

theorem XmpNoDedup_of_sublist {pp : Path} {fs fs' : FS}
    (hnd : (fs.entries.map Prod.fst).Nodup)
    (hsub : fs'.entries.Sublist fs.entries) (hi : fs'.inodes = fs.inodes)
    (h : XmpNoDedup pp fs) : XmpNoDedup pp fs' := by
  have hnd' : (fs'.entries.map Prod.fst).Nodup :=
    List.Nodup.sublist (List.Sublist.map _ hsub) hnd
  intro n i hmem hx
  have hmemfs := hsub.subset hmem
  have hsel' : lookupEntry fs' (pp ++ [n]) = some (FsEntry.fileE i) :=
    lookupEntry_of_mem_nodup hnd' hmem
  have hself : lookupEntry fs (pp ++ [n]) = some (FsEntry.fileE i) :=
    lookupEntry_of_mem_nodup hnd hmemfs
  rcases h n i hmemfs hx with hne | hne
  · left
    cases hl' : lookupEntry fs' (pp ++ [PROJECT_RAW_SUBDIR, n]) with
    | none =>
      unfold path_exists
      rw [hl']
      rfl
    | some e =>
      exfalso
      have hmem2 := hsub.subset (lookup_mem_entry hl')
      have hpe : path_exists fs (pp ++ [PROJECT_RAW_SUBDIR, n]) = true :=
        path_exists_of_entry_mem hmem2
      rw [hne] at hpe
      cases hpe
  · cases hl' : lookupEntry fs' (pp ++ [PROJECT_RAW_SUBDIR, n]) with
    | none =>
      left
      unfold path_exists
      rw [hl']
      rfl
    | some e =>
      right
      have hmem2 := hsub.subset (lookup_mem_entry hl')
      have hrawl : lookupEntry fs (pp ++ [PROJECT_RAW_SUBDIR, n]) = some e :=
        lookupEntry_of_mem_nodup hnd hmem2
      have e1 : get_file_md5_hash fs' (pp ++ [n]) = get_file_md5_hash fs (pp ++ [n]) :=
        md5_congr (by rw [hsel', hself]) hi
      have e2 : get_file_md5_hash fs' (pp ++ [PROJECT_RAW_SUBDIR, n]) =
          get_file_md5_hash fs (pp ++ [PROJECT_RAW_SUBDIR, n]) :=
        md5_congr (by rw [hl', hrawl]) hi
      rw [e1, e2]
      exact hne

theorem path_exists_congr_entries {fs fs' : FS} (h : fs.entries = fs'.entries) (q : Path) :
    path_exists fs q = path_exists fs' q := by
  unfold path_exists
  rw [lookupEntry_congr_entries h]

theorem samefile_congr_entries {fs fs' : FS} (h : fs.entries = fs'.entries) (p q : Path) :
    samefile fs p q = samefile fs' p q := by
  unfold samefile
  rw [inoOf_congr_entries h, inoOf_congr_entries h]

theorem raw_files_mem_inv {pp : Path} {fs : FS} {n : String}
    (h : n ∈ raw_files pp fs) :
    ∃ i, (pp ++ [PROJECT_RAW_SUBDIR, n], FsEntry.fileE i) ∈ fs.entries := by
  unfold raw_files at h
  rw [List.mem_filterMap] at h
  obtain ⟨⟨m, e⟩, hm, hmap⟩ := h
  cases e with
  | dirE => cases hmap
  | fileE i =>
    have hm2 : (some m : Option String) = some n := hmap
    cases hm2
    have hent := mem_scandir_entry hm
    rw [List.append_assoc] at hent
    exact ⟨i, hent⟩

theorem project_root_files_mem_inv {pp : Path} {fs : FS} {n : String}
    (h : n ∈ project_root_files pp fs) :
    ∃ i, (pp ++ [n], FsEntry.fileE i) ∈ fs.entries := by
  unfold project_root_files at h
  rw [List.mem_filterMap] at h
  obtain ⟨⟨m, e⟩, hm, hmap⟩ := h
  cases e with
  | dirE => cases hmap
  | fileE i =>
    have hm2 : (some m : Option String) = some n := hmap
    cases hm2
    exact ⟨i, mem_scandir_entry hm⟩

/-- C6 (amended): on a project state whose path table is
duplicate-free, whose file inodes are present, whose root sidecars
share storage with no other file and are not themselves
dedup-eligible, whose raw-subdirectory children are regular files, and
whose glob matches are regular files, running the per-project pipeline
a second time with the same flags performs no file operation and
leaves the state unchanged: already-linked selects are skipped by the
same-storage check (or warned on, which mutates nothing), and every
file is already in its target mode. -/
theorem pipeline_second_run_no_ops (pp : Path) (fs : FS) (rd re hl fp : Bool)
    (hnd : (fs.entries.map Prod.fst).Nodup)
    (hwf : wfInodesB fs = true)
    (hiso : xmpIsoB pp fs = true)
    (hnodedup : xmpNoDedupB pp fs = true)
    (hrawf : rawChildrenFilesB pp fs = true)
    ( _hdotf : ∀ e ∈ fs.entries, dotGlobMatch pp e.1 = true → e.2 ≠ FsEntry.dirE) :
    (cleanup_project pp rd re hl fp false
        (cleanup_project pp rd re hl fp false fs).1).1 =
      (cleanup_project pp rd re hl fp false fs).1 ∧
      opPaths (cleanup_project pp rd re hl fp false
        (cleanup_project pp rd re hl fp false fs).1).2 = [] := by
  have hwfP : WfInodes fs := wfInodesB_Wf hwf
  have hisoP : XmpIso pp fs := xmpIsoB_Iso hiso
  have hnodedP : XmpNoDedup pp fs := xmpNoDedupB_spec hnodedup
  have hrawP : RawChildrenFiles pp fs := rawChildrenFilesB_spec hrawf
  set fs1 : FS := (if rd then remove_dot_files pp false fs else (fs, [])).1 with hfs1
  set fs2 : FS := (if re then remove_edit_files pp false fs1 else (fs1, [])).1 with hfs2
  set fs3 : FS := (if hl then hardlink_select_files pp false fs2 else (fs2, [])).1 with hfs3
  set P : FS := (cleanup_project pp rd re hl fp false fs).1 with hP
  have hPstages : P = (if fp then set_files_permissions pp hl false fs3 else (fs3, [])).1 := rfl
  have hsub1 : fs1.entries.Sublist fs.entries := by
    rw [hfs1]
    cases rd
    · exact List.Sublist.refl _
    · exact remove_dot_files_entries_sublist pp fs
  have hino1 : fs1.inodes = fs.inodes := by
    rw [hfs1]
    cases rd
    · rfl
    · exact remove_dot_files_inodes pp fs
  have hsub2 : fs2.entries.Sublist fs1.entries := by
    rw [hfs2]
    cases re
    · exact List.Sublist.refl _
    · exact remove_edit_files_entries_sublist pp fs1
  have hino2 : fs2.inodes = fs1.inodes := by
    rw [hfs2]
    cases re
    · rfl
    · exact remove_edit_files_inodes pp fs1
  have hsub12 : fs2.entries.Sublist fs.entries := hsub2.trans hsub1
  have hino12 : fs2.inodes = fs.inodes := hino2.trans hino1
  have hnd1 : (fs1.entries.map Prod.fst).Nodup :=
    List.Nodup.sublist (List.Sublist.map _ hsub1) hnd
  have hnd2 : (fs2.entries.map Prod.fst).Nodup :=
    List.Nodup.sublist (List.Sublist.map _ hsub2) hnd1
  have hwf2 : WfInodes fs2 := WfInodes_of_subset (fun x hx => hsub12.subset hx) hino12 hwfP
  have hiso2 : XmpIso pp fs2 := XmpIso_of_subset (fun x hx => hsub12.subset hx) hisoP
  have hraw2 : RawChildrenFiles pp fs2 :=
    RawChildrenFiles_of_subset (fun x hx => hsub12.subset hx) hrawP
  have hnoded1 : XmpNoDedup pp fs1 := XmpNoDedup_of_sublist hnd hsub1 hino1 hnodedP
  have hnoded2 : XmpNoDedup pp fs2 := XmpNoDedup_of_sublist hnd1 hsub2 hino2 hnoded1
  have hselnd : (select_files pp fs2).Nodup := select_files_nodup hnd2
  have hnoded_names : ∀ x ∈ select_files pp fs2, splitextLower x = ".xmp" →
      path_exists fs2 (pp ++ [PROJECT_RAW_SUBDIR, x]) = false ∨
        get_file_md5_hash fs2 (pp ++ [x]) ≠
          get_file_md5_hash fs2 (pp ++ [PROJECT_RAW_SUBDIR, x]) := by
    intro x hx hxx
    obtain ⟨⟨i, hmem⟩, _⟩ := mem_select_files_iff.mp hx
    exact hnoded2 x i hmem hxx
  have hdedupT : ((hardlink_select_files pp false fs2).1.entries.map Prod.fst).Nodup ∧
      WfInodes (hardlink_select_files pp false fs2).1 ∧
      XmpIso pp (hardlink_select_files pp false fs2).1 := by
    unfold hardlink_select_files
    by_cases hdir : isdir fs2 (pp ++ [PROJECT_RAW_SUBDIR]) = true
    · rw [if_pos hdir]
      obtain ⟨_, b, c, _⟩ := hardlinkGo_invariants pp (select_files pp fs2) fs2 []
        hselnd hnd2 hraw2 hwf2 hiso2 hnoded_names
      exact ⟨hardlinkGo_nodup pp _ fs2 [] hnd2, b, c⟩
    · rw [if_neg hdir]
      exact ⟨hnd2, hwf2, hiso2⟩
  have hnd3 : (fs3.entries.map Prod.fst).Nodup := by
    rw [hfs3]
    cases hl
    · exact hnd2
    · exact hdedupT.1
  have hwf3 : WfInodes fs3 := by
    rw [hfs3]
    cases hl
    · exact hwf2
    · exact hdedupT.2.1
  have hiso3 : XmpIso pp fs3 := by
    rw [hfs3]
    cases hl
    · exact hiso2
    · exact hdedupT.2.2
  have hentP : P.entries = fs3.entries := by
    rw [hPstages]
    cases fp
    · rfl
    · exact set_files_permissions_entries pp hl false fs3
  have hmd5P : ∀ q, get_file_md5_hash P q = get_file_md5_hash fs3 q := by
    intro q
    rw [hPstages]
    cases fp
    · rfl
    · exact set_files_permissions_contentAt pp hl fs3 q
  have h1 : rd = true → remove_dot_files pp false P = (P, []) := by
    intro hrd
    apply remove_dot_files_noop
    apply glob_dot_files_eq_nil
    have hnod1 : NoDots pp fs1 := by
      rw [hfs1]
      subst hrd
      exact remove_dot_files_NoDots pp fs
    have hnod2 : NoDots pp fs2 := NoDots_of_subset (fun x hx => hsub2.subset hx) hnod1
    have hnod3 : NoDots pp fs3 := by
      rw [hfs3]
      cases hl
      · exact hnod2
      · exact hardlink_select_files_NoDots pp fs2 hnod2
    intro e he
    rw [hentP] at he
    exact hnod3 e he
  have h2 : re = true → remove_edit_files pp false P = (P, []) := by
    intro hre
    subst hre
    have hfs2eq : fs2 = (remove_edit_files pp false fs1).1 := hfs2.trans rfl
    by_cases hdir : isdir fs1 (pp ++ [PROJECT_EDIT_SUBDIR]) = true
    · apply remove_edit_files_noop_of_scandir_nil
      apply scandir_eq_nil_of_no_children
      intro x hx c
      rw [hentP] at hx
      have hclears := remove_edit_files_clears pp fs1 hdir
      have hx2 : x ∈ fs2.entries ∨ ∃ n i, x = (pp ++ [n], FsEntry.fileE i) := by
        revert hx
        rw [hfs3]
        cases hl
        · intro hx
          exact Or.inl hx
        · intro hx
          have hx' : x ∈ (hardlink_select_files pp false fs2).1.entries := hx
          unfold hardlink_select_files at hx'
          by_cases hdirr : isdir fs2 (pp ++ [PROJECT_RAW_SUBDIR]) = true
          · rw [if_pos hdirr] at hx'
            rcases hardlinkGo_entries_shape pp _ fs2 [] x hx' with hin | ⟨n, i, _, hxe⟩
            · exact Or.inl hin
            · exact Or.inr ⟨n, i, hxe⟩
          · rw [if_neg hdirr] at hx'
            exact Or.inl hx'
      rcases hx2 with hin | ⟨n, i, hxe⟩
      · have hin2 : x ∈ (remove_edit_files pp false fs1).1.entries := by
          rw [← hfs2eq]
          exact hin
        exact hclears x hin2 c
      · rw [hxe]
        intro hceq
        have hlen := congrArg List.length hceq
        simp at hlen
    · apply remove_edit_files_noop_of_not_isdir
      have hd1 : isdir fs1 (pp ++ [PROJECT_EDIT_SUBDIR]) = false := by
        cases hdd : isdir fs1 (pp ++ [PROJECT_EDIT_SUBDIR])
        · rfl
        · exact absurd hdd hdir
      have hfs2eq1 : fs2 = fs1 := by
        rw [hfs2eq, remove_edit_files_noop_of_not_isdir false hd1]
      have hd2 : isdir fs2 (pp ++ [PROJECT_EDIT_SUBDIR]) = false := by
        rw [hfs2eq1]
        exact hd1
      have hd3 : isdir fs3 (pp ++ [PROJECT_EDIT_SUBDIR]) = false := by
        rw [hfs3]
        cases hl
        · exact hd2
        · show isdir (hardlink_select_files pp false fs2).1 (pp ++ [PROJECT_EDIT_SUBDIR]) = false
          unfold hardlink_select_files
          by_cases hdirr : isdir fs2 (pp ++ [PROJECT_RAW_SUBDIR]) = true
          · rw [if_pos hdirr]
            exact hardlinkGo_isdir_root_false pp _ fs2 [] PROJECT_EDIT_SUBDIR hd2
          · rw [if_neg hdirr]
            exact hd2
      rw [isdir_congr_entries hentP]
      exact hd3
  have h3 : hl = true → (hardlink_select_files pp false P).1 = P ∧
      opPaths (hardlink_select_files pp false P).2 = [] := by
    intro hhl
    apply hardlink_select_files_noop
    intro hdirP n hnsel
    have hselP : select_files pp P = select_files pp fs3 := by
      unfold select_files
      rw [scandir_congr_entries hentP]
    rw [hselP] at hnsel
    have hdir3 : isdir fs3 (pp ++ [PROJECT_RAW_SUBDIR]) = true := by
      rw [isdir_congr_entries hentP (pp ++ [PROJECT_RAW_SUBDIR])] at hdirP
      exact hdirP
    subst hhl
    have hdir2 : isdir fs2 (pp ++ [PROJECT_RAW_SUBDIR]) = true := by
      by_cases hdd : isdir fs2 (pp ++ [PROJECT_RAW_SUBDIR]) = true
      · exact hdd
      · exfalso
        have hfs3eq : fs3 = fs2 := by
          rw [hfs3]
          show (hardlink_select_files pp false fs2).1 = fs2
          unfold hardlink_select_files
          rw [if_neg hdd]
        rw [hfs3eq] at hdir3
        exact hdd hdir3
    have hgo : fs3 = (hardlinkGo pp false (select_files pp fs2) fs2 []).1 := by
      rw [hfs3]
      show (hardlink_select_files pp false fs2).1 = _
      unfold hardlink_select_files
      rw [if_pos hdir2]
    have hnsel2 : n ∈ select_files pp fs2 := by
      rw [hgo] at hnsel
      rcases hardlinkGo_select_mem pp _ fs2 [] n hnsel with h | h
      · exact h
      · exact h
    obtain ⟨_, _, _, hst⟩ := hardlinkGo_invariants pp (select_files pp fs2) fs2 []
      hselnd hnd2 hraw2 hwf2 hiso2 hnoded_names
    have hdisj := hst n hnsel2
    rw [← hgo] at hdisj
    rcases hdisj with hc | hc
    · left
      rw [path_exists_congr_entries hentP, samefile_congr_entries hentP]
      exact hc
    · right
      rw [hmd5P, hmd5P]
      exact hc
  have h4 : fp = true → set_files_permissions pp hl false P = (P, []) := by
    intro hfp
    subst hfp
    have hPdef : P = (set_files_permissions pp hl false fs3).1 := hPstages.trans rfl
    apply set_files_permissions_noop
    · intro hdirP n hn
      obtain ⟨i, hmem⟩ := raw_files_mem_inv hn
      rw [hentP] at hmem
      have hdir3 : path_exists fs3 (pp ++ [PROJECT_RAW_SUBDIR]) = true := by
        rw [path_exists_congr_entries hentP] at hdirP
        exact hdirP
      have hclean := perms_raw_clean_of pp fs3 hl hdir3 hiso3 hmem
      rw [← hPdef] at hclean
      rw [List.append_assoc]
      exact hclean
    · intro n hn
      obtain ⟨i, hmem⟩ := project_root_files_mem_inv hn
      rw [hentP] at hmem
      constructor
      · intro hx
        have hres := perms_root_xmp_of pp fs3 hl hnd3 hwf3 hiso3 hmem hx
        rw [← hPdef] at hres
        exact ⟨hres.2, hres.1⟩
      · intro hx
        have hres := perms_root_ro_of pp fs3 hl hiso3 hmem hx
        rw [← hPdef] at hres
        exact hres
  exact cleanup_project_noop_of pp rd re hl fp P h1 h2 h3 h4

/-- A project whose root sidecar shares inode 4 with its raw original —
exactly the state a deduplicating run (or a pre-existing hardlink)
produces. -/
def fsC6 : FS :=
  { entries := [(["Q"], FsEntry.dirE), (["Q", "0_RAW"], FsEntry.dirE),
      (["Q", "0_RAW", "a.xmp"], FsEntry.fileE 4), (["Q", "a.xmp"], FsEntry.fileE 4)],
    inodes := [(4, { content := "meta", mode := 0o644 })] }

/-- C6 counterexample: with permission fixing enabled, a root sidecar
sharing storage with a raw original flip-flops between the raw pass
(read-only) and the root pass (read-write); the second run issues
further chmod operations, so the pipeline is not idempotent for every
tree as claimed. -/
theorem pipeline_second_run_no_ops_cex :
    opPaths (cleanup_project ["Q"] false false false true false
      (cleanup_project ["Q"] false false false true false fsC6).1).2 ≠ [] := by decide

/-- A well-formed project exercising all four stages for the C6
witness: a dot file to sweep, an edit-stage file to remove, a select
equal to its raw original (linked on the first run), and an isolated
sidecar. -/
def fsC6w : FS :=
  { entries := [(["Z"], FsEntry.dirE),
      (["Z", "0_RAW"], FsEntry.dirE),
      (["Z", "0_RAW", "img.raw"], FsEntry.fileE 1),
      (["Z", "img.raw"], FsEntry.fileE 2),
      (["Z", "img.xmp"], FsEntry.fileE 3),
      (["Z", "._junk"], FsEntry.fileE 5),
      (["Z", "1_EDIT"], FsEntry.dirE),
      (["Z", "1_EDIT", "tmp.jpg"], FsEntry.fileE 6)],
    inodes := [(1, { content := "RAW", mode := 0o755 }),
      (2, { content := "RAW", mode := 0o644 }),
      (3, { content := "meta", mode := 0o600 }),
      (5, { content := "j", mode := 0o644 }),
      (6, { content := "t", mode := 0o644 })] }

theorem pipeline_second_run_no_ops_witness :
    (fsC6w.entries.map Prod.fst).Nodup ∧ wfInodesB fsC6w = true ∧
      xmpIsoB ["Z"] fsC6w = true ∧ xmpNoDedupB ["Z"] fsC6w = true ∧
      rawChildrenFilesB ["Z"] fsC6w = true ∧
      (∀ e ∈ fsC6w.entries, dotGlobMatch ["Z"] e.1 = true → e.2 ≠ FsEntry.dirE) ∧
      ((cleanup_project ["Z"] true true true true false
          (cleanup_project ["Z"] true true true true false fsC6w).1).1 =
        (cleanup_project ["Z"] true true true true false fsC6w).1 ∧
        opPaths (cleanup_project ["Z"] true true true true false
          (cleanup_project ["Z"] true true true true false fsC6w).1).2 = []) :=
  ⟨by decide, by decide, by decide, by decide, by decide, by decide,
    pipeline_second_run_no_ops ["Z"] fsC6w true true true true (by decide) (by decide)
      (by decide) (by decide) (by decide) (by decide)⟩

/-!  ### C3: dry-run fidelity  -/

/-- Full inode injectivity: no two file entries (at distinct paths)
share an inode — there are no hardlinks at all. -/
def InoInj (fs : FS) : Prop :=
  ∀ (q : Path) (i : Nat), (q, FsEntry.fileE i) ∈ fs.entries →
    ∀ (q' : Path) (j : Nat), (q', FsEntry.fileE j) ∈ fs.entries → q' ≠ q → j ≠ i

/-- Decidable form of `InoInj`. -/
def inoInjB (fs : FS) : Bool :=
  fs.entries.all (fun e =>
    match e.2 with
    | FsEntry.fileE i =>
        fs.entries.all (fun e2 =>
          match e2.2 with
          | FsEntry.fileE j => (e2.1 == e.1) || !(j == i)
          | FsEntry.dirE => true)
    | FsEntry.dirE => true)

theorem inoInjB_spec {fs : FS} (h : inoInjB fs = true) : InoInj fs := by
  intro q i hmem q' j hmem2 hne
  unfold inoInjB at h
  rw [List.all_eq_true] at h
  have h1 := h (q, FsEntry.fileE i) hmem
  rw [List.all_eq_true] at h1
  have h2 := h1 (q', FsEntry.fileE j) hmem2
  simp only [Bool.or_eq_true, beq_iff_eq] at h2
  rcases h2 with hc | hc
  · exact absurd hc hne
  · simp only [Bool.not_eq_eq_eq_not, Bool.not_true, beq_eq_false_iff_ne, ne_eq] at hc
    exact hc

theorem InoInj_of_subset {fs fs' : FS}
    (he : ∀ x ∈ fs'.entries, x ∈ fs.entries) (h : InoInj fs) : InoInj fs' :=
  fun q i hmem q' j hmem2 hne => h q i (he _ hmem) q' j (he _ hmem2) hne

/-- The raw files the permission pass would chmod: those with a write
or execute bit set. -/
def raw_dirty_paths (pp : Path) (fs : FS) : List Path :=
  if path_exists fs (pp ++ [PROJECT_RAW_SUBDIR]) then
    ((raw_files pp fs).filter (fun n =>
      decide (st_mode fs (pp ++ [PROJECT_RAW_SUBDIR] ++ [n]) &&& 0o333 ≠ 0))).map
      (fun n => pp ++ [PROJECT_RAW_SUBDIR] ++ [n])
  else []

/-- The project-root files the permission pass would chmod: sidecars
not yet read-write-clean, other files with a write or execute bit. -/
def root_dirty_paths (pp : Path) (fs : FS) : List Path :=
  ((project_root_files pp fs).filter (fun n =>
    if splitextLower n == ".xmp" then
      decide (st_mode fs (pp ++ [n]) &&& 0o111 ≠ 0 ∨
        st_mode fs (pp ++ [n]) &&& 0o666 ≠ 0o666)
    else decide (st_mode fs (pp ++ [n]) &&& 0o333 ≠ 0))).map
    (fun n => pp ++ [n])

theorem removeDotGo_dry_state : ∀ (ms : List Path) (fs : FS) (evs : List Event),
    (removeDotGo true ms fs evs).1 = fs := by
  intro ms
  induction ms with
  | nil => intro fs evs; rfl
  | cons m rest ih =>
    intro fs evs
    rw [removeDotGo]
    simp only [if_true]
    exact ih fs _

theorem removeDotGo_dry_reported : ∀ (ms : List Path) (fs : FS) (evs : List Event),
    reportedPaths (removeDotGo true ms fs evs).2 = reportedPaths evs ++ ms := by
  intro ms
  induction ms with
  | nil => intro fs evs; rw [removeDotGo]; simp
  | cons m rest ih =>
    intro fs evs
    rw [removeDotGo]
    simp only [if_true]
    rw [ih, reportedPaths_append]
    show (reportedPaths evs ++ [m]) ++ rest = reportedPaths evs ++ (m :: rest)
    simp

theorem removeDotGo_real_ops : ∀ (ms : List Path) (fs : FS) (evs : List Event),
    opPaths (removeDotGo false ms fs evs).2 = opPaths evs ++ ms := by
  intro ms
  induction ms with
  | nil => intro fs evs; rw [removeDotGo]; simp
  | cons m rest ih =>
    intro fs evs
    rw [removeDotGo]
    simp only [Bool.false_eq_true, if_false]
    rw [ih, opPaths_append, opPaths_append]
    show ((opPaths evs ++ []) ++ [m]) ++ rest = opPaths evs ++ (m :: rest)
    simp

theorem removeEditGo_dry_state (edit : Path) :
    ∀ (children : List (String × FsEntry)) (fs : FS) (evs : List Event),
      (removeEditGo true edit children fs evs).1 = fs := by
  intro children
  induction children with
  | nil => intro fs evs; rfl
  | cons c rest ih =>
    obtain ⟨n, e⟩ := c
    intro fs evs
    cases e with
    | fileE i =>
      rw [removeEditGo]
      simp only [if_true]
      exact ih fs _
    | dirE =>
      rw [removeEditGo]
      simp only [if_true]
      exact ih fs _

theorem removeEditGo_dry_reported (edit : Path) :
    ∀ (children : List (String × FsEntry)) (fs : FS) (evs : List Event),
      reportedPaths (removeEditGo true edit children fs evs).2 =
        reportedPaths evs ++ children.map (fun c => edit ++ [c.1]) := by
  intro children
  induction children with
  | nil => intro fs evs; rw [removeEditGo]; simp
  | cons c rest ih =>
    obtain ⟨n, e⟩ := c
    intro fs evs
    cases e with
    | fileE i =>
      rw [removeEditGo]
      simp only [if_true]
      rw [ih, reportedPaths_append]
      show (reportedPaths evs ++ [edit ++ [n]]) ++ rest.map (fun c => edit ++ [c.1]) =
        reportedPaths evs ++ ((edit ++ [n]) :: rest.map (fun c => edit ++ [c.1]))
      simp
    | dirE =>
      rw [removeEditGo]
      simp only [if_true]
      rw [ih, reportedPaths_append]
      show (reportedPaths evs ++ [edit ++ [n]]) ++ rest.map (fun c => edit ++ [c.1]) =
        reportedPaths evs ++ ((edit ++ [n]) :: rest.map (fun c => edit ++ [c.1]))
      simp

theorem removeEditGo_real_ops (edit : Path) :
    ∀ (children : List (String × FsEntry)) (fs : FS) (evs : List Event),
      opPaths (removeEditGo false edit children fs evs).2 =
        opPaths evs ++ children.map (fun c => edit ++ [c.1]) := by
  intro children
  induction children with
  | nil => intro fs evs; rw [removeEditGo]; simp
  | cons c rest ih =>
    obtain ⟨n, e⟩ := c
    intro fs evs
    cases e with
    | fileE i =>
      rw [removeEditGo]
      simp only [Bool.false_eq_true, if_false]
      rw [ih, opPaths_append, opPaths_append]
      show ((opPaths evs ++ []) ++ [edit ++ [n]]) ++ rest.map (fun c => edit ++ [c.1]) =
        opPaths evs ++ ((edit ++ [n]) :: rest.map (fun c => edit ++ [c.1]))
      simp
    | dirE =>
      rw [removeEditGo]
      simp only [Bool.false_eq_true, if_false]
      rw [ih, opPaths_append, opPaths_append]
      show ((opPaths evs ++ []) ++ [edit ++ [n]]) ++ rest.map (fun c => edit ++ [c.1]) =
        opPaths evs ++ ((edit ++ [n]) :: rest.map (fun c => edit ++ [c.1]))
      simp

theorem filter_cons_eq_pos {α : Type _} (p : α → Bool) (a : α) (l : List α)
    (h : p a = true) : (a :: l).filter p = a :: l.filter p := by
  rw [List.filter_cons, if_pos h]

theorem filter_cons_eq_neg {α : Type _} (p : α → Bool) (a : α) (l : List α)
    (h : p a = false) : (a :: l).filter p = l.filter p := by
  rw [List.filter_cons, if_neg (by rw [h]; exact Bool.false_ne_true)]

theorem set_file_readonly_dry (p : Path) (fs : FS) :
    (set_file_readonly p true fs).1 = fs ∧
      reportedPaths (set_file_readonly p true fs).2 =
        (if st_mode fs p &&& 0o333 ≠ 0 then [p] else []) := by
  unfold set_file_readonly
  by_cases h : st_mode fs p &&& 0o333 ≠ 0
  · rw [if_pos h, if_pos h]
    exact ⟨rfl, rfl⟩
  · rw [if_neg h, if_neg h]
    exact ⟨rfl, rfl⟩

theorem set_file_readwrite_dry (p : Path) (fs : FS) :
    (set_file_readwrite p true fs).1 = fs ∧
      reportedPaths (set_file_readwrite p true fs).2 =
        (if st_mode fs p &&& 0o111 ≠ 0 ∨ st_mode fs p &&& 0o666 ≠ 0o666 then [p] else []) := by
  unfold set_file_readwrite
  by_cases h : st_mode fs p &&& 0o111 ≠ 0 ∨ st_mode fs p &&& 0o666 ≠ 0o666
  · rw [if_pos h, if_pos h]
    exact ⟨rfl, rfl⟩
  · rw [if_neg h, if_neg h]
    exact ⟨rfl, rfl⟩

theorem set_file_readonly_real_ops (p : Path) (fs : FS) :
    opPaths (set_file_readonly p false fs).2 =
      (if st_mode fs p &&& 0o333 ≠ 0 then [p] else []) := by
  unfold set_file_readonly
  by_cases h : st_mode fs p &&& 0o333 ≠ 0
  · rw [if_pos h, if_pos h]
    rfl
  · rw [if_neg h, if_neg h]
    rfl

theorem set_file_readwrite_real_ops (p : Path) (fs : FS) :
    opPaths (set_file_readwrite p false fs).2 =
      (if st_mode fs p &&& 0o111 ≠ 0 ∨ st_mode fs p &&& 0o666 ≠ 0o666 then [p] else []) := by
  unfold set_file_readwrite
  by_cases h : st_mode fs p &&& 0o111 ≠ 0 ∨ st_mode fs p &&& 0o666 ≠ 0o666
  · rw [if_pos h, if_pos h]
    rfl
  · rw [if_neg h, if_neg h]
    rfl

theorem rawsGo_dry_state (raw_dir : Path) :
    ∀ (names : List String) (fs : FS) (evs : List Event),
      (rawsGo raw_dir true names fs evs).1 = fs := by
  intro names
  induction names with
  | nil => intro fs evs; rfl
  | cons n rest ih =>
    intro fs evs
    rw [rawsGo, (set_file_readonly_dry (raw_dir ++ [n]) fs).1]
    exact ih fs _

theorem rawsGo_dry_reported (raw_dir : Path) :
    ∀ (names : List String) (fs : FS) (evs : List Event),
      reportedPaths (rawsGo raw_dir true names fs evs).2 =
        reportedPaths evs ++ (names.filter (fun n =>
          decide (st_mode fs (raw_dir ++ [n]) &&& 0o333 ≠ 0))).map
          (fun n => raw_dir ++ [n]) := by
  intro names
  induction names with
  | nil => intro fs evs; rw [rawsGo]; simp
  | cons n rest ih =>
    intro fs evs
    rw [rawsGo, (set_file_readonly_dry (raw_dir ++ [n]) fs).1]
    rw [ih, reportedPaths_append, (set_file_readonly_dry (raw_dir ++ [n]) fs).2]
    by_cases h : st_mode fs (raw_dir ++ [n]) &&& 0o333 ≠ 0
    · simp [List.filter_cons, h]
    · simp [List.filter_cons, h]

theorem rawsGo_real_ops (raw_dir : Path) :
    ∀ (names : List String) (fs : FS) (evs : List Event),
      names.Nodup →
      (∀ n ∈ names, ∀ m ∈ names, n ≠ m → ∀ i,
        inoOf fs (raw_dir ++ [n]) = some i → inoOf fs (raw_dir ++ [m]) ≠ some i) →
      opPaths (rawsGo raw_dir false names fs evs).2 =
        opPaths evs ++ (names.filter (fun n =>
          decide (st_mode fs (raw_dir ++ [n]) &&& 0o333 ≠ 0))).map
          (fun n => raw_dir ++ [n]) := by
  intro names
  induction names with
  | nil => intro fs evs _ _; rw [rawsGo]; simp
  | cons n rest ih =>
    intro fs evs hnd hinj
    rw [List.nodup_cons] at hnd
    rw [rawsGo]
    have hent := entries_set_file_readonly (raw_dir ++ [n]) false fs
    have hstate_modes : ∀ m ∈ rest,
        st_mode (set_file_readonly (raw_dir ++ [n]) false fs).1 (raw_dir ++ [m]) =
          st_mode fs (raw_dir ++ [m]) := by
      intro m hm
      apply set_file_readonly_other_ino
      intro i hi
      exact hinj m (List.mem_cons_of_mem n hm) n (List.mem_cons_self n rest)
        (fun hc => hnd.1 (hc ▸ hm)) i hi
    rw [ih ((set_file_readonly (raw_dir ++ [n]) false fs).1)
      (evs ++ (set_file_readonly (raw_dir ++ [n]) false fs).2) hnd.2 (by
        intro a ha b hb hab i hi
        rw [inoOf_congr_entries hent] at hi ⊢
        exact hinj a (List.mem_cons_of_mem n ha) b (List.mem_cons_of_mem n hb) hab i hi)]
    have hfc : rest.filter (fun m =>
        decide (st_mode (set_file_readonly (raw_dir ++ [n]) false fs).1
          (raw_dir ++ [m]) &&& 0o333 ≠ 0)) =
        rest.filter (fun m => decide (st_mode fs (raw_dir ++ [m]) &&& 0o333 ≠ 0)) := by
      apply List.filter_congr
      intro m hm
      rw [hstate_modes m hm]
    rw [hfc, opPaths_append, set_file_readonly_real_ops]
    by_cases h : st_mode fs (raw_dir ++ [n]) &&& 0o333 ≠ 0
    · simp [List.filter_cons, h]
    · simp [List.filter_cons, h]

theorem rootGo_dry_state (pp : Path) (rps : List Path) :
    ∀ (names : List String) (fs : FS) (evs : List Event),
      (rootGo pp false rps true names fs evs).1 = fs := by
  intro names
  induction names with
  | nil => intro fs evs; rfl
  | cons n rest ih =>
    intro fs evs
    rw [rootGo]
    simp only [Bool.false_and, Bool.false_eq_true, if_false]
    by_cases hx : (splitextLower n == ".xmp") = true
    · rw [if_pos hx, (set_file_readwrite_dry (pp ++ [n]) fs).1]
      exact ih fs _
    · rw [if_neg hx, (set_file_readonly_dry (pp ++ [n]) fs).1]
      exact ih fs _

theorem rootGo_dry_reported (pp : Path) (rps : List Path) :
    ∀ (names : List String) (fs : FS) (evs : List Event),
      reportedPaths (rootGo pp false rps true names fs evs).2 =
        reportedPaths evs ++ (names.filter (fun n =>
          if splitextLower n == ".xmp" then
            decide (st_mode fs (pp ++ [n]) &&& 0o111 ≠ 0 ∨
              st_mode fs (pp ++ [n]) &&& 0o666 ≠ 0o666)
          else decide (st_mode fs (pp ++ [n]) &&& 0o333 ≠ 0))).map (fun n => pp ++ [n]) := by
  intro names
  induction names with
  | nil => intro fs evs; rw [rootGo]; simp
  | cons n rest ih =>
    intro fs evs
    rw [rootGo]
    simp only [Bool.false_and, Bool.false_eq_true, if_false]
    by_cases hx : (splitextLower n == ".xmp") = true
    · rw [if_pos hx, (set_file_readwrite_dry (pp ++ [n]) fs).1]
      rw [ih, reportedPaths_append, (set_file_readwrite_dry (pp ++ [n]) fs).2]
      by_cases h : st_mode fs (pp ++ [n]) &&& 0o111 ≠ 0 ∨
          st_mode fs (pp ++ [n]) &&& 0o666 ≠ 0o666
      · rw [if_pos h, filter_cons_eq_pos (fun m =>
          if splitextLower m == ".xmp" then
            decide (st_mode fs (pp ++ [m]) &&& 0o111 ≠ 0 ∨
              st_mode fs (pp ++ [m]) &&& 0o666 ≠ 0o666)
          else decide (st_mode fs (pp ++ [m]) &&& 0o333 ≠ 0)) n rest
          (show (if splitextLower n == ".xmp" then
            decide (st_mode fs (pp ++ [n]) &&& 0o111 ≠ 0 ∨
              st_mode fs (pp ++ [n]) &&& 0o666 ≠ 0o666)
          else decide (st_mode fs (pp ++ [n]) &&& 0o333 ≠ 0)) = true by rw [if_pos hx]; exact decide_eq_true h)]
        simp
      · rw [if_neg h, filter_cons_eq_neg (fun m =>
          if splitextLower m == ".xmp" then
            decide (st_mode fs (pp ++ [m]) &&& 0o111 ≠ 0 ∨
              st_mode fs (pp ++ [m]) &&& 0o666 ≠ 0o666)
          else decide (st_mode fs (pp ++ [m]) &&& 0o333 ≠ 0)) n rest
          (show (if splitextLower n == ".xmp" then
            decide (st_mode fs (pp ++ [n]) &&& 0o111 ≠ 0 ∨
              st_mode fs (pp ++ [n]) &&& 0o666 ≠ 0o666)
          else decide (st_mode fs (pp ++ [n]) &&& 0o333 ≠ 0)) = false by rw [if_pos hx]; exact decide_eq_false h)]
        simp
    · rw [if_neg hx, (set_file_readonly_dry (pp ++ [n]) fs).1]
      rw [ih, reportedPaths_append, (set_file_readonly_dry (pp ++ [n]) fs).2]
      by_cases h : st_mode fs (pp ++ [n]) &&& 0o333 ≠ 0
      · rw [if_pos h, filter_cons_eq_pos (fun m =>
          if splitextLower m == ".xmp" then
            decide (st_mode fs (pp ++ [m]) &&& 0o111 ≠ 0 ∨
              st_mode fs (pp ++ [m]) &&& 0o666 ≠ 0o666)
          else decide (st_mode fs (pp ++ [m]) &&& 0o333 ≠ 0)) n rest
          (show (if splitextLower n == ".xmp" then
            decide (st_mode fs (pp ++ [n]) &&& 0o111 ≠ 0 ∨
              st_mode fs (pp ++ [n]) &&& 0o666 ≠ 0o666)
          else decide (st_mode fs (pp ++ [n]) &&& 0o333 ≠ 0)) = true by rw [if_neg hx]; exact decide_eq_true h)]
        simp
      · rw [if_neg h, filter_cons_eq_neg (fun m =>
          if splitextLower m == ".xmp" then
            decide (st_mode fs (pp ++ [m]) &&& 0o111 ≠ 0 ∨
              st_mode fs (pp ++ [m]) &&& 0o666 ≠ 0o666)
          else decide (st_mode fs (pp ++ [m]) &&& 0o333 ≠ 0)) n rest
          (show (if splitextLower n == ".xmp" then
            decide (st_mode fs (pp ++ [n]) &&& 0o111 ≠ 0 ∨
              st_mode fs (pp ++ [n]) &&& 0o666 ≠ 0o666)
          else decide (st_mode fs (pp ++ [n]) &&& 0o333 ≠ 0)) = false by rw [if_neg hx]; exact decide_eq_false h)]
        simp

theorem rootGo_real_ops (pp : Path) (rps : List Path) :
    ∀ (names : List String) (fs : FS) (evs : List Event),
      names.Nodup →
      (∀ n ∈ names, ∀ m ∈ names, n ≠ m → ∀ i,
        inoOf fs (pp ++ [n]) = some i → inoOf fs (pp ++ [m]) ≠ some i) →
      opPaths (rootGo pp false rps false names fs evs).2 =
        opPaths evs ++ (names.filter (fun n =>
          if splitextLower n == ".xmp" then
            decide (st_mode fs (pp ++ [n]) &&& 0o111 ≠ 0 ∨
              st_mode fs (pp ++ [n]) &&& 0o666 ≠ 0o666)
          else decide (st_mode fs (pp ++ [n]) &&& 0o333 ≠ 0))).map (fun n => pp ++ [n]) := by
  intro names
  induction names with
  | nil => intro fs evs _ _; rw [rootGo]; simp
  | cons n rest ih =>
    intro fs evs hnd hinj
    rw [List.nodup_cons] at hnd
    rw [rootGo]
    simp only [Bool.false_and, Bool.false_eq_true, if_false]
    by_cases hx : (splitextLower n == ".xmp") = true
    · rw [if_pos hx]
      have hent := entries_set_file_readwrite (pp ++ [n]) false fs
      have hstate_modes : ∀ m ∈ rest,
          st_mode (set_file_readwrite (pp ++ [n]) false fs).1 (pp ++ [m]) =
            st_mode fs (pp ++ [m]) := by
        intro m hm
        apply set_file_readwrite_other_ino
        intro i hi
        exact hinj m (List.mem_cons_of_mem n hm) n (List.mem_cons_self n rest)
          (fun hc => hnd.1 (hc ▸ hm)) i hi
      rw [ih ((set_file_readwrite (pp ++ [n]) false fs).1)
        (evs ++ (set_file_readwrite (pp ++ [n]) false fs).2) hnd.2 (by
          intro a ha b hb hab i hi
          rw [inoOf_congr_entries hent] at hi ⊢
          exact hinj a (List.mem_cons_of_mem n ha) b (List.mem_cons_of_mem n hb) hab i hi)]
      have hfc : rest.filter (fun m =>
          if splitextLower m == ".xmp" then
            decide (st_mode (set_file_readwrite (pp ++ [n]) false fs).1
                (pp ++ [m]) &&& 0o111 ≠ 0 ∨
              st_mode (set_file_readwrite (pp ++ [n]) false fs).1
                (pp ++ [m]) &&& 0o666 ≠ 0o666)
          else decide (st_mode (set_file_readwrite (pp ++ [n]) false fs).1
            (pp ++ [m]) &&& 0o333 ≠ 0)) =
          rest.filter (fun m =>
          if splitextLower m == ".xmp" then
            decide (st_mode fs (pp ++ [m]) &&& 0o111 ≠ 0 ∨
              st_mode fs (pp ++ [m]) &&& 0o666 ≠ 0o666)
          else decide (st_mode fs (pp ++ [m]) &&& 0o333 ≠ 0)) := by
        apply List.filter_congr
        intro m hm
        rw [hstate_modes m hm]
      rw [hfc, opPaths_append, set_file_readwrite_real_ops]
      by_cases h : st_mode fs (pp ++ [n]) &&& 0o111 ≠ 0 ∨
          st_mode fs (pp ++ [n]) &&& 0o666 ≠ 0o666
      · rw [if_pos h, filter_cons_eq_pos (fun m =>
          if splitextLower m == ".xmp" then
            decide (st_mode fs (pp ++ [m]) &&& 0o111 ≠ 0 ∨
              st_mode fs (pp ++ [m]) &&& 0o666 ≠ 0o666)
          else decide (st_mode fs (pp ++ [m]) &&& 0o333 ≠ 0)) n rest
          (show (if splitextLower n == ".xmp" then
            decide (st_mode fs (pp ++ [n]) &&& 0o111 ≠ 0 ∨
              st_mode fs (pp ++ [n]) &&& 0o666 ≠ 0o666)
          else decide (st_mode fs (pp ++ [n]) &&& 0o333 ≠ 0)) = true by rw [if_pos hx]; exact decide_eq_true h)]
        simp
      · rw [if_neg h, filter_cons_eq_neg (fun m =>
          if splitextLower m == ".xmp" then
            decide (st_mode fs (pp ++ [m]) &&& 0o111 ≠ 0 ∨
              st_mode fs (pp ++ [m]) &&& 0o666 ≠ 0o666)
          else decide (st_mode fs (pp ++ [m]) &&& 0o333 ≠ 0)) n rest
          (show (if splitextLower n == ".xmp" then
            decide (st_mode fs (pp ++ [n]) &&& 0o111 ≠ 0 ∨
              st_mode fs (pp ++ [n]) &&& 0o666 ≠ 0o666)
          else decide (st_mode fs (pp ++ [n]) &&& 0o333 ≠ 0)) = false by rw [if_pos hx]; exact decide_eq_false h)]
        simp
    · rw [if_neg hx]
      have hent := entries_set_file_readonly (pp ++ [n]) false fs
      have hstate_modes : ∀ m ∈ rest,
          st_mode (set_file_readonly (pp ++ [n]) false fs).1 (pp ++ [m]) =
            st_mode fs (pp ++ [m]) := by
        intro m hm
        apply set_file_readonly_other_ino
        intro i hi
        exact hinj m (List.mem_cons_of_mem n hm) n (List.mem_cons_self n rest)
          (fun hc => hnd.1 (hc ▸ hm)) i hi
      rw [ih ((set_file_readonly (pp ++ [n]) false fs).1)
        (evs ++ (set_file_readonly (pp ++ [n]) false fs).2) hnd.2 (by
          intro a ha b hb hab i hi
          rw [inoOf_congr_entries hent] at hi ⊢
          exact hinj a (List.mem_cons_of_mem n ha) b (List.mem_cons_of_mem n hb) hab i hi)]
      have hfc : rest.filter (fun m =>
          if splitextLower m == ".xmp" then
            decide (st_mode (set_file_readonly (pp ++ [n]) false fs).1
                (pp ++ [m]) &&& 0o111 ≠ 0 ∨
              st_mode (set_file_readonly (pp ++ [n]) false fs).1
                (pp ++ [m]) &&& 0o666 ≠ 0o666)
          else decide (st_mode (set_file_readonly (pp ++ [n]) false fs).1
            (pp ++ [m]) &&& 0o333 ≠ 0)) =
          rest.filter (fun m =>
          if splitextLower m == ".xmp" then
            decide (st_mode fs (pp ++ [m]) &&& 0o111 ≠ 0 ∨
              st_mode fs (pp ++ [m]) &&& 0o666 ≠ 0o666)
          else decide (st_mode fs (pp ++ [m]) &&& 0o333 ≠ 0)) := by
        apply List.filter_congr
        intro m hm
        rw [hstate_modes m hm]
      rw [hfc, opPaths_append, set_file_readonly_real_ops]
      by_cases h : st_mode fs (pp ++ [n]) &&& 0o333 ≠ 0
      · rw [if_pos h, filter_cons_eq_pos (fun m =>
          if splitextLower m == ".xmp" then
            decide (st_mode fs (pp ++ [m]) &&& 0o111 ≠ 0 ∨
              st_mode fs (pp ++ [m]) &&& 0o666 ≠ 0o666)
          else decide (st_mode fs (pp ++ [m]) &&& 0o333 ≠ 0)) n rest
          (show (if splitextLower n == ".xmp" then
            decide (st_mode fs (pp ++ [n]) &&& 0o111 ≠ 0 ∨
              st_mode fs (pp ++ [n]) &&& 0o666 ≠ 0o666)
          else decide (st_mode fs (pp ++ [n]) &&& 0o333 ≠ 0)) = true by rw [if_neg hx]; exact decide_eq_true h)]
        simp
      · rw [if_neg h, filter_cons_eq_neg (fun m =>
          if splitextLower m == ".xmp" then
            decide (st_mode fs (pp ++ [m]) &&& 0o111 ≠ 0 ∨
              st_mode fs (pp ++ [m]) &&& 0o666 ≠ 0o666)
          else decide (st_mode fs (pp ++ [m]) &&& 0o333 ≠ 0)) n rest
          (show (if splitextLower n == ".xmp" then
            decide (st_mode fs (pp ++ [n]) &&& 0o111 ≠ 0 ∨
              st_mode fs (pp ++ [n]) &&& 0o666 ≠ 0o666)
          else decide (st_mode fs (pp ++ [n]) &&& 0o333 ≠ 0)) = false by rw [if_neg hx]; exact decide_eq_false h)]
        simp

theorem raw_files_nodup {pp : Path} {fs : FS}
    (hnd : (fs.entries.map Prod.fst).Nodup) : (raw_files pp fs).Nodup := by
  have heq : raw_files pp fs = fs.entries.filterMap (fun e =>
      (if e.1.take (pp ++ [PROJECT_RAW_SUBDIR]).length == pp ++ [PROJECT_RAW_SUBDIR] then
        match e.1.drop (pp ++ [PROJECT_RAW_SUBDIR]).length with
        | [n] => some (n, e.2)
        | _ => none
      else none).bind (fun q =>
        match q with
        | (n, FsEntry.fileE _) => some n
        | _ => none)) := by
    unfold raw_files scandir
    rw [List.filterMap_filterMap]
  rw [heq]
  apply nodup_filterMap_path (pp ++ [PROJECT_RAW_SUBDIR]) ?_ hnd
  intro e n h
  by_cases ht : (e.1.take (pp ++ [PROJECT_RAW_SUBDIR]).length == pp ++ [PROJECT_RAW_SUBDIR]) = true
  · rw [if_pos ht] at h
    cases hd : e.1.drop (pp ++ [PROJECT_RAW_SUBDIR]).length with
    | nil =>
      rw [hd] at h
      cases h
    | cons a t =>
      cases t with
      | nil =>
        rw [hd] at h
        have h2 : (match (a, e.2) with
          | (n, FsEntry.fileE _) => some n
          | _ => none) = some n := h
        cases he : e.2 with
        | dirE =>
          rw [he] at h2
          cases h2
        | fileE i =>
          rw [he] at h2
          have h3 : (some a : Option String) = some n := h2
          cases h3
          conv_lhs => rw [← List.take_append_drop (pp ++ [PROJECT_RAW_SUBDIR]).length e.1]
          rw [hd, beq_iff_eq.mp ht]
      | cons b t2 =>
        rw [hd] at h
        cases h
  · rw [if_neg ht] at h
    cases h

theorem project_root_files_nodup {pp : Path} {fs : FS}
    (hnd : (fs.entries.map Prod.fst).Nodup) : (project_root_files pp fs).Nodup := by
  have heq : project_root_files pp fs = fs.entries.filterMap (fun e =>
      (if e.1.take pp.length == pp then
        match e.1.drop pp.length with
        | [n] => some (n, e.2)
        | _ => none
      else none).bind (fun q =>
        match q with
        | (n, FsEntry.fileE _) => some n
        | _ => none)) := by
    unfold project_root_files scandir
    rw [List.filterMap_filterMap]
  rw [heq]
  apply nodup_filterMap_path pp ?_ hnd
  intro e n h
  by_cases ht : (e.1.take pp.length == pp) = true
  · rw [if_pos ht] at h
    cases hd : e.1.drop pp.length with
    | nil =>
      rw [hd] at h
      cases h
    | cons a t =>
      cases t with
      | nil =>
        rw [hd] at h
        have h2 : (match (a, e.2) with
          | (n, FsEntry.fileE _) => some n
          | _ => none) = some n := h
        cases he : e.2 with
        | dirE =>
          rw [he] at h2
          cases h2
        | fileE i =>
          rw [he] at h2
          have h3 : (some a : Option String) = some n := h2
          cases h3
          conv_lhs => rw [← List.take_append_drop pp.length e.1]
          rw [hd, beq_iff_eq.mp ht]
      | cons b t2 =>
        rw [hd] at h
        cases h
  · rw [if_neg ht] at h
    cases h

theorem rawPass_dry_state (pp : Path) (fs : FS) : (rawPass pp true fs).1 = fs := by
  unfold rawPass
  by_cases h : path_exists fs (pp ++ [PROJECT_RAW_SUBDIR]) = true
  · rw [if_pos h]
    exact rawsGo_dry_state _ _ fs []
  · rw [if_neg h]

theorem rawPass_dry_reported (pp : Path) (fs : FS) :
    reportedPaths (rawPass pp true fs).2 = raw_dirty_paths pp fs := by
  unfold rawPass raw_dirty_paths
  by_cases h : path_exists fs (pp ++ [PROJECT_RAW_SUBDIR]) = true
  · rw [if_pos h, if_pos h]
    rw [rawsGo_dry_reported]
    rfl
  · rw [if_neg h, if_neg h]
    rfl

theorem rawPass_real_ops (pp : Path) (fs : FS)
    (hnd : (fs.entries.map Prod.fst).Nodup) (hinj : InoInj fs) :
    opPaths (rawPass pp false fs).2 = raw_dirty_paths pp fs := by
  unfold rawPass raw_dirty_paths
  by_cases h : path_exists fs (pp ++ [PROJECT_RAW_SUBDIR]) = true
  · rw [if_pos h, if_pos h]
    rw [rawsGo_real_ops _ _ fs [] (raw_files_nodup hnd) (by
      intro n hn m hm hnm i hin hcm
      have e1 := mem_entry_of_inoOf hin
      have e2 := mem_entry_of_inoOf hcm
      refine absurd rfl (hinj _ i e1 _ i e2 ?_)
      exact append_singleton_ne_of_ne (Ne.symm hnm))]
    rfl
  · rw [if_neg h, if_neg h]
    rfl

theorem set_files_permissions_dry_state (pp : Path) (fs : FS) :
    (set_files_permissions pp false true fs).1 = fs := by
  unfold set_files_permissions
  rw [rootGo_dry_state]
  exact rawPass_dry_state pp fs

theorem set_files_permissions_dry_reported (pp : Path) (fs : FS) :
    reportedPaths (set_files_permissions pp false true fs).2 =
      raw_dirty_paths pp fs ++ root_dirty_paths pp fs := by
  unfold set_files_permissions
  rw [rootGo_dry_reported, rawPass_dry_reported, rawPass_dry_state]
  rfl

theorem set_files_permissions_real_ops (pp : Path) (fs : FS)
    (hnd : (fs.entries.map Prod.fst).Nodup) (hinj : InoInj fs) :
    opPaths (set_files_permissions pp false false fs).2 =
      raw_dirty_paths pp fs ++ root_dirty_paths pp fs := by
  unfold set_files_permissions
  have hent : (rawPass pp false fs).1.entries = fs.entries := rawPass_entries pp false fs
  have hndR : ((rawPass pp false fs).1.entries.map Prod.fst).Nodup := by
    rw [hent]
    exact hnd
  have hN : (project_root_files pp (rawPass pp false fs).1).Nodup :=
    project_root_files_nodup hndR
  have hI : ∀ n ∈ project_root_files pp (rawPass pp false fs).1,
      ∀ m ∈ project_root_files pp (rawPass pp false fs).1, n ≠ m → ∀ i,
      inoOf (rawPass pp false fs).1 (pp ++ [n]) = some i →
      inoOf (rawPass pp false fs).1 (pp ++ [m]) ≠ some i := by
    intro n hn m hm hnm i hin hcm
    have e1 := mem_entry_of_inoOf hin
    have e2 := mem_entry_of_inoOf hcm
    rw [hent] at e1 e2
    refine absurd rfl (hinj _ i e1 _ i e2 ?_)
    exact append_singleton_ne_of_ne (Ne.symm hnm)
  rw [rootGo_real_ops pp (rps_of pp fs) _ _ _ hN hI]
  rw [rawPass_real_ops pp fs hnd hinj]
  rw [project_root_files_congr_entries hent]
  unfold root_dirty_paths
  congr 2
  apply List.filter_congr
  intro m hm
  have hmode : st_mode (rawPass pp false fs).1 (pp ++ [m]) = st_mode fs (pp ++ [m]) := by
    unfold rawPass
    by_cases h : path_exists fs (pp ++ [PROJECT_RAW_SUBDIR]) = true
    · rw [if_pos h]
      apply rawsGo_other_ino
      intro a ha i hi hc
      have e1 := mem_entry_of_inoOf hi
      have e2 := mem_entry_of_inoOf hc
      refine absurd rfl (hinj _ i e1 _ i e2 ?_)
      intro hceq
      have hlen := congrArg List.length hceq
      simp at hlen
    · rw [if_neg h]
  rw [hmode]

/-- The edit-stage children the sweep reports and removes, as full
paths. -/
def edit_child_paths (pp : Path) (fs : FS) : List Path :=
  if isdir fs (pp ++ [PROJECT_EDIT_SUBDIR]) then
    (scandir fs (pp ++ [PROJECT_EDIT_SUBDIR])).map
      (fun c => (pp ++ [PROJECT_EDIT_SUBDIR]) ++ [c.1])
  else []

theorem remove_dot_files_dry (pp : Path) (fs : FS) :
    (remove_dot_files pp true fs).1 = fs ∧
      reportedPaths (remove_dot_files pp true fs).2 = glob_dot_files pp fs := by
  unfold remove_dot_files
  refine ⟨removeDotGo_dry_state _ fs [], ?_⟩
  rw [removeDotGo_dry_reported]
  rfl

theorem remove_dot_files_real_ops (pp : Path) (fs : FS) :
    opPaths (remove_dot_files pp false fs).2 = glob_dot_files pp fs := by
  unfold remove_dot_files
  rw [removeDotGo_real_ops]
  rfl

theorem remove_edit_files_dry (pp : Path) (fs : FS) :
    (remove_edit_files pp true fs).1 = fs ∧
      reportedPaths (remove_edit_files pp true fs).2 = edit_child_paths pp fs := by
  show ((if isdir fs (pp ++ [PROJECT_EDIT_SUBDIR]) then
      removeEditGo true (pp ++ [PROJECT_EDIT_SUBDIR])
        (scandir fs (pp ++ [PROJECT_EDIT_SUBDIR])) fs []
    else (fs, [])).1 = fs ∧
    reportedPaths (if isdir fs (pp ++ [PROJECT_EDIT_SUBDIR]) then
      removeEditGo true (pp ++ [PROJECT_EDIT_SUBDIR])
        (scandir fs (pp ++ [PROJECT_EDIT_SUBDIR])) fs []
    else (fs, [])).2 = edit_child_paths pp fs)
  unfold edit_child_paths
  by_cases hd : isdir fs (pp ++ [PROJECT_EDIT_SUBDIR]) = true
  · rw [if_pos hd, if_pos hd]
    refine ⟨removeEditGo_dry_state _ _ fs [], ?_⟩
    rw [removeEditGo_dry_reported]
    rfl
  · rw [if_neg hd, if_neg hd]
    exact ⟨rfl, rfl⟩

theorem remove_edit_files_real_ops (pp : Path) (fs : FS) :
    opPaths (remove_edit_files pp false fs).2 = edit_child_paths pp fs := by
  show opPaths (if isdir fs (pp ++ [PROJECT_EDIT_SUBDIR]) then
      removeEditGo false (pp ++ [PROJECT_EDIT_SUBDIR])
        (scandir fs (pp ++ [PROJECT_EDIT_SUBDIR])) fs []
    else (fs, [])).2 = _
  unfold edit_child_paths
  by_cases hd : isdir fs (pp ++ [PROJECT_EDIT_SUBDIR]) = true
  · rw [if_pos hd, if_pos hd]
    rw [removeEditGo_real_ops]
    rfl
  · rw [if_neg hd, if_neg hd]
    rfl

theorem remove_dot_files_entries_real (pp : Path) (fs : FS) :
    (remove_dot_files pp false fs).1.entries =
      fs.entries.filter (fun e => !(dotGlobMatch pp e.1)) := by
  unfold remove_dot_files
  rw [removeDotGo_entries]
  apply List.filter_congr
  intro a ha
  rw [contains_glob_eq_match ha]

theorem mem_glob_of_match {pp : Path} {fs : FS} {q : Path} {e : FsEntry}
    (hmem : (q, e) ∈ fs.entries) (hm : dotGlobMatch pp q = true) :
    q ∈ glob_dot_files pp fs := by
  unfold glob_dot_files
  rw [List.mem_map]
  exact ⟨(q, e), List.mem_filter.mpr ⟨hmem, hm⟩, rfl⟩

theorem remove_dot_files_lookup_unmatched {pp : Path} {fs : FS} {q : Path}
    (hnd : (fs.entries.map Prod.fst).Nodup)
    (hm : dotGlobMatch pp q = false) :
    lookupEntry (remove_dot_files pp false fs).1 q = lookupEntry fs q := by
  have hent := remove_dot_files_entries_real pp fs
  cases hl : lookupEntry fs q with
  | none =>
    cases hl2 : lookupEntry (remove_dot_files pp false fs).1 q with
    | none => rfl
    | some e =>
      exfalso
      have hmem := lookup_mem_entry hl2
      rw [hent] at hmem
      have hmem2 := (List.mem_filter.mp hmem).1
      have hpe := path_exists_of_entry_mem hmem2
      unfold path_exists at hpe
      rw [hl] at hpe
      cases hpe
  | some e =>
    have hmem := lookup_mem_entry hl
    have hmem2 : (q, e) ∈ (remove_dot_files pp false fs).1.entries := by
      rw [hent, List.mem_filter]
      exact ⟨hmem, by rw [hm]; rfl⟩
    have hnd2 : ((remove_dot_files pp false fs).1.entries.map Prod.fst).Nodup := by
      rw [hent]
      exact List.Nodup.sublist (List.Sublist.map _ (List.filter_sublist _)) hnd
    exact lookupEntry_of_mem_nodup hnd2 hmem2

theorem isPrefixOf_self_true (l : Path) : (l.isPrefixOf l) = true := by
  rw [List.isPrefixOf_iff_prefix]

theorem removeEditGo_lookup_shallow (edit : Path) :
    ∀ (children : List (String × FsEntry)) (fs : FS) (evs : List Event) (q : Path),
      (∀ c : String, ((edit ++ [c]).isPrefixOf q) = false) →
      lookupEntry (removeEditGo false edit children fs evs).1 q = lookupEntry fs q := by
  intro children
  induction children with
  | nil => intro fs evs q _; rfl
  | cons a rest ih =>
    obtain ⟨n, e⟩ := a
    intro fs evs q h
    have hne : q ≠ edit ++ [n] := by
      intro hc
      have := h n
      rw [hc, isPrefixOf_self_true] at this
      cases this
    cases e with
    | fileE i =>
      rw [removeEditGo]
      simp only [Bool.false_eq_true, if_false]
      rw [ih _ _ q h]
      exact lookupEntry_os_unlink_ne hne
    | dirE =>
      rw [removeEditGo]
      simp only [Bool.false_eq_true, if_false]
      rw [ih _ _ q h]
      exact lookupEntry_rmtree_not_under (h n)

theorem remove_edit_files_lookup_shallow {pp : Path} {fs : FS} {q : Path}
    (h : ∀ c : String, (((pp ++ [PROJECT_EDIT_SUBDIR]) ++ [c]).isPrefixOf q) = false) :
    lookupEntry (remove_edit_files pp false fs).1 q = lookupEntry fs q := by
  show lookupEntry (if isdir fs (pp ++ [PROJECT_EDIT_SUBDIR]) then
      removeEditGo false (pp ++ [PROJECT_EDIT_SUBDIR])
        (scandir fs (pp ++ [PROJECT_EDIT_SUBDIR])) fs []
    else (fs, [])).1 q = _
  by_cases hd : isdir fs (pp ++ [PROJECT_EDIT_SUBDIR]) = true
  · rw [if_pos hd]
    exact removeEditGo_lookup_shallow _ _ fs [] q h
  · rw [if_neg hd]

theorem editChild_not_prefix_root (pp : Path) (c n : String) :
    (((pp ++ [PROJECT_EDIT_SUBDIR]) ++ [c]).isPrefixOf (pp ++ [n])) = false := by
  cases hc : ((pp ++ [PROJECT_EDIT_SUBDIR]) ++ [c]).isPrefixOf (pp ++ [n])
  · rfl
  · exfalso
    rw [List.isPrefixOf_iff_prefix] at hc
    have hlen := List.IsPrefix.length_le hc
    simp at hlen

theorem editChild_not_prefix_raw (pp : Path) (c m : String) :
    (((pp ++ [PROJECT_EDIT_SUBDIR]) ++ [c]).isPrefixOf
      ((pp ++ [PROJECT_RAW_SUBDIR]) ++ [m])) = false := by
  cases hc : ((pp ++ [PROJECT_EDIT_SUBDIR]) ++ [c]).isPrefixOf
      ((pp ++ [PROJECT_RAW_SUBDIR]) ++ [m])
  · rfl
  · exfalso
    rw [List.isPrefixOf_iff_prefix] at hc
    obtain ⟨t, ht⟩ := hc
    rw [List.append_assoc (pp ++ [PROJECT_EDIT_SUBDIR]) [c] t] at ht
    rw [List.append_assoc pp [PROJECT_EDIT_SUBDIR] ([c] ++ t)] at ht
    rw [List.append_assoc pp [PROJECT_RAW_SUBDIR] [m]] at ht
    have h2 := List.append_cancel_left ht
    injection h2 with h3 _
    exact absurd h3 (by decide)

theorem editChild_not_prefix_rawdir (pp : Path) (c : String) :
    (((pp ++ [PROJECT_EDIT_SUBDIR]) ++ [c]).isPrefixOf (pp ++ [PROJECT_RAW_SUBDIR])) = false := by
  cases hc : ((pp ++ [PROJECT_EDIT_SUBDIR]) ++ [c]).isPrefixOf (pp ++ [PROJECT_RAW_SUBDIR])
  · rfl
  · exfalso
    rw [List.isPrefixOf_iff_prefix] at hc
    have hlen := List.IsPrefix.length_le hc
    simp at hlen

theorem removeEditGo_preserves (edit : Path) :
    ∀ (children : List (String × FsEntry)) (fs : FS) (evs : List Event)
      (x : Path × FsEntry),
      x ∈ fs.entries → (∀ c : String, ((edit ++ [c]).isPrefixOf x.1) = false) →
      x ∈ (removeEditGo false edit children fs evs).1.entries := by
  intro children
  induction children with
  | nil => intro fs evs x hx _; exact hx
  | cons a rest ih =>
    obtain ⟨n, e⟩ := a
    intro fs evs x hx h
    have hne : x.1 ≠ edit ++ [n] := by
      intro hc
      have := h n
      rw [hc, isPrefixOf_self_true] at this
      cases this
    cases e with
    | fileE i =>
      rw [removeEditGo]
      simp only [Bool.false_eq_true, if_false]
      apply ih
      · show x ∈ fs.entries.filter (fun y => !(y.1 == edit ++ [n]))
        rw [List.mem_filter]
        refine ⟨hx, ?_⟩
        simp only [Bool.not_eq_eq_eq_not, Bool.not_true, beq_eq_false_iff_ne, ne_eq]
        exact hne
      · exact h
    | dirE =>
      rw [removeEditGo]
      simp only [Bool.false_eq_true, if_false]
      apply ih
      · show x ∈ fs.entries.filter (fun y => !((edit ++ [n]).isPrefixOf y.1))
        rw [List.mem_filter]
        refine ⟨hx, ?_⟩
        rw [h n]
        rfl
      · exact h

theorem remove_edit_files_preserves {pp : Path} {fs : FS} {x : Path × FsEntry}
    (hx : x ∈ fs.entries)
    (h : ∀ c : String, (((pp ++ [PROJECT_EDIT_SUBDIR]) ++ [c]).isPrefixOf x.1) = false) :
    x ∈ (remove_edit_files pp false fs).1.entries := by
  show x ∈ (if isdir fs (pp ++ [PROJECT_EDIT_SUBDIR]) then
      removeEditGo false (pp ++ [PROJECT_EDIT_SUBDIR])
        (scandir fs (pp ++ [PROJECT_EDIT_SUBDIR])) fs []
    else (fs, [])).1.entries
  by_cases hd : isdir fs (pp ++ [PROJECT_EDIT_SUBDIR]) = true
  · rw [if_pos hd]
    exact removeEditGo_preserves _ _ fs [] x hx h
  · rw [if_neg hd]
    exact hx

theorem filterMap_filter_eq {α β : Type _} (l : List α) (p : α → Bool) (f : α → Option β)
    (h : ∀ a ∈ l, p a = false → f a = none) :
    (l.filter p).filterMap f = l.filterMap f := by
  induction l with
  | nil => rfl
  | cons a t ih =>
    by_cases hp : p a = true
    · rw [filter_cons_eq_pos p a t hp]
      cases hf : f a with
      | none =>
        rw [List.filterMap_cons_none hf, List.filterMap_cons_none hf]
        exact ih (fun b hb => h b (List.mem_cons_of_mem a hb))
      | some v =>
        rw [List.filterMap_cons_some hf, List.filterMap_cons_some hf]
        rw [ih (fun b hb => h b (List.mem_cons_of_mem a hb))]
    · have hp' : p a = false := by
        cases hpp : p a
        · rfl
        · exact absurd hpp hp
      rw [filter_cons_eq_neg p a t hp']
      rw [List.filterMap_cons_none (h a (List.mem_cons_self a t) hp')]
      exact ih (fun b hb => h b (List.mem_cons_of_mem a hb))

theorem scandir_elem_path {d : Path} {e : Path × FsEntry} {n : String} {v : FsEntry}
    (h : (if e.1.take d.length == d then
        match e.1.drop d.length with
        | [n] => some (n, e.2)
        | _ => none
      else none) = some (n, v)) : e.1 = d ++ [n] := by
  by_cases ht : (e.1.take d.length == d) = true
  · rw [if_pos ht] at h
    cases hd : e.1.drop d.length with
    | nil =>
      rw [hd] at h
      cases h
    | cons a t =>
      cases t with
      | nil =>
        rw [hd] at h
        have h2 : (some (a, e.2) : Option (String × FsEntry)) = some (n, v) := h
        have h3 : a = n := by
          cases h2
          rfl
        conv_lhs => rw [← List.take_append_drop d.length e.1]
        rw [hd, beq_iff_eq.mp ht, h3]
      | cons b t2 =>
        rw [hd] at h
        cases h
  · rw [if_neg ht] at h
    cases h

theorem removeEditGo_scandir_other (edit : Path) :
    ∀ (children : List (String × FsEntry)) (fs : FS) (evs : List Event) (d : Path),
      (∀ (c x : String), (((edit ++ [c]).isPrefixOf (d ++ [x]))) = false) →
      scandir (removeEditGo false edit children fs evs).1 d = scandir fs d := by
  intro children
  induction children with
  | nil => intro fs evs d _; rfl
  | cons a rest ih =>
    obtain ⟨n, e⟩ := a
    intro fs evs d h
    cases e with
    | fileE i =>
      rw [removeEditGo]
      simp only [Bool.false_eq_true, if_false]
      rw [ih _ _ d h]
      unfold scandir os_unlink
      dsimp only
      apply filterMap_filter_eq
      intro a ha hp
      rw [Bool.not_eq_false', beq_iff_eq] at hp
      cases hf : (if a.1.take d.length == d then
          match a.1.drop d.length with
          | [m] => some (m, a.2)
          | _ => none
        else none) with
      | none => rfl
      | some v =>
        exfalso
        obtain ⟨m, ve⟩ := v
        have hpath := scandir_elem_path hf
        have hcontra := h n m
        rw [← hpath, ← hp, isPrefixOf_self_true] at hcontra
        cases hcontra
    | dirE =>
      rw [removeEditGo]
      simp only [Bool.false_eq_true, if_false]
      rw [ih _ _ d h]
      unfold scandir rmtree
      dsimp only
      apply filterMap_filter_eq
      intro a ha hp
      rw [Bool.not_eq_false'] at hp
      cases hf : (if a.1.take d.length == d then
          match a.1.drop d.length with
          | [m] => some (m, a.2)
          | _ => none
        else none) with
      | none => rfl
      | some v =>
        exfalso
        obtain ⟨m, ve⟩ := v
        have hpath := scandir_elem_path hf
        have hcontra := h n m
        rw [← hpath] at hcontra
        rw [hp] at hcontra
        cases hcontra

theorem remove_edit_files_scandir_other {pp : Path} (fs : FS) (d : Path)
    (h : ∀ (c x : String), (((pp ++ [PROJECT_EDIT_SUBDIR]) ++ [c]).isPrefixOf (d ++ [x])) = false) :
    scandir (remove_edit_files pp false fs).1 d = scandir fs d := by
  show scandir (if isdir fs (pp ++ [PROJECT_EDIT_SUBDIR]) then
      removeEditGo false (pp ++ [PROJECT_EDIT_SUBDIR])
        (scandir fs (pp ++ [PROJECT_EDIT_SUBDIR])) fs []
    else (fs, [])).1 d = _
  by_cases hd : isdir fs (pp ++ [PROJECT_EDIT_SUBDIR]) = true
  · rw [if_pos hd]
    exact removeEditGo_scandir_other _ _ fs [] d h
  · rw [if_neg hd]


/-- The edit-stage removal never touches the raw subdirectory, so the
raw chmod-target list is unchanged by it. -/
theorem raw_dirty_paths_edit_stable (pp : Path) (fs : FS) :
    raw_dirty_paths pp (remove_edit_files pp false fs).1 = raw_dirty_paths pp fs := by
  have hpe : path_exists (remove_edit_files pp false fs).1 (pp ++ [PROJECT_RAW_SUBDIR]) =
      path_exists fs (pp ++ [PROJECT_RAW_SUBDIR]) := by
    unfold path_exists
    rw [remove_edit_files_lookup_shallow (fun c => editChild_not_prefix_rawdir pp c)]
  have hsc : scandir (remove_edit_files pp false fs).1 (pp ++ [PROJECT_RAW_SUBDIR]) =
      scandir fs (pp ++ [PROJECT_RAW_SUBDIR]) :=
    remove_edit_files_scandir_other fs _ (fun c x => editChild_not_prefix_raw pp c x)
  have hrf : raw_files pp (remove_edit_files pp false fs).1 = raw_files pp fs := by
    unfold raw_files
    rw [hsc]
  have hmode : ∀ n : String,
      st_mode (remove_edit_files pp false fs).1 (pp ++ [PROJECT_RAW_SUBDIR] ++ [n]) =
        st_mode fs (pp ++ [PROJECT_RAW_SUBDIR] ++ [n]) := by
    intro n
    apply st_mode_congr
    · exact remove_edit_files_lookup_shallow (fun c => editChild_not_prefix_raw pp c n)
    · exact remove_edit_files_inodes pp fs
  unfold raw_dirty_paths
  rw [hpe, hrf]
  by_cases h : path_exists fs (pp ++ [PROJECT_RAW_SUBDIR]) = true
  · rw [if_pos h, if_pos h]
    congr 1
    apply List.filter_congr
    intro n _
    dsimp only
    rw [hmode n]
  · rw [if_neg h, if_neg h]

/-- The edit-stage removal never touches project-root files, so the
root chmod-target list is unchanged by it. -/
theorem root_dirty_paths_edit_stable (pp : Path) (fs : FS) :
    root_dirty_paths pp (remove_edit_files pp false fs).1 = root_dirty_paths pp fs := by
  have hsc : scandir (remove_edit_files pp false fs).1 pp = scandir fs pp :=
    remove_edit_files_scandir_other fs pp (fun c x => editChild_not_prefix_root pp c x)
  have hrf : project_root_files pp (remove_edit_files pp false fs).1 =
      project_root_files pp fs := by
    unfold project_root_files
    rw [hsc]
  have hmode : ∀ n : String,
      st_mode (remove_edit_files pp false fs).1 (pp ++ [n]) = st_mode fs (pp ++ [n]) := by
    intro n
    apply st_mode_congr
    · exact remove_edit_files_lookup_shallow (fun c => editChild_not_prefix_root pp c n)
    · exact remove_edit_files_inodes pp fs
  unfold root_dirty_paths
  rw [hrf]
  congr 1
  apply List.filter_congr
  intro n _
  dsimp only
  rw [hmode n]

/-- A raw chmod target of the swept state was already a raw chmod
target before the sweep. -/
theorem raw_dirty_sweep_forward {pp : Path} {fs : FS} {q : Path}
    (hnd : (fs.entries.map Prod.fst).Nodup)
    (hq : q ∈ raw_dirty_paths pp (remove_dot_files pp false fs).1) :
    q ∈ raw_dirty_paths pp fs := by
  have hpeq : path_exists (remove_dot_files pp false fs).1 (pp ++ [PROJECT_RAW_SUBDIR]) =
      path_exists fs (pp ++ [PROJECT_RAW_SUBDIR]) := by
    unfold path_exists
    rw [remove_dot_files_lookup_unmatched hnd
      (dotGlobMatch_root_nonhidden (m := PROJECT_RAW_SUBDIR) (by decide))]
  unfold raw_dirty_paths at hq ⊢
  by_cases hpe : path_exists (remove_dot_files pp false fs).1 (pp ++ [PROJECT_RAW_SUBDIR]) = true
  · rw [if_pos hpe] at hq
    rw [if_pos (hpeq.symm.trans hpe)]
    rw [List.mem_map] at hq ⊢
    obtain ⟨n, hn, hgn⟩ := hq
    rw [List.mem_filter] at hn
    obtain ⟨hnm, hdirty0⟩ := hn
    have hdirty : decide (st_mode (remove_dot_files pp false fs).1
        (pp ++ [PROJECT_RAW_SUBDIR] ++ [n]) &&& 0o333 ≠ 0) = true := hdirty0
    obtain ⟨i, hmem⟩ := raw_files_mem_inv hnm
    have hmem2 := hmem
    rw [remove_dot_files_entries_real, List.mem_filter] at hmem2
    have hdgf0 : (!(dotGlobMatch pp (pp ++ [PROJECT_RAW_SUBDIR, n]))) = true := hmem2.2
    have hdgf : dotGlobMatch pp (pp ++ [PROJECT_RAW_SUBDIR, n]) = false := by
      rw [Bool.not_eq_true'] at hdgf0
      exact hdgf0
    have hlook : lookupEntry (remove_dot_files pp false fs).1
        (pp ++ [PROJECT_RAW_SUBDIR] ++ [n]) =
        lookupEntry fs (pp ++ [PROJECT_RAW_SUBDIR] ++ [n]) := by
      apply remove_dot_files_lookup_unmatched hnd
      rw [List.append_assoc]
      exact hdgf
    have hmode : st_mode (remove_dot_files pp false fs).1 (pp ++ [PROJECT_RAW_SUBDIR] ++ [n]) =
        st_mode fs (pp ++ [PROJECT_RAW_SUBDIR] ++ [n]) :=
      st_mode_congr hlook (remove_dot_files_inodes pp fs)
    refine ⟨n, ?_, hgn⟩
    rw [List.mem_filter]
    refine ⟨raw_files_mem_of_entry hmem2.1, ?_⟩
    rw [hmode] at hdirty
    exact hdirty
  · rw [if_neg hpe] at hq
    cases hq

/-- A raw chmod target of the original state is still a raw chmod
target after the sweep, unless the sweep itself removed that path. -/
theorem raw_dirty_sweep_back {pp : Path} {fs : FS} {q : Path}
    (hnd : (fs.entries.map Prod.fst).Nodup)
    (hq : q ∈ raw_dirty_paths pp fs) :
    q ∈ raw_dirty_paths pp (remove_dot_files pp false fs).1 ∨ q ∈ glob_dot_files pp fs := by
  have hpeq : path_exists (remove_dot_files pp false fs).1 (pp ++ [PROJECT_RAW_SUBDIR]) =
      path_exists fs (pp ++ [PROJECT_RAW_SUBDIR]) := by
    unfold path_exists
    rw [remove_dot_files_lookup_unmatched hnd
      (dotGlobMatch_root_nonhidden (m := PROJECT_RAW_SUBDIR) (by decide))]
  unfold raw_dirty_paths at hq ⊢
  by_cases hpe : path_exists fs (pp ++ [PROJECT_RAW_SUBDIR]) = true
  · rw [if_pos hpe] at hq
    rw [List.mem_map] at hq
    obtain ⟨n, hn, hgn0⟩ := hq
    have hgn : pp ++ [PROJECT_RAW_SUBDIR] ++ [n] = q := hgn0
    rw [List.mem_filter] at hn
    obtain ⟨hnm, hdirty0⟩ := hn
    have hdirty : decide (st_mode fs (pp ++ [PROJECT_RAW_SUBDIR] ++ [n]) &&& 0o333 ≠ 0) =
        true := hdirty0
    obtain ⟨i, hmem⟩ := raw_files_mem_inv hnm
    by_cases hdg : dotGlobMatch pp (pp ++ [PROJECT_RAW_SUBDIR, n]) = true
    · right
      have hg := mem_glob_of_match hmem hdg
      rw [← hgn, List.append_assoc]
      exact hg
    · left
      have hdgf : dotGlobMatch pp (pp ++ [PROJECT_RAW_SUBDIR, n]) = false := by
        cases hc : dotGlobMatch pp (pp ++ [PROJECT_RAW_SUBDIR, n])
        · rfl
        · exact absurd hc hdg
      have hmemF : (pp ++ [PROJECT_RAW_SUBDIR, n], FsEntry.fileE i) ∈
          (remove_dot_files pp false fs).1.entries := by
        rw [remove_dot_files_entries_real, List.mem_filter]
        refine ⟨hmem, ?_⟩
        show (!(dotGlobMatch pp (pp ++ [PROJECT_RAW_SUBDIR, n]))) = true
        rw [hdgf]
        rfl
      rw [if_pos (hpeq.trans hpe)]
      rw [List.mem_map]
      refine ⟨n, ?_, hgn0⟩
      rw [List.mem_filter]
      refine ⟨raw_files_mem_of_entry hmemF, ?_⟩
      have hlook : lookupEntry (remove_dot_files pp false fs).1
          (pp ++ [PROJECT_RAW_SUBDIR] ++ [n]) =
          lookupEntry fs (pp ++ [PROJECT_RAW_SUBDIR] ++ [n]) := by
        apply remove_dot_files_lookup_unmatched hnd
        rw [List.append_assoc]
        exact hdgf
      have hmode : st_mode (remove_dot_files pp false fs).1
          (pp ++ [PROJECT_RAW_SUBDIR] ++ [n]) =
          st_mode fs (pp ++ [PROJECT_RAW_SUBDIR] ++ [n]) :=
        st_mode_congr hlook (remove_dot_files_inodes pp fs)
      show decide (st_mode (remove_dot_files pp false fs).1
          (pp ++ [PROJECT_RAW_SUBDIR] ++ [n]) &&& 0o333 ≠ 0) = true
      rw [hmode]
      exact hdirty
  · rw [if_neg hpe] at hq
    cases hq

/-- A root chmod target of the swept state was already a root chmod
target before the sweep. -/
theorem root_dirty_sweep_forward {pp : Path} {fs : FS} {q : Path}
    (hnd : (fs.entries.map Prod.fst).Nodup)
    (hq : q ∈ root_dirty_paths pp (remove_dot_files pp false fs).1) :
    q ∈ root_dirty_paths pp fs := by
  unfold root_dirty_paths at hq ⊢
  rw [List.mem_map] at hq ⊢
  obtain ⟨n, hn, hgn⟩ := hq
  rw [List.mem_filter] at hn
  obtain ⟨hnm, hdirty0⟩ := hn
  have hdirty : (if splitextLower n == ".xmp" then
      decide (st_mode (remove_dot_files pp false fs).1 (pp ++ [n]) &&& 0o111 ≠ 0 ∨
        st_mode (remove_dot_files pp false fs).1 (pp ++ [n]) &&& 0o666 ≠ 0o666)
    else decide (st_mode (remove_dot_files pp false fs).1 (pp ++ [n]) &&& 0o333 ≠ 0)) =
      true := hdirty0
  obtain ⟨i, hmem⟩ := project_root_files_mem_inv hnm
  have hmem2 := hmem
  rw [remove_dot_files_entries_real, List.mem_filter] at hmem2
  have hdgf0 : (!(dotGlobMatch pp (pp ++ [n]))) = true := hmem2.2
  have hdgf : dotGlobMatch pp (pp ++ [n]) = false := by
    rw [Bool.not_eq_true'] at hdgf0
    exact hdgf0
  have hmode : st_mode (remove_dot_files pp false fs).1 (pp ++ [n]) =
      st_mode fs (pp ++ [n]) :=
    st_mode_congr (remove_dot_files_lookup_unmatched hnd hdgf)
      (remove_dot_files_inodes pp fs)
  refine ⟨n, ?_, hgn⟩
  rw [List.mem_filter]
  refine ⟨project_root_files_mem_of_entry hmem2.1, ?_⟩
  rw [hmode] at hdirty
  exact hdirty

/-- A root chmod target of the original state is still a root chmod
target after the sweep, unless the sweep itself removed that path. -/
theorem root_dirty_sweep_back {pp : Path} {fs : FS} {q : Path}
    (hnd : (fs.entries.map Prod.fst).Nodup)
    (hq : q ∈ root_dirty_paths pp fs) :
    q ∈ root_dirty_paths pp (remove_dot_files pp false fs).1 ∨ q ∈ glob_dot_files pp fs := by
  unfold root_dirty_paths at hq ⊢
  rw [List.mem_map] at hq
  obtain ⟨n, hn, hgn⟩ := hq
  rw [List.mem_filter] at hn
  obtain ⟨hnm, hdirty0⟩ := hn
  have hdirty : (if splitextLower n == ".xmp" then
      decide (st_mode fs (pp ++ [n]) &&& 0o111 ≠ 0 ∨
        st_mode fs (pp ++ [n]) &&& 0o666 ≠ 0o666)
    else decide (st_mode fs (pp ++ [n]) &&& 0o333 ≠ 0)) = true := hdirty0
  obtain ⟨i, hmem⟩ := project_root_files_mem_inv hnm
  by_cases hdg : dotGlobMatch pp (pp ++ [n]) = true
  · right
    have hg := mem_glob_of_match hmem hdg
    have hgn2 : pp ++ [n] = q := hgn
    rw [← hgn2]
    exact hg
  · left
    have hdgf : dotGlobMatch pp (pp ++ [n]) = false := by
      cases hc : dotGlobMatch pp (pp ++ [n])
      · rfl
      · exact absurd hc hdg
    have hmemF : (pp ++ [n], FsEntry.fileE i) ∈ (remove_dot_files pp false fs).1.entries := by
      rw [remove_dot_files_entries_real, List.mem_filter]
      refine ⟨hmem, ?_⟩
      show (!(dotGlobMatch pp (pp ++ [n]))) = true
      rw [hdgf]
      rfl
    have hmode : st_mode (remove_dot_files pp false fs).1 (pp ++ [n]) =
        st_mode fs (pp ++ [n]) :=
      st_mode_congr (remove_dot_files_lookup_unmatched hnd hdgf)
        (remove_dot_files_inodes pp fs)
    rw [List.mem_map]
    refine ⟨n, ?_, hgn⟩
    rw [List.mem_filter]
    refine ⟨project_root_files_mem_of_entry hmemF, ?_⟩
    show (if splitextLower n == ".xmp" then
        decide (st_mode (remove_dot_files pp false fs).1 (pp ++ [n]) &&& 0o111 ≠ 0 ∨
          st_mode (remove_dot_files pp false fs).1 (pp ++ [n]) &&& 0o666 ≠ 0o666)
      else decide (st_mode (remove_dot_files pp false fs).1 (pp ++ [n]) &&& 0o333 ≠ 0)) = true
    rw [hmode]
    exact hdirty

/-- An edit-stage child of the swept state was an edit-stage child
before the sweep. -/
theorem edit_child_sweep_forward {pp : Path} {fs : FS} {q : Path}
    (hnd : (fs.entries.map Prod.fst).Nodup)
    (hq : q ∈ edit_child_paths pp (remove_dot_files pp false fs).1) :
    q ∈ edit_child_paths pp fs := by
  unfold edit_child_paths at hq ⊢
  have hlookE : lookupEntry (remove_dot_files pp false fs).1 (pp ++ [PROJECT_EDIT_SUBDIR]) =
      lookupEntry fs (pp ++ [PROJECT_EDIT_SUBDIR]) :=
    remove_dot_files_lookup_unmatched hnd
      (dotGlobMatch_root_nonhidden (m := PROJECT_EDIT_SUBDIR) (by decide))
  have hisod : isdir (remove_dot_files pp false fs).1 (pp ++ [PROJECT_EDIT_SUBDIR]) =
      isdir fs (pp ++ [PROJECT_EDIT_SUBDIR]) := by
    unfold isdir
    rw [hlookE]
  by_cases hd : isdir (remove_dot_files pp false fs).1 (pp ++ [PROJECT_EDIT_SUBDIR]) = true
  · rw [if_pos hd] at hq
    rw [if_pos (hisod.symm.trans hd)]
    rw [List.mem_map] at hq ⊢
    obtain ⟨⟨c, e⟩, hc, hgc⟩ := hq
    refine ⟨(c, e), ?_, hgc⟩
    have hment := mem_scandir_entry hc
    exact scandir_mem_of_entry ((remove_dot_files_entries_sublist pp fs).subset hment)
  · rw [if_neg hd] at hq
    cases hq

/-- An edit-stage child of the original state is still one after the
sweep, unless the sweep itself removed that path. -/
theorem edit_child_sweep_back {pp : Path} {fs : FS} {q : Path}
    (hnd : (fs.entries.map Prod.fst).Nodup)
    (hq : q ∈ edit_child_paths pp fs) :
    q ∈ edit_child_paths pp (remove_dot_files pp false fs).1 ∨ q ∈ glob_dot_files pp fs := by
  unfold edit_child_paths at hq ⊢
  have hlookE : lookupEntry (remove_dot_files pp false fs).1 (pp ++ [PROJECT_EDIT_SUBDIR]) =
      lookupEntry fs (pp ++ [PROJECT_EDIT_SUBDIR]) :=
    remove_dot_files_lookup_unmatched hnd
      (dotGlobMatch_root_nonhidden (m := PROJECT_EDIT_SUBDIR) (by decide))
  have hisod : isdir (remove_dot_files pp false fs).1 (pp ++ [PROJECT_EDIT_SUBDIR]) =
      isdir fs (pp ++ [PROJECT_EDIT_SUBDIR]) := by
    unfold isdir
    rw [hlookE]
  by_cases hd : isdir fs (pp ++ [PROJECT_EDIT_SUBDIR]) = true
  · rw [if_pos hd] at hq
    rw [List.mem_map] at hq
    obtain ⟨⟨c, e⟩, hc, hgc⟩ := hq
    have hment := mem_scandir_entry hc
    by_cases hdg : dotGlobMatch pp ((pp ++ [PROJECT_EDIT_SUBDIR]) ++ [c]) = true
    · right
      have hg := mem_glob_of_match hment hdg
      have hgc2 : (pp ++ [PROJECT_EDIT_SUBDIR]) ++ [c] = q := hgc
      rw [← hgc2]
      exact hg
    · left
      have hdgf : dotGlobMatch pp ((pp ++ [PROJECT_EDIT_SUBDIR]) ++ [c]) = false := by
        cases hc2 : dotGlobMatch pp ((pp ++ [PROJECT_EDIT_SUBDIR]) ++ [c])
        · rfl
        · exact absurd hc2 hdg
      rw [if_pos (hisod.trans hd)]
      rw [List.mem_map]
      refine ⟨(c, e), ?_, hgc⟩
      apply scandir_mem_of_entry
      rw [remove_dot_files_entries_real, List.mem_filter]
      refine ⟨hment, ?_⟩
      show (!(dotGlobMatch pp ((pp ++ [PROJECT_EDIT_SUBDIR]) ++ [c]))) = true
      rw [hdgf]
      rfl
  · rw [if_neg hd] at hq
    cases hq

/-- The state after the (real) dot-file sweep stage of
`cleanup_project`, with the stage's flag. -/
def sweep1 (pp : Path) (rd : Bool) (fs : FS) : FS :=
  (if rd then remove_dot_files pp false fs else (fs, [])).1

/-- The state after the (real) dot-file sweep and edit-removal stages
of `cleanup_project`, with the stages' flags. -/
def sweep2 (pp : Path) (rd re : Bool) (fs : FS) : FS :=
  (if re then remove_edit_files pp false (sweep1 pp rd fs) else (sweep1 pp rd fs, [])).1

/-- Dry-run characterization of the per-project pipeline without
deduplication: the state is untouched and the reported paths are the
glob matches, the edit children and the chmod targets, all computed on
the starting state. -/
theorem cleanup_project_dry_char (pp : Path) (fs : FS) (rd re fp : Bool) :
    (cleanup_project pp rd re false fp true fs).1 = fs ∧
    reportedPaths (cleanup_project pp rd re false fp true fs).2 =
      ((if rd then glob_dot_files pp fs else []) ++
       (if re then edit_child_paths pp fs else [])) ++
      (if fp then raw_dirty_paths pp fs ++ root_dirty_paths pp fs else []) := by
  have hs1 : (if rd then remove_dot_files pp true fs else (fs, [])).1 = fs := by
    cases rd
    · rfl
    · exact (remove_dot_files_dry pp fs).1
  have hs2 : (if re then remove_edit_files pp true fs else (fs, [])).1 = fs := by
    cases re
    · rfl
    · exact (remove_edit_files_dry pp fs).1
  have hs4 : (if fp then set_files_permissions pp false true fs else (fs, [])).1 = fs := by
    cases fp
    · rfl
    · exact set_files_permissions_dry_state pp fs
  have hr1 : reportedPaths (if rd then remove_dot_files pp true fs else (fs, [])).2 =
      (if rd then glob_dot_files pp fs else []) := by
    cases rd
    · rfl
    · exact (remove_dot_files_dry pp fs).2
  have hr2 : reportedPaths (if re then remove_edit_files pp true fs else (fs, [])).2 =
      (if re then edit_child_paths pp fs else []) := by
    cases re
    · rfl
    · exact (remove_edit_files_dry pp fs).2
  have hr4 : reportedPaths (if fp then set_files_permissions pp false true fs
      else (fs, [])).2 =
      (if fp then raw_dirty_paths pp fs ++ root_dirty_paths pp fs else []) := by
    cases fp
    · rfl
    · exact set_files_permissions_dry_reported pp fs
  constructor
  · have hst : (cleanup_project pp rd re false fp true fs).1 =
        (if fp then set_files_permissions pp false true
          (if re then remove_edit_files pp true
            (if rd then remove_dot_files pp true fs else (fs, [])).1
          else ((if rd then remove_dot_files pp true fs else (fs, [])).1, [])).1
        else ((if re then remove_edit_files pp true
            (if rd then remove_dot_files pp true fs else (fs, [])).1
          else ((if rd then remove_dot_files pp true fs else (fs, [])).1, [])).1, [])).1 :=
      rfl
    rw [hst, hs1, hs2, hs4]
  · have hev : (cleanup_project pp rd re false fp true fs).2 =
        (if rd then remove_dot_files pp true fs else (fs, [])).2 ++
        (if re then remove_edit_files pp true
            (if rd then remove_dot_files pp true fs else (fs, [])).1
          else ((if rd then remove_dot_files pp true fs else (fs, [])).1, [])).2 ++
        ([] : List Event) ++
        (if fp then set_files_permissions pp false true
            (if re then remove_edit_files pp true
              (if rd then remove_dot_files pp true fs else (fs, [])).1
            else ((if rd then remove_dot_files pp true fs else (fs, [])).1, [])).1
          else ((if re then remove_edit_files pp true
              (if rd then remove_dot_files pp true fs else (fs, [])).1
            else ((if rd then remove_dot_files pp true fs else (fs, [])).1, [])).1, [])).2 :=
      rfl
    rw [hev, hs1, hs2]
    rw [reportedPaths_append, reportedPaths_append, reportedPaths_append]
    rw [hr1, hr2, hr4]
    show ((if rd then glob_dot_files pp fs else []) ++
        (if re then edit_child_paths pp fs else []) ++ []) ++
        (if fp then raw_dirty_paths pp fs ++ root_dirty_paths pp fs else []) = _
    rw [List.append_nil]

/-- Real-run characterization of the per-project pipeline without
deduplication: the performed operations are the glob matches on the
initial state, the edit children of the swept state, and the chmod
targets of the swept-and-emptied state. -/
theorem cleanup_project_real_char (pp : Path) (fs : FS) (rd re fp : Bool)
    (hnd : (fs.entries.map Prod.fst).Nodup) (hinj : InoInj fs) :
    opPaths (cleanup_project pp rd re false fp false fs).2 =
      ((if rd then glob_dot_files pp fs else []) ++
       (if re then edit_child_paths pp (sweep1 pp rd fs) else [])) ++
      (if fp then raw_dirty_paths pp (sweep2 pp rd re fs) ++
        root_dirty_paths pp (sweep2 pp rd re fs) else []) := by
  have hnd1 : ((sweep1 pp rd fs).entries.map Prod.fst).Nodup := by
    unfold sweep1
    cases rd
    · exact hnd
    · exact List.Nodup.sublist (List.Sublist.map _ (remove_dot_files_entries_sublist pp fs))
        hnd
  have hinj1 : InoInj (sweep1 pp rd fs) := by
    unfold sweep1
    cases rd
    · exact hinj
    · exact InoInj_of_subset
        (fun x hx => (remove_dot_files_entries_sublist pp fs).subset hx) hinj
  have hnd2 : ((sweep2 pp rd re fs).entries.map Prod.fst).Nodup := by
    unfold sweep2
    cases re
    · exact hnd1
    · exact List.Nodup.sublist
        (List.Sublist.map _ (remove_edit_files_entries_sublist pp (sweep1 pp rd fs))) hnd1
  have hinj2 : InoInj (sweep2 pp rd re fs) := by
    unfold sweep2
    cases re
    · exact hinj1
    · exact InoInj_of_subset
        (fun x hx => (remove_edit_files_entries_sublist pp (sweep1 pp rd fs)).subset hx) hinj1
  have h1 : opPaths (if rd then remove_dot_files pp false fs else (fs, [])).2 =
      (if rd then glob_dot_files pp fs else []) := by
    cases rd
    · rfl
    · exact remove_dot_files_real_ops pp fs
  have h2 : opPaths (if re then remove_edit_files pp false (sweep1 pp rd fs)
      else (sweep1 pp rd fs, [])).2 =
      (if re then edit_child_paths pp (sweep1 pp rd fs) else []) := by
    cases re
    · rfl
    · exact remove_edit_files_real_ops pp (sweep1 pp rd fs)
  have h4 : opPaths (if fp then set_files_permissions pp false false (sweep2 pp rd re fs)
      else (sweep2 pp rd re fs, [])).2 =
      (if fp then raw_dirty_paths pp (sweep2 pp rd re fs) ++
        root_dirty_paths pp (sweep2 pp rd re fs) else []) := by
    cases fp
    · rfl
    · exact set_files_permissions_real_ops pp (sweep2 pp rd re fs) hnd2 hinj2
  have hev : (cleanup_project pp rd re false fp false fs).2 =
      (if rd then remove_dot_files pp false fs else (fs, [])).2 ++
      (if re then remove_edit_files pp false (sweep1 pp rd fs)
        else (sweep1 pp rd fs, [])).2 ++
      ([] : List Event) ++
      (if fp then set_files_permissions pp false false (sweep2 pp rd re fs)
        else (sweep2 pp rd re fs, [])).2 := rfl
  rw [hev, opPaths_append, opPaths_append, opPaths_append]
  rw [h1, h2, h4]
  show ((if rd then glob_dot_files pp fs else []) ++
      (if re then edit_child_paths pp (sweep1 pp rd fs) else []) ++ []) ++
      (if fp then raw_dirty_paths pp (sweep2 pp rd re fs) ++
        root_dirty_paths pp (sweep2 pp rd re fs) else []) = _
  rw [List.append_nil]

/-- C3 (amended, per-project scope without deduplication): on a
duplicate-free state whose regular files share no storage, a dry run of
the per-project pipeline with deduplication disabled leaves the
filesystem untouched, and a path is reported as affected by the dry run
exactly when the real run performs an operation on it. -/
theorem dry_run_fidelity_no_dedup (pp : Path) (fs : FS) (rd re fp : Bool) (q : Path)
    (hnd : (fs.entries.map Prod.fst).Nodup)
    (hinj : inoInjB fs = true) :
    (cleanup_project pp rd re false fp true fs).1 = fs ∧
    (q ∈ reportedPaths (cleanup_project pp rd re false fp true fs).2 ↔
      q ∈ opPaths (cleanup_project pp rd re false fp false fs).2) := by
  have hinjP : InoInj fs := inoInjB_spec hinj
  obtain ⟨hstate, hdryR⟩ := cleanup_project_dry_char pp fs rd re fp
  have hrealR := cleanup_project_real_char pp fs rd re fp hnd hinjP
  refine ⟨hstate, ?_⟩
  rw [hdryR, hrealR]
  have hstab_raw : raw_dirty_paths pp (sweep2 pp rd re fs) =
      raw_dirty_paths pp (sweep1 pp rd fs) := by
    unfold sweep2
    cases re
    · rfl
    · exact raw_dirty_paths_edit_stable pp (sweep1 pp rd fs)
  have hstab_root : root_dirty_paths pp (sweep2 pp rd re fs) =
      root_dirty_paths pp (sweep1 pp rd fs) := by
    unfold sweep2
    cases re
    · rfl
    · exact root_dirty_paths_edit_stable pp (sweep1 pp rd fs)
  rw [hstab_raw, hstab_root]
  cases rd with
  | false =>
    have h1 : sweep1 pp false fs = fs := rfl
    rw [h1]
  | true =>
    have h1 : sweep1 pp true fs = (remove_dot_files pp false fs).1 := rfl
    rw [h1]
    have hEfwd : q ∈ (if re then edit_child_paths pp (remove_dot_files pp false fs).1
        else []) → q ∈ (if re then edit_child_paths pp fs else []) := by
      cases re
      · intro h
        exact h
      · intro h
        exact edit_child_sweep_forward hnd h
    have hEback : q ∈ (if re then edit_child_paths pp fs else []) →
        q ∈ (if re then edit_child_paths pp (remove_dot_files pp false fs).1 else []) ∨
          q ∈ glob_dot_files pp fs := by
      cases re
      · intro h
        exact Or.inl h
      · intro h
        exact edit_child_sweep_back hnd h
    have hPfwd : q ∈ (if fp then raw_dirty_paths pp (remove_dot_files pp false fs).1 ++
        root_dirty_paths pp (remove_dot_files pp false fs).1 else []) →
        q ∈ (if fp then raw_dirty_paths pp fs ++ root_dirty_paths pp fs else []) := by
      cases fp
      · intro h
        exact h
      · intro h
        have h2 : q ∈ raw_dirty_paths pp (remove_dot_files pp false fs).1 ++
            root_dirty_paths pp (remove_dot_files pp false fs).1 := h
        rw [List.mem_append] at h2
        show q ∈ raw_dirty_paths pp fs ++ root_dirty_paths pp fs
        rw [List.mem_append]
        rcases h2 with h3 | h3
        · exact Or.inl (raw_dirty_sweep_forward hnd h3)
        · exact Or.inr (root_dirty_sweep_forward hnd h3)
    have hPback : q ∈ (if fp then raw_dirty_paths pp fs ++ root_dirty_paths pp fs
        else []) →
        q ∈ (if fp then raw_dirty_paths pp (remove_dot_files pp false fs).1 ++
          root_dirty_paths pp (remove_dot_files pp false fs).1 else []) ∨
          q ∈ glob_dot_files pp fs := by
      cases fp
      · intro h
        exact Or.inl h
      · intro h
        have h2 : q ∈ raw_dirty_paths pp fs ++ root_dirty_paths pp fs := h
        rw [List.mem_append] at h2
        rcases h2 with h3 | h3
        · rcases raw_dirty_sweep_back hnd h3 with h4 | h4
          · left
            show q ∈ raw_dirty_paths pp (remove_dot_files pp false fs).1 ++
              root_dirty_paths pp (remove_dot_files pp false fs).1
            rw [List.mem_append]
            exact Or.inl h4
          · exact Or.inr h4
        · rcases root_dirty_sweep_back hnd h3 with h4 | h4
          · left
            show q ∈ raw_dirty_paths pp (remove_dot_files pp false fs).1 ++
              root_dirty_paths pp (remove_dot_files pp false fs).1
            rw [List.mem_append]
            exact Or.inr h4
          · exact Or.inr h4
    simp only [if_true, List.mem_append]
    constructor
    · rintro ((hg | he) | hp)
      · exact Or.inl (Or.inl hg)
      · rcases hEback he with h | h
        · exact Or.inl (Or.inr h)
        · exact Or.inl (Or.inl h)
      · rcases hPback hp with h | h
        · exact Or.inr h
        · exact Or.inl (Or.inl h)
    · rintro ((hg | he) | hp)
      · exact Or.inl (Or.inl hg)
      · exact Or.inl (Or.inr (hEfwd he))
      · exact Or.inr (hPfwd hp)

/-- A project with a hidden shadow file, a writable raw original, a
non-writable sidecar and a leftover edit-stage file: every stage of a
full (dedup-free) run has work to do. -/
def fsC3w : FS :=
  { entries := [
      (["W"], FsEntry.dirE),
      (["W", "0_RAW"], FsEntry.dirE),
      (["W", "0_RAW", "img.raw"], FsEntry.fileE 1),
      (["W", "img.xmp"], FsEntry.fileE 2),
      (["W", "1_EDIT"], FsEntry.dirE),
      (["W", "1_EDIT", "tmp.jpg"], FsEntry.fileE 3),
      (["W", "._junk"], FsEntry.fileE 4)],
    inodes := [
      (1, { content := "RAW", mode := 0o644 }),
      (2, { content := "XMP", mode := 0o444 }),
      (3, { content := "JPG", mode := 0o644 }),
      (4, { content := "JUNK", mode := 0o644 })] }

theorem dry_run_fidelity_no_dedup_witness :
    (cleanup_project ["W"] true true false true true fsC3w).1 = fsC3w ∧
    (["W", "0_RAW", "img.raw"] ∈
        reportedPaths (cleanup_project ["W"] true true false true true fsC3w).2 ↔
      ["W", "0_RAW", "img.raw"] ∈
        opPaths (cleanup_project ["W"] true true false true false fsC3w).2) :=
  dry_run_fidelity_no_dedup ["W"] fsC3w true true true ["W", "0_RAW", "img.raw"]
    (by decide) (by decide)

end PhotoScripts
